import Mathlib

/-!
# Buffer cache (`kernel/bio.c`) and physical page allocator (`kernel/kalloc.c`)

A shallow embedding of the two kernel modules and proofs about them.

## Representation of the buffer cache

* A buffer is referred to by its index in `bcache.buf` (the C code uses the
  pointer `bcache.buf + k`).
* `bcache.head[i]` is the sentinel of a circular doubly linked list.  The
  list is represented by the sequence of buffers met when following `next`
  from the sentinel back to the sentinel: the first element is
  `head[i].next` (most recently used end), the last one is `head[i].prev`.
  Inserting after the sentinel is `cons`, a walk along `next` is a walk along
  the sequence, a walk along `prev` is a walk along the reversed sequence and
  `b->next->prev = b->prev; b->prev->next = b->next` removes `b` from the
  sequence it is in.
* `uint` fields are natural numbers; increments and decrements are taken
  modulo `2^32`.
* Operations run one at a time, so the bucket spinlocks do not appear in the
  state.  The sleeplock of a buffer is kept, with the pid of its holder.
-/

namespace Bio

/-- Number of hash buckets, `#define NBUCKETS 13`. -/
def NBUCKETS : Nat := 13

/-- Number of values of a C `uint`. -/
def UINT : Nat := 4294967296

/-- The fields of `struct buf` used by `bio.c` (`next`/`prev` are represented
by the bucket sequences, the payload `data` is not represented). `lock` is the
sleeplock: `none` when free, `some pid` when held by process `pid`. -/
structure Buf where
  dev : Nat
  blockno : Nat
  valid : Nat
  refcnt : Nat
  lock : Option Nat
deriving DecidableEq, Repr

/-- One request handed to the disk driver: `virtio_disk_rw(b, write)`, with
the identity `b` carried at that time. -/
structure DiskOp where
  b : Nat
  dev : Nat
  blockno : Nat
  write : Bool
deriving DecidableEq, Repr

/-- A call suspended in `acquiresleep(&b->lock)`: the calling process, the
buffer, and whether the call is a `bread` (which has still to load the buffer
once it holds the sleeplock) or a `bget`. -/
structure Waiter where
  pid : Nat
  b : Nat
  read : Bool
deriving DecidableEq, Repr

/-- The global `bcache`, together with the trace of driver requests issued so
far and the calls that are suspended in `acquiresleep`. `nbuf` is `NBUF`
(from `param.h`). -/
structure Bcache where
  nbuf : Nat
  buf : Nat → Buf
  head : Nat → List Nat
  disk : List DiskOp
  waiting : List Waiter

/-- The `panic` calls of `bio.c`: "bget: no buffers", "bwrite", "brelse". -/
inductive Panic where
  | bget_no_buffers
  | bwrite
  | brelse
deriving DecidableEq, Repr

/-- How a call ends: it returns a value, or it is suspended inside
`acquiresleep(&b->lock)` (the state is the one at the moment of suspension),
or it panics (the state is the one at the moment of the panic). -/
inductive Result (α : Type) where
  | ret (v : α) (s : Bcache)
  | sleep (b : Nat) (s : Bcache)
  | panic (m : Panic) (s : Bcache)

/-- Bucket index: `(dev ^ blockno) % NBUCKETS`. -/
def hash (dev blockno : Nat) : Nat := (dev ^^^ blockno) % NBUCKETS

/-- Assignment to the fields of buffer `b`. -/
def setBuf (s : Bcache) (b : Nat) (v : Buf) : Bcache :=
  { s with buf := Function.update s.buf b v }

/-- The statements `b->next->prev = b->prev; b->prev->next = b->next;`:
`b` leaves the list it is linked in. -/
def unlink (s : Bcache) (b : Nat) : Bcache :=
  { s with head := fun i => (s.head i).filter (fun x => x != b) }

/-- The four statements inserting `b` right after the sentinel
`bcache.head[h]`. -/
def insertHead (s : Bcache) (h b : Nat) : Bcache :=
  { s with head := Function.update s.head h (b :: s.head h) }

/-- Modelled from the spec: `acquiresleep` of `sleeplock.c` (not part of the
sources at hand), "a blocking acquire — the calling thread may suspend here".
The lock is taken when it is free; otherwise the caller is suspended. -/
def acquiresleep (pid b : Nat) (s : Bcache) : Result Nat :=
  match (s.buf b).lock with
  | none => Result.ret b (setBuf s b { s.buf b with lock := some pid })
  | some _ => Result.sleep b s

/-- Modelled from the spec: `holdingsleep` of `sleeplock.c`: the caller holds
the buffer's exclusive lock. -/
def holdingsleep (pid b : Nat) (s : Bcache) : Bool :=
  (s.buf b).lock == some pid

/-- Modelled from the spec: `releasesleep` of `sleeplock.c`. -/
def releasesleep (b : Nat) (s : Bcache) : Bcache :=
  setBuf s b { s.buf b with lock := none }

/-- Modelled from the spec: the storage driver (`virtio_disk_rw`), seen from
the cache as one synchronous request; the request is appended to the trace. -/
def virtio_disk_rw (b : Nat) (write : Bool) (s : Bcache) : Bcache :=
  { s with disk := s.disk ++ [⟨b, (s.buf b).dev, (s.buf b).blockno, write⟩] }

/-- Body of the second loop of `binit` for buffer `b`. -/
def binit_buf (s : Bcache) (b : Nat) : Bcache :=
  insertHead
    (setBuf s b { dev := 4294967295, blockno := 0, valid := 0, refcnt := 0, lock := none })
    (b % NBUCKETS) b

/-- The state after the first loop of `binit`: every bucket list is empty
(the memory of the global `bcache` starts zeroed). -/
def binit_empty (nbuf : Nat) : Bcache :=
  { nbuf := nbuf
    buf := fun _ => { dev := 0, blockno := 0, valid := 0, refcnt := 0, lock := none }
    head := fun _ => []
    disk := []
    waiting := [] }

/-- The function `binit`: every buffer is reset and inserted at the head of bucket
`k % NBUCKETS`, `k` being its index. -/
def binit (nbuf : Nat) : Bcache :=
  (List.range nbuf).foldl binit_buf (binit_empty nbuf)

/-- The first loop of `bget`: walk bucket `h` along `next`, stop at the first
buffer carrying `(dev, blockno)`. -/
def lookup (s : Bcache) (h dev blockno : Nat) : Option Nat :=
  (s.head h).find? (fun b => (s.buf b).dev == dev && (s.buf b).blockno == blockno)

/-- The loop `for(b = bcache.head[i].prev; b != &bcache.head[i]; b = b->prev)`
of `bget`: walk bucket `i` along `prev`, stop at the first buffer with
`refcnt == 0`. -/
def victim (s : Bcache) (i : Nat) : Option Nat :=
  (s.head i).reverse.find? (fun b => (s.buf b).refcnt == 0)

/-- The loop of `bget` over the other buckets, `is` being the bucket indices
still to visit: the first bucket `i != h` with a victim, and that victim. -/
def steal (s : Bcache) (h : Nat) : List Nat → Option (Nat × Nat)
  | [] => none
  | i :: is =>
    if i = h then steal s h is
    else
      match victim s i with
      | some b => some (i, b)
      | none => steal s h is

/-- The assignments `b->dev = dev; b->blockno = blockno; b->valid = 0;
b->refcnt = 1;`. -/
def recycle (s : Bcache) (b dev blockno : Nat) : Bcache :=
  setBuf s b { s.buf b with dev := dev, blockno := blockno, valid := 0, refcnt := 1 }

/-- The part of `bget` that runs under the bucket spinlocks: the buffer chosen
and the state right before `acquiresleep`, or `none` when `bget` panics. -/
def bget_select (dev blockno : Nat) (s : Bcache) : Option (Nat × Bcache) :=
  let h := hash dev blockno
  match lookup s h dev blockno with
  | some b => some (b, setBuf s b { s.buf b with refcnt := ((s.buf b).refcnt + 1) % UINT })
  | none =>
    match victim s h with
    | some b => some (b, recycle s b dev blockno)
    | none =>
      match steal s h (List.range NBUCKETS) with
      | some (_, b) => some (b, insertHead (recycle (unlink s b) b dev blockno) h b)
      | none => none

/-- The function `bget`, called by process `pid`. -/
def bget (pid dev blockno : Nat) (s : Bcache) : Result Nat :=
  match bget_select dev blockno s with
  | some (b, s1) => acquiresleep pid b s1
  | none => Result.panic Panic.bget_no_buffers s

/-- The function `bread`, called by process `pid`. -/
def bread (pid dev blockno : Nat) (s : Bcache) : Result Nat :=
  match bget pid dev blockno s with
  | Result.ret b s1 =>
    if (s1.buf b).valid = 0 then
      let s2 := virtio_disk_rw b false s1
      Result.ret b (setBuf s2 b { s2.buf b with valid := 1 })
    else Result.ret b s1
  | Result.sleep b s1 => Result.sleep b s1
  | Result.panic m s1 => Result.panic m s1

/-- The function `bwrite`, called by process `pid`. -/
def bwrite (pid b : Nat) (s : Bcache) : Result Unit :=
  if !holdingsleep pid b s then Result.panic Panic.bwrite s
  else Result.ret () (virtio_disk_rw b true s)

/-- The function `brelse`, called by process `pid`. -/
def brelse (pid b : Nat) (s : Bcache) : Result Unit :=
  if !holdingsleep pid b s then Result.panic Panic.brelse s
  else
    let s1 := releasesleep b s
    let h := hash (s1.buf b).dev (s1.buf b).blockno
    let s2 := setBuf s1 b { s1.buf b with refcnt := ((s1.buf b).refcnt + UINT - 1) % UINT }
    if (s2.buf b).refcnt = 0 then Result.ret () (insertHead (unlink s2 b) h b)
    else Result.ret () s2

/-- The function `bpin`. -/
def bpin (b : Nat) (s : Bcache) : Bcache :=
  setBuf s b { s.buf b with refcnt := ((s.buf b).refcnt + 1) % UINT }

/-- The function `bunpin`. -/
def bunpin (b : Nat) (s : Bcache) : Bcache :=
  setBuf s b { s.buf b with refcnt := ((s.buf b).refcnt + UINT - 1) % UINT }

/-- A step of the cache: a call of the interface, with the calling process
where the code looks at it, or the resumption `wakeup` of a call that was
suspended in `acquiresleep`. -/
inductive Call where
  | bget (pid dev blockno : Nat)
  | bread (pid dev blockno : Nat)
  | bwrite (pid b : Nat)
  | brelse (pid b : Nat)
  | bpin (b : Nat)
  | bunpin (b : Nat)
  | wakeup (pid b : Nat) (read : Bool)
deriving DecidableEq, Repr

/-- The caller of a `bget` or `bread` that is suspended in `acquiresleep`
joins the processes waiting for the sleeplock. -/
def suspend (w : Waiter) (s : Bcache) : Bcache :=
  { s with waiting := w :: s.waiting }

/-- Modelled from the spec: the rest of a call that was suspended in
`acquiresleep`, run when the process is woken with the sleeplock free: the
process takes the sleeplock and `bget` returns; a `bread` then loads the
buffer if it is not valid, as the rest of `bread` does. -/
def resume (w : Waiter) (s : Bcache) : Bcache :=
  let s1 : Bcache :=
    { setBuf s w.b { s.buf w.b with lock := some w.pid } with
      waiting := s.waiting.erase w }
  if w.read = true ∧ (s1.buf w.b).valid = 0 then
    let s2 := virtio_disk_rw w.b false s1
    setBuf s2 w.b { s2.buf w.b with valid := 1 }
  else s1

/-- The state left by a step: by a call that returns, by a `bget` or `bread`
that is suspended in `acquiresleep` (what it did before is done, and its
caller waits), or by the resumption of a suspended call whose sleeplock is
free. `none` when the call panics or the step is not possible. A buffer
argument is a pointer into `bcache.buf`. -/
def exec (c : Call) (s : Bcache) : Option Bcache :=
  match c with
  | Call.bget pid dev blockno =>
    match bget pid dev blockno s with
    | Result.ret _ s' => some s'
    | Result.sleep b s1 => some (suspend ⟨pid, b, false⟩ s1)
    | Result.panic _ _ => none
  | Call.bread pid dev blockno =>
    match bread pid dev blockno s with
    | Result.ret _ s' => some s'
    | Result.sleep b s1 => some (suspend ⟨pid, b, true⟩ s1)
    | Result.panic _ _ => none
  | Call.bwrite pid b =>
    if b < s.nbuf then
      match bwrite pid b s with
      | Result.ret _ s' => some s'
      | _ => none
    else none
  | Call.brelse pid b =>
    if b < s.nbuf then
      match brelse pid b s with
      | Result.ret _ s' => some s'
      | _ => none
    else none
  | Call.bpin b => if b < s.nbuf then some (bpin b s) else none
  | Call.bunpin b => if b < s.nbuf then some (bunpin b s) else none
  | Call.wakeup pid b read =>
    if (⟨pid, b, read⟩ : Waiter) ∈ s.waiting ∧ (s.buf b).lock = none then
      some (resume ⟨pid, b, read⟩ s)
    else none

/-- Steps taken one after the other. -/
def run (s : Bcache) : List Call → Option Bcache
  | [] => some s
  | c :: cs =>
    match exec c s with
    | some s' => run s' cs
    | none => none

/-- The states the cache goes through after `binit`, calls running one at a
time; a call that has to wait for a sleeplock is suspended and resumed later,
other calls running in between. -/
inductive Reachable (nbuf : Nat) : Bcache → Prop where
  | init : Reachable nbuf (binit nbuf)
  | step (s s' : Bcache) (c : Call) : Reachable nbuf s → exec c s = some s' → Reachable nbuf s'

/-- Number of links to buffer `b` over all bucket lists. -/
def occ (s : Bcache) (b : Nat) : Nat :=
  ∑ i in Finset.range NBUCKETS, (s.head i).count b

/-- Every buffer of the pool is linked exactly once, nothing else is linked. -/
def Partition (s : Bcache) : Prop :=
  ∀ b, occ s b = if b < s.nbuf then 1 else 0

/-- The state after `binit` and the steps `cs` (the state after `binit` when
one of them panics or is not possible). -/
def after (nbuf : Nat) (cs : List Call) : Bcache :=
  (run (binit nbuf) cs).getD (binit nbuf)

/-- Release times after call `c`, which is call number `t`: `brelse(b)`
stamps `b` with `t`. -/
def stamp (c : Call) (t : Nat) (rel : Nat → Nat) : Nat → Nat :=
  match c with
  | Call.brelse _ b => Function.update rel b t
  | _ => rel

/-- Number of calls suspended in `acquiresleep` on buffer `x`. -/
def waiters (s : Bcache) (x : Nat) : Nat :=
  s.waiting.countP (fun w => w.b == x)

/-- The states reachable from `binit` by steps taken one at a time, each
allowed by `g` in the state it is taken in, with the number `t` of steps
taken and, for every buffer, the number `rel b` of the last `brelse(b)`
among them (0 when `b` was never released). -/
inductive Released (nbuf : Nat) (g : Bcache → Call → Bool) :
    Bcache → Nat → (Nat → Nat) → Prop where
  | init : Released nbuf g (binit nbuf) 0 (fun _ => 0)
  | step (s : Bcache) (t : Nat) (rel : Nat → Nat) (c : Call) (s' : Bcache) :
      Released nbuf g s t rel → g s c = true → exec c s = some s' →
      Released nbuf g s' (t + 1) (stamp c (t + 1) rel)

/-- One more step on a state with its release times; a step that is not
allowed by `g`, panics or is not possible leaves everything as it is. -/
def traceStep (g : Bcache → Call → Bool) (h : Bcache × Nat × (Nat → Nat)) (c : Call) :
    Bcache × Nat × (Nat → Nat) :=
  match (if g h.1 c then exec c h.1 else none) with
  | some s' => (s', h.2.1 + 1, stamp c (h.2.1 + 1) h.2.2)
  | none => h

/-- The state, the number of steps taken and the release times after `binit`
and the steps `cs`. -/
def trace (g : Bcache → Call → Bool) (nbuf : Nat) (cs : List Call) :
    Bcache × Nat × (Nat → Nat) :=
  cs.foldl (traceStep g) (binit nbuf, 0, fun _ => 0)

/-- Calls on a cache of 13 buffers (one per bucket) by process 1: the buffers
of buckets 0 to 4 are acquired, then buffer 4 is unpinned, which leaves it
unreferenced with its sleeplock still held by process 1. -/
def lockedCalls : List Call :=
  [Call.bget 1 1 1, Call.bget 1 1 0, Call.bget 1 1 3, Call.bget 1 1 2, Call.bget 1 1 5,
    Call.bunpin 4]

/-- Buffer `x` is linked in the bucket that `brelse`, `bpin` and `bunpin`
compute from its identity, `(b->dev ^ b->blockno) % NBUCKETS`. -/
def Located (s : Bcache) (x : Nat) : Prop :=
  x ∈ s.head (hash (s.buf x).dev (s.buf x).blockno)

/-- Buffer `x` carries the identity that `binit` gives to every buffer:
`dev = -1` (as a `uint`) and `blockno = 0`. -/
def Placeholder (s : Bcache) (x : Nat) : Prop :=
  (s.buf x).dev = 4294967295 ∧ (s.buf x).blockno = 0

/-- Every buffer of the pool is linked in the bucket of its identity, unless
it carries the initial identity, its sleeplock is free, no call waits for it
and its reference count satisfies `P`. -/
def Placed (P : Nat → Prop) (s : Bcache) : Prop :=
  ∀ x, x < s.nbuf →
    Located s x ∨
      (Placeholder s x ∧ (s.buf x).lock = none ∧ waiters s x = 0 ∧ P (s.buf x).refcnt)

/-- Two distinct buffers of the pool carry the same identity only if it is the
initial identity. -/
def Unique (s : Bcache) : Prop :=
  ∀ x y, x < s.nbuf → y < s.nbuf → x ≠ y → (s.buf x).dev = (s.buf y).dev →
    (s.buf x).blockno = (s.buf y).blockno → Placeholder s x

/-- The restriction that `bpin` and `bunpin` are applied only to buffers with
`refcnt > 0`. -/
def pinsReferenced (s : Bcache) (c : Call) : Bool :=
  match c with
  | Call.bpin b => decide (0 < (s.buf b).refcnt)
  | Call.bunpin b => decide (0 < (s.buf b).refcnt)
  | _ => true

/-- Record of who was handed which buffer: `H b = some pid` when `b` was
returned to process `pid` by a `bget` or `bread` (at once, or when the
suspended call was resumed) and no `brelse(b)` has completed since.
`own c s H` is the record after step `c`, taken in state `s`. -/
def own (c : Call) (s : Bcache) (H : Nat → Option Nat) : Nat → Option Nat :=
  match c with
  | Call.bget pid dev blockno =>
    match bget pid dev blockno s with
    | Result.ret b _ => Function.update H b (some pid)
    | _ => H
  | Call.bread pid dev blockno =>
    match bread pid dev blockno s with
    | Result.ret b _ => Function.update H b (some pid)
    | _ => H
  | Call.brelse _ b => Function.update H b none
  | Call.wakeup pid b _ => Function.update H b (some pid)
  | _ => H

/-- The states reachable from `binit` by steps taken one at a time, with the
record of the buffers handed out and not yet released. -/
inductive Owned (nbuf : Nat) : Bcache → (Nat → Option Nat) → Prop where
  | init : Owned nbuf (binit nbuf) (fun _ => none)
  | step (s : Bcache) (H : Nat → Option Nat) (c : Call) (s' : Bcache) :
      Owned nbuf s H → exec c s = some s' → Owned nbuf s' (own c s H)

/-- One more step on a state with its record; a step that panics or is not
possible leaves everything as it is. -/
def ownStep (h : Bcache × (Nat → Option Nat)) (c : Call) : Bcache × (Nat → Option Nat) :=
  match exec c h.1 with
  | some s' => (s', own c h.1 h.2)
  | none => h

/-- The state and the record after `binit` and the calls `cs`. -/
def owners (nbuf : Nat) (cs : List Call) : Bcache × (Nat → Option Nat) :=
  cs.foldl ownStep (binit nbuf, fun _ => none)

end Bio

namespace Kalloc

/-! ## Representation of the page allocator

* An address is a natural number, `0` is the null pointer.
* `kmem[i].freelist` is the head pointer of core `i`. The `next` field of a
  `struct run` lives in the first word of the free page itself; `next a` is
  that word of the page at address `a`.
* `cpuid()` is an argument of `kfree` and `kalloc`; the spinlocks do not
  appear in the state, calls run one at a time.
-/

/-- Page size `PGSIZE`: the allocator hands out whole 4096-byte pages. -/
def PGSIZE : Nat := 4096

/-- The constants the allocator takes from headers and from the linker
script: `NCPU` (`param.h`), `end` (first address after the kernel,
`kernel.ld`) and `PHYSTOP` (`memlayout.h`). -/
structure Config where
  ncpu : Nat
  kend : Nat
  phystop : Nat
deriving DecidableEq, Repr

/-- The globals `kmem[NCPU]`, `kmem_init_phase`, the static `init_cpu` of
`kfree`, and the first word of every page. -/
structure Kmem where
  freelist : Nat → Nat
  next : Nat → Nat
  kmem_init_phase : Nat
  init_cpu : Nat

/-- The first word of a page after `memset(pa, 1, PGSIZE)`. -/
def JUNK1 : Nat := 72340172838076673

/-- The first word of a page after `memset(r, 5, PGSIZE)`. -/
def JUNK5 : Nat := 361700864190383365

/-- The function `kfree`, called on core `cpu`; `none` is `panic("kfree")`. -/
def kfree (cfg : Config) (cpu pa : Nat) (s : Kmem) : Option Kmem :=
  if pa % PGSIZE ≠ 0 ∨ pa < cfg.kend ∨ pa ≥ cfg.phystop then none
  else
    let s1 : Kmem := { s with next := Function.update s.next pa JUNK1 }
    let c := if s1.kmem_init_phase ≠ 0 then s1.init_cpu else cpu
    let s2 : Kmem :=
      if s1.kmem_init_phase ≠ 0 then { s1 with init_cpu := (s1.init_cpu + 1) % cfg.ncpu }
      else s1
    some { s2 with
      next := Function.update s2.next pa (s2.freelist c)
      freelist := Function.update s2.freelist c pa }

/-- The loop of `kalloc` over the other cores, `is` being the cores still to
visit: the page stolen (`0` when there is none) and the state. -/
def kalloc_steal (s : Kmem) (cpu : Nat) : List Nat → Nat × Kmem
  | [] => (0, s)
  | i :: is =>
    if i = cpu then kalloc_steal s cpu is
    else if s.freelist i ≠ 0 then
      (s.freelist i, { s with freelist := Function.update s.freelist i (s.next (s.freelist i)) })
    else kalloc_steal s cpu is

/-- The function `kalloc`, called on core `cpu`: the pointer returned (`0` on failure) and
the state. -/
def kalloc (cfg : Config) (cpu : Nat) (s : Kmem) : Nat × Kmem :=
  let r := s.freelist cpu
  let s1 : Kmem :=
    if r ≠ 0 then { s with freelist := Function.update s.freelist cpu (s.next r) } else s
  let p : Nat × Kmem := if r = 0 then kalloc_steal s1 cpu (List.range cfg.ncpu) else (r, s1)
  if p.1 ≠ 0 then (p.1, { p.2 with next := Function.update p.2.next p.1 JUNK5 })
  else p

/-- The number of values of a 64-bit address (`uint64`, `char *`): sums of
addresses are taken modulo this number. -/
def U64 : Nat := 18446744073709551616

/-- Modelled from the spec: the macro `PGROUNDUP` of `riscv.h` (not among the
sources at hand), `((sz) + PGSIZE - 1) & ~(PGSIZE - 1)` on `uint64`: the first page
boundary at or after an address, the sum wrapping around at `2^64`. -/
def PGROUNDUP (a : Nat) : Nat := (a + PGSIZE - 1) % U64 / PGSIZE * PGSIZE

/-- The loop of `freerange`, run for at most `fuel` iterations, on 64-bit pointers:
`p + PGSIZE` wraps around at `2^64`, in the test as in the increment; `none` when
a `kfree` panics or the loop has not ended after `fuel` iterations. -/
def freerange_loop (cfg : Config) (pa_end : Nat) : Nat → Nat → Kmem → Option Kmem
  | 0, p, s => if (p + PGSIZE) % U64 ≤ pa_end then none else some s
  | fuel + 1, p, s =>
    if (p + PGSIZE) % U64 ≤ pa_end then
      match kfree cfg 0 p s with
      | some s' => freerange_loop cfg pa_end fuel ((p + PGSIZE) % U64) s'
      | none => none
    else some s

/-- The function `freerange`, with the fuel `pa_end / PGSIZE`: a result `some`
is the state the loop ends in, and with `0 < end` more fuel never changes the result
of `freerange(end, PHYSTOP)` (`freerange_fuel`), so that `none` there is a call
that does not return. -/
def freerange (cfg : Config) (pa_start pa_end : Nat) (s : Kmem) : Option Kmem :=
  freerange_loop cfg pa_end (pa_end / PGSIZE) (PGROUNDUP pa_start) s

/-- The function `kinit`, on a machine whose memory holds `mem`; `none` when
`freerange` does not return. -/
def kinit (cfg : Config) (mem : Nat → Nat) : Option Kmem :=
  match freerange cfg cfg.kend cfg.phystop
      { freelist := fun _ => 0, next := mem, kmem_init_phase := 1, init_cpu := 0 } with
  | some s => some { s with kmem_init_phase := 0 }
  | none => none

/-- The pointers `p`, `next p`, … up to the null pointer are the pages `l`. -/
def Chain (next : Nat → Nat) : Nat → List Nat → Prop
  | p, [] => p = 0
  | p, a :: l => p = a ∧ a ≠ 0 ∧ Chain next (next a) l

instance Chain.decide (next : Nat → Nat) : (p : Nat) → (l : List Nat) →
    Decidable (Chain next p l)
  | p, [] => inferInstanceAs (Decidable (p = 0))
  | p, a :: l =>
    have := Chain.decide next (next a) l
    inferInstanceAs (Decidable (p = a ∧ a ≠ 0 ∧ Chain next (next a) l))

/-- Number of occurrences of page `a` over the lists of the cores. -/
def occ (cfg : Config) (L : Nat → List Nat) (a : Nat) : Nat :=
  ∑ i in Finset.range cfg.ncpu, (L i).count a

/-- The free lists of the cores are the lists `L`: every `kmem[i].freelist`
is a null-terminated chain through the pages `L i`, and no page is on two
lists or twice on a list. -/
def Lists (cfg : Config) (s : Kmem) (L : Nat → List Nat) : Prop :=
  (∀ i, i < cfg.ncpu → Chain s.next (s.freelist i) (L i)) ∧ ∀ a, occ cfg L a ≤ 1

/-- Reference definition of `kalloc` on core `c`, on the lists of the cores:
it takes the head of the list of `c` if that list is non-empty; otherwise the
head of the list of the lowest-indexed core `i != c` whose list is non-empty;
otherwise it returns 0. The lists not named are unchanged. -/
def kalloc_ref (cfg : Config) (c : Nat) (L : Nat → List Nat) : Nat × (Nat → List Nat) :=
  match L c with
  | r :: rest => (r, Function.update L c rest)
  | [] =>
    match (List.range cfg.ncpu).find? (fun i => i != c && !(L i).isEmpty) with
    | some i => ((L i).headD 0, Function.update L i (L i).tail)
    | none => (0, L)

/-- A machine with 2 cores, the kernel ending at address 8193 and physical
memory ending at 32768: five pages are managed, 12288, 16384, 20480, 24576
and 28672. -/
def demoCfg : Config := { ncpu := 2, kend := 8193, phystop := 32768 }

/-- The state left by `kinit` on a zeroed memory (the state before `kinit`
if `kinit` panics). -/
def booted (cfg : Config) : Kmem :=
  (kinit cfg (fun _ => 0)).getD
    { freelist := fun _ => 0, next := fun _ => 0, kmem_init_phase := 0, init_cpu := 0 }

/-- Scenario C: after `kinit` on the demo machine and two `kalloc` on core 1,
the list of core 1 is empty and the list of core 0 holds 3 pages. -/
def scenarioC : Kmem := (kalloc demoCfg 1 (kalloc demoCfg 1 (booted demoCfg)).2).2

/-- The free lists in Scenario C. -/
def scenarioC_lists : Nat → List Nat := fun i => if i = 0 then [28672, 20480, 12288] else []

/-- A call of the allocator interface, with the core it is issued on. -/
inductive KCall where
  | kalloc (cpu : Nat)
  | kfree (cpu pa : Nat)
deriving DecidableEq, Repr

/-- One call on the allocator state paired with the pages currently
allocated (returned by `kalloc` and not yet given back): `kalloc` on any core,
or `kfree`, on any core, of a page currently allocated. `none` when the call
is not of that kind or when `kfree` panics. -/
def kexec (cfg : Config) (c : KCall) (t : Kmem × List Nat) : Option (Kmem × List Nat) :=
  match c with
  | KCall.kalloc cpu =>
    if cpu < cfg.ncpu then
      some ((kalloc cfg cpu t.1).2,
        if (kalloc cfg cpu t.1).1 ≠ 0 then (kalloc cfg cpu t.1).1 :: t.2 else t.2)
    else none
  | KCall.kfree cpu pa =>
    if cpu < cfg.ncpu ∧ pa ∈ t.2 then
      match kfree cfg cpu pa t.1 with
      | some s' => some (s', t.2.erase pa)
      | none => none
    else none

/-- Calls issued one after the other. -/
def krun (cfg : Config) (t : Kmem × List Nat) : List KCall → Option (Kmem × List Nat)
  | [] => some t
  | c :: cs =>
    match kexec cfg c t with
    | some t' => krun cfg t' cs
    | none => none

/-- The allocator states, with the pages currently allocated, that follow the
state `s0` by such calls. -/
inductive KReach (cfg : Config) (s0 : Kmem) : Kmem → List Nat → Prop where
  | init : KReach cfg s0 s0 []
  | step (s : Kmem) (A : List Nat) (c : KCall) (s' : Kmem) (A' : List Nat) :
      KReach cfg s0 s A → kexec cfg c (s, A) = some (s', A') → KReach cfg s0 s' A'

/-- The state and allocated pages after `kinit` on a zeroed memory and the
calls `cs`. -/
def kafter (cfg : Config) (cs : List KCall) : Kmem × List Nat :=
  (krun cfg (booted cfg, []) cs).getD (booted cfg, [])

/-- Number of pages on the lists of all cores. -/
def total (cfg : Config) (L : Nat → List Nat) : Nat :=
  ∑ i in Finset.range cfg.ncpu, (L i).length

/-- Page conservation against `R` managed pages: the free lists are
well-formed lists `L`, the pages on them and the allocated pages `A` are `R`
in number, no allocated page is listed twice and none is on a free list. -/
def Conserved (cfg : Config) (R : Nat) (s : Kmem) (A : List Nat) : Prop :=
  ∃ L, Lists cfg s L ∧ total cfg L + A.length = R ∧ A.Nodup ∧
    ∀ a ∈ A, ∀ i, i < cfg.ncpu → a ∉ L i

/-- The page at position `k` of the managed range: `PGROUNDUP(end) + k * PGSIZE`. -/
def page (cfg : Config) (k : Nat) : Nat := PGROUNDUP cfg.kend + k * PGSIZE

/-- The number `R` of whole pages between `PGROUNDUP(end)` and `PHYSTOP`. -/
def managed (cfg : Config) : Nat := (cfg.phystop - PGROUNDUP cfg.kend) / PGSIZE

/-- The arguments of the calls `kfree(p)` that the loop of `freerange` makes,
in order, as long as no call panics: the loop of `freerange_loop` without the
state. -/
def freerange_calls (pa_end : Nat) : Nat → Nat → List Nat
  | 0, _ => []
  | fuel + 1, p =>
    if (p + PGSIZE) % U64 ≤ pa_end then
      p :: freerange_calls pa_end fuel ((p + PGSIZE) % U64)
    else []

/-- The calls `kfree(p)` for the pages `p` of a list, in order; `none` as soon
as one of them panics. -/
def kfree_all (cfg : Config) : List Nat → Kmem → Option Kmem
  | [], s => some s
  | a :: l, s =>
    match kfree cfg 0 a s with
    | some s' => kfree_all cfg l s'
    | none => none

/-- The pages at the positions `j < k` with `j mod NCPU = i`, the last
position first: what a round-robin deal of the first `k` pages gives core `i`. -/
def dealt (cfg : Config) (k i : Nat) : List Nat :=
  (((List.range k).filter (fun j => j % cfg.ncpu = i)).map (page cfg)).reverse

end Kalloc

namespace Spinlock

/-! ## The spinlocks taken along a call

A call is followed through the `acquire` and `release` statements it executes,
the calls of `acquiresleep`, `releasesleep` and of the disk driver, and its
`panic`; the end of the sequence is the `return`.
-/

/-- The spinlocks: `bcache.lock[i]` and `kmem[i].lock`. -/
inductive Lk where
  | bucket (i : Nat)
  | kmem (i : Nat)
deriving DecidableEq, Repr

/-- What a thread does that matters to the lock discipline. -/
inductive Ev where
  | acquire (l : Lk)
  | release (l : Lk)
  | acquiresleep (b : Nat)
  | releasesleep (b : Nat)
  | disk (b : Nat)
  | panic
deriving DecidableEq, Repr

/-- The lock discipline on a sequence of events of one thread, `held` being
the spinlock the thread holds at the start: `acquire` happens only with no
spinlock held; `release` gives up the spinlock held; `acquiresleep`, the disk
driver and `panic` are reached with no spinlock held; and none is held at the
end of the sequence. -/
def disciplined : Option Lk → List Ev → Bool
  | held, [] => held.isNone
  | held, Ev.acquire l :: es => held.isNone && disciplined (some l) es
  | held, Ev.release l :: es => (held == some l) && disciplined none es
  | held, Ev.acquiresleep _ :: es => held.isNone && disciplined held es
  | held, Ev.releasesleep _ :: es => disciplined held es
  | held, Ev.disk _ :: es => held.isNone && disciplined held es
  | held, Ev.panic :: es => held.isNone && disciplined held es

end Spinlock

namespace Bio

open Spinlock

/-- The events of the loop of `bget` over the other buckets, `is` being the
bucket indices still to visit, down to the `return` or the `panic` of `bget`. -/
def steal_events (s : Bcache) (h : Nat) : List Nat → List Ev
  | [] => [Ev.panic]
  | i :: is =>
    if i = h then steal_events s h is
    else
      Ev.acquire (Lk.bucket i) ::
        (match victim s i with
        | some b =>
          [Ev.release (Lk.bucket i), Ev.acquire (Lk.bucket h), Ev.release (Lk.bucket h),
            Ev.acquiresleep b]
        | none => Ev.release (Lk.bucket i) :: steal_events s h is)

/-- The events of `bget(dev, blockno)` called in state `s`. -/
def bget_events (dev blockno : Nat) (s : Bcache) : List Ev :=
  let h := hash dev blockno
  Ev.acquire (Lk.bucket h) ::
    (match lookup s h dev blockno with
    | some b => [Ev.release (Lk.bucket h), Ev.acquiresleep b]
    | none =>
      match victim s h with
      | some b => [Ev.release (Lk.bucket h), Ev.acquiresleep b]
      | none => Ev.release (Lk.bucket h) :: steal_events s h (List.range NBUCKETS))

/-- The events of `bread(dev, blockno)` called by process `pid` in state `s`:
those of `bget`, then the driver request when the buffer returned is not
valid. -/
def bread_events (pid dev blockno : Nat) (s : Bcache) : List Ev :=
  bget_events dev blockno s ++
    (match bget pid dev blockno s with
    | Result.ret b s1 => if (s1.buf b).valid = 0 then [Ev.disk b] else []
    | _ => [])

/-- The events of `bwrite(b)` called by process `pid` in state `s`. -/
def bwrite_events (pid b : Nat) (s : Bcache) : List Ev :=
  if !holdingsleep pid b s then [Ev.panic] else [Ev.disk b]

/-- The events of `brelse(b)` called by process `pid` in state `s`. -/
def brelse_events (pid b : Nat) (s : Bcache) : List Ev :=
  if !holdingsleep pid b s then [Ev.panic]
  else
    [Ev.releasesleep b, Ev.acquire (Lk.bucket (hash (s.buf b).dev (s.buf b).blockno)),
      Ev.release (Lk.bucket (hash (s.buf b).dev (s.buf b).blockno))]

/-- The events of `bpin(b)` called in state `s`. -/
def bpin_events (b : Nat) (s : Bcache) : List Ev :=
  [Ev.acquire (Lk.bucket (hash (s.buf b).dev (s.buf b).blockno)),
    Ev.release (Lk.bucket (hash (s.buf b).dev (s.buf b).blockno))]

/-- The events of `bunpin(b)` called in state `s`. -/
def bunpin_events (b : Nat) (s : Bcache) : List Ev :=
  [Ev.acquire (Lk.bucket (hash (s.buf b).dev (s.buf b).blockno)),
    Ev.release (Lk.bucket (hash (s.buf b).dev (s.buf b).blockno))]

/-! ## Two `bget` calls running concurrently

The calls are interleaved at the grain of their critical sections: one step
of a thread is everything it does between `acquire` and `release` of one
bucket spinlock, or its `acquiresleep`.
-/

/-- Where a thread stands inside `bget`: before `acquire(&bcache.lock[h])`;
in the loop over the other buckets, with the indices still to visit; between
`release(&bcache.lock[i])` and `acquire(&bcache.lock[h])`, carrying the buffer
it took out of bucket `i`; before `acquiresleep(&b->lock)`; returned; or
panicked. -/
inductive Pc where
  | start
  | scan (is : List Nat)
  | insert (b : Nat)
  | lock (b : Nat)
  | done (b : Nat)
  | panicked
deriving DecidableEq, Repr

/-- One step of a thread `pid` running `bget(dev, blockno)`. -/
def bget_step (pid dev blockno : Nat) (pc : Pc) (s : Bcache) : Pc × Bcache :=
  match pc with
  | Pc.start =>
    match lookup s (hash dev blockno) dev blockno with
    | some b => (Pc.lock b, setBuf s b { s.buf b with refcnt := ((s.buf b).refcnt + 1) % UINT })
    | none =>
      match victim s (hash dev blockno) with
      | some b => (Pc.lock b, recycle s b dev blockno)
      | none => (Pc.scan (List.range NBUCKETS), s)
  | Pc.scan [] => (Pc.panicked, s)
  | Pc.scan (i :: is) =>
    if i = hash dev blockno then (Pc.scan is, s)
    else
      match victim s i with
      | some b => (Pc.insert b, recycle (unlink s b) b dev blockno)
      | none => (Pc.scan is, s)
  | Pc.insert b => (Pc.lock b, insertHead s (hash dev blockno) b)
  | Pc.lock b =>
    match (s.buf b).lock with
    | none => (Pc.done b, setBuf s b { s.buf b with lock := some pid })
    | some _ => (Pc.lock b, s)
  | Pc.done b => (Pc.done b, s)
  | Pc.panicked => (Pc.panicked, s)

/-- A thread running alone for `n` steps. -/
def solo (pid dev blockno : Nat) (n : Nat) (c : Pc × Bcache) : Pc × Bcache :=
  Nat.iterate (fun c => bget_step pid dev blockno c.1 c.2) n c

/-- Two threads, of processes `pidA` and `pidB`, both running
`bget(dev, blockno)` on the shared cache; the schedule says which thread
takes the next step (`false` the first one, `true` the second one). -/
def interleave (pidA pidB dev blockno : Nat) :
    List Bool → Pc × Pc × Bcache → Pc × Pc × Bcache
  | [], c => c
  | false :: sch, (a, b, s) =>
    interleave pidA pidB dev blockno sch
      ((bget_step pidA dev blockno a s).1, b, (bget_step pidA dev blockno a s).2)
  | true :: sch, (a, b, s) =>
    interleave pidA pidB dev blockno sch
      (a, (bget_step pidB dev blockno b s).1, (bget_step pidB dev blockno b s).2)

/-- A cache of 30 buffers in which the two buffers of bucket 4 are held by
process 9 for the blocks `(1, 5)` and `(1, 31)`. -/
def busyBucket : Bcache := after 30 [Call.bget 9 1 5, Call.bget 9 1 31]

end Bio

namespace Kalloc

open Spinlock

/-- The events of `kfree(pa)` called on core `cpu` in state `s`. -/
def kfree_events (cfg : Config) (cpu pa : Nat) (s : Kmem) : List Ev :=
  if pa % PGSIZE ≠ 0 ∨ pa < cfg.kend ∨ pa ≥ cfg.phystop then [Ev.panic]
  else
    [Ev.acquire (Lk.kmem (if s.kmem_init_phase ≠ 0 then s.init_cpu else cpu)),
      Ev.release (Lk.kmem (if s.kmem_init_phase ≠ 0 then s.init_cpu else cpu))]

/-- The events of the loop of `kalloc` over the other cores, `is` being the
cores still to visit. -/
def kalloc_steal_events (s : Kmem) (cpu : Nat) : List Nat → List Ev
  | [] => []
  | i :: is =>
    if i = cpu then kalloc_steal_events s cpu is
    else if s.freelist i ≠ 0 then [Ev.acquire (Lk.kmem i), Ev.release (Lk.kmem i)]
    else Ev.acquire (Lk.kmem i) :: Ev.release (Lk.kmem i) :: kalloc_steal_events s cpu is

/-- The events of `kalloc()` called on core `cpu` in state `s`. -/
def kalloc_events (cfg : Config) (cpu : Nat) (s : Kmem) : List Ev :=
  Ev.acquire (Lk.kmem cpu) :: Ev.release (Lk.kmem cpu) ::
    (if s.freelist cpu = 0 then kalloc_steal_events s cpu (List.range cfg.ncpu) else [])

/-- A machine whose kernel ends 100 bytes below `2^64` and whose physical memory
ends at `0x88000000`. -/
def roundWrapCfg : Config :=
  { ncpu := 2, kend := 18446744073709551516, phystop := 2281701376 }

/-- A machine whose kernel ends 8191 bytes below `2^64`, one byte past the last
address two whole pages below `2^64`, with the same `PHYSTOP`. -/
def endWrapCfg : Config :=
  { ncpu := 2, kend := 18446744073709543425, phystop := 2281701376 }

/-- A machine whose kernel ends two pages below `2^64` and whose physical
memory ends one page below `2^64`. -/
def stopWrapCfg : Config :=
  { ncpu := 2, kend := 18446744073709543424, phystop := 18446744073709547520 }

end Kalloc

/-! # Theorems -/

namespace Bio

/-! ## Pool partition -/

theorem hash_lt (dev blockno : Nat) : hash dev blockno < NBUCKETS :=
  Nat.mod_lt _ (by decide)

theorem occ_unlink (s : Bcache) (b x : Nat) :
    occ (unlink s b) x = if x = b then 0 else occ s x := by
  unfold occ unlink
  split_ifs with hx
  · subst hx
    apply Finset.sum_eq_zero
    intro i _
    simp [List.count_eq_zero, List.mem_filter]
  · apply Finset.sum_congr rfl
    intro i _
    simp only
    rw [List.count_filter]
    simpa using hx

theorem occ_insertHead (s : Bcache) (h b x : Nat) (hh : h < NBUCKETS) :
    occ (insertHead s h b) x = occ s x + if x = b then 1 else 0 := by
  unfold occ insertHead
  simp only
  rw [← Finset.add_sum_erase _ _ (Finset.mem_range.mpr hh),
    ← Finset.add_sum_erase (Finset.range NBUCKETS) (fun i => (s.head i).count x)
      (Finset.mem_range.mpr hh)]
  have e : ∑ i in (Finset.range NBUCKETS).erase h,
        (Function.update s.head h (b :: s.head h) i).count x
      = ∑ i in (Finset.range NBUCKETS).erase h, (s.head i).count x := by
    apply Finset.sum_congr rfl
    intro i hi
    rw [Function.update_noteq (Finset.ne_of_mem_erase hi)]
  rw [e, Function.update_same, List.count_cons]
  by_cases hx : x = b
  · subst hx; simp; omega
  · have : ¬ b = x := fun h => hx h.symm
    simp [hx, this]

/-- Moving a pool buffer to the front of a bucket keeps the partition. -/
theorem Partition.move {s : Bcache} (hp : Partition s) {b h : Nat} (hb : b < s.nbuf)
    (hh : h < NBUCKETS) (t : Bcache) (hn : t.nbuf = s.nbuf)
    (ht : t.head = (unlink s b).head) : Partition (insertHead t h b) := by
  intro x
  have e : occ t x = occ (unlink s b) x := by unfold occ; rw [ht]
  rw [occ_insertHead _ _ _ _ hh, e, occ_unlink]
  have hx := hp x
  show _ = if x < t.nbuf then 1 else 0
  rw [hn]
  by_cases hxb : x = b
  · subst hxb; simp [hb]
  · simp [hxb, hx]

theorem Partition.congr {s t : Bcache} (hp : Partition s) (hn : t.nbuf = s.nbuf)
    (ht : t.head = s.head) : Partition t := by
  intro x
  have := hp x
  unfold occ at *
  rw [ht, hn]; exact this

theorem Partition.mem_lt {s : Bcache} (hp : Partition s) {b i : Nat} (hi : i < NBUCKETS)
    (hb : b ∈ s.head i) : b < s.nbuf := by
  by_contra hlt
  have h0 := hp b
  rw [if_neg hlt] at h0
  unfold occ at h0
  have := (Finset.sum_eq_zero_iff.mp h0) i (Finset.mem_range.mpr hi)
  exact (List.count_eq_zero.mp this) hb


theorem lookup_mem {s : Bcache} {h dev blockno b : Nat}
    (hl : lookup s h dev blockno = some b) : b ∈ s.head h :=
  List.mem_of_find?_eq_some hl

theorem victim_mem {s : Bcache} {i b : Nat} (hv : victim s i = some b) : b ∈ s.head i :=
  List.mem_reverse.mp (List.mem_of_find?_eq_some hv)

theorem victim_refcnt {s : Bcache} {i b : Nat} (hv : victim s i = some b) :
    (s.buf b).refcnt = 0 := by
  have := List.find?_some hv
  simpa using this

theorem steal_some {s : Bcache} {h : Nat} {is : List Nat} {i b : Nat}
    (hs : steal s h is = some (i, b)) : i ∈ is ∧ i ≠ h ∧ victim s i = some b := by
  induction is with
  | nil => simp [steal] at hs
  | cons j js ih =>
    unfold steal at hs
    split_ifs at hs with hj
    · have := ih hs
      exact ⟨List.mem_cons_of_mem _ this.1, this.2⟩
    · cases hv : victim s j with
      | none =>
        rw [hv] at hs
        have := ih hs
        exact ⟨List.mem_cons_of_mem _ this.1, this.2⟩
      | some c =>
        rw [hv] at hs
        simp only [Option.some.injEq, Prod.mk.injEq] at hs
        obtain ⟨rfl, rfl⟩ := hs
        exact ⟨List.mem_cons_self _ _, hj, hv⟩

theorem acquiresleep_ret {pid b : Nat} {s : Bcache} {v : Nat} {s' : Bcache}
    (h : acquiresleep pid b s = Result.ret v s') :
    v = b ∧ (s.buf b).lock = none ∧ s' = setBuf s b { s.buf b with lock := some pid } := by
  unfold acquiresleep at h
  cases hl : (s.buf b).lock with
  | none =>
    rw [hl] at h
    simp only [Result.ret.injEq] at h
    exact ⟨h.1.symm, rfl, h.2.symm⟩
  | some p => rw [hl] at h; cases h

theorem bget_ret {pid dev blockno : Nat} {s : Bcache} {b : Nat} {s' : Bcache}
    (h : bget pid dev blockno s = Result.ret b s') :
    ∃ s1, bget_select dev blockno s = some (b, s1) ∧ (s1.buf b).lock = none ∧
      s' = setBuf s1 b { s1.buf b with lock := some pid } := by
  unfold bget at h
  cases hs : bget_select dev blockno s with
  | none => rw [hs] at h; cases h
  | some p =>
    obtain ⟨c, s1⟩ := p
    rw [hs] at h
    obtain ⟨rfl, h2, h3⟩ := acquiresleep_ret h
    exact ⟨s1, rfl, h2, h3⟩

/-- The three ways `bget_select` chooses a buffer. -/
theorem bget_select_cases {dev blockno : Nat} {s : Bcache} {b : Nat} {s1 : Bcache}
    (h : bget_select dev blockno s = some (b, s1)) :
    (lookup s (hash dev blockno) dev blockno = some b ∧
      s1 = setBuf s b { s.buf b with refcnt := ((s.buf b).refcnt + 1) % UINT }) ∨
    (lookup s (hash dev blockno) dev blockno = none ∧
      victim s (hash dev blockno) = some b ∧ s1 = recycle s b dev blockno) ∨
    (lookup s (hash dev blockno) dev blockno = none ∧
      victim s (hash dev blockno) = none ∧
      (∃ i, steal s (hash dev blockno) (List.range NBUCKETS) = some (i, b)) ∧
      s1 = insertHead (recycle (unlink s b) b dev blockno) (hash dev blockno) b) := by
  unfold bget_select at h
  simp only at h
  cases hl : lookup s (hash dev blockno) dev blockno with
  | some c =>
    rw [hl] at h
    simp only [Option.some.injEq, Prod.mk.injEq] at h
    obtain ⟨rfl, rfl⟩ := h
    exact Or.inl ⟨rfl, rfl⟩
  | none =>
    rw [hl] at h
    cases hv : victim s (hash dev blockno) with
    | some c =>
      rw [hv] at h
      simp only [Option.some.injEq, Prod.mk.injEq] at h
      obtain ⟨rfl, rfl⟩ := h
      exact Or.inr (Or.inl ⟨rfl, rfl, rfl⟩)
    | none =>
      rw [hv] at h
      cases hst : steal s (hash dev blockno) (List.range NBUCKETS) with
      | none => rw [hst] at h; cases h
      | some p =>
        obtain ⟨i, c⟩ := p
        rw [hst] at h
        simp only [Option.some.injEq, Prod.mk.injEq] at h
        obtain ⟨rfl, rfl⟩ := h
        exact Or.inr (Or.inr ⟨rfl, rfl, ⟨i, rfl⟩, rfl⟩)

theorem bget_select_partition {dev blockno : Nat} {s : Bcache} {b : Nat} {s1 : Bcache}
    (hp : Partition s) (h : bget_select dev blockno s = some (b, s1)) :
    Partition s1 ∧ s1.nbuf = s.nbuf := by
  rcases bget_select_cases h with ⟨_, rfl⟩ | ⟨_, _, rfl⟩ | ⟨_, _, ⟨i, hst⟩, rfl⟩
  · exact ⟨hp.congr rfl rfl, rfl⟩
  · exact ⟨hp.congr rfl rfl, rfl⟩
  · obtain ⟨hi, _, hv⟩ := steal_some hst
    have hb : b < s.nbuf := hp.mem_lt (List.mem_range.mp hi) (victim_mem hv)
    exact ⟨hp.move hb (hash_lt _ _) _ rfl rfl, rfl⟩

theorem bget_partition {pid dev blockno : Nat} {s : Bcache} {b : Nat} {s' : Bcache}
    (hp : Partition s) (h : bget pid dev blockno s = Result.ret b s') :
    Partition s' ∧ s'.nbuf = s.nbuf := by
  obtain ⟨s1, hs, _, rfl⟩ := bget_ret h
  obtain ⟨h1, h2⟩ := bget_select_partition hp hs
  exact ⟨h1.congr rfl rfl, h2⟩

theorem bread_ret {pid dev blockno : Nat} {s : Bcache} {b : Nat} {s' : Bcache}
    (h : bread pid dev blockno s = Result.ret b s') :
    ∃ s1, bget pid dev blockno s = Result.ret b s1 ∧
      (((s1.buf b).valid = 0 ∧
          s' = setBuf (virtio_disk_rw b false s1) b
            { (virtio_disk_rw b false s1).buf b with valid := 1 }) ∨
        ((s1.buf b).valid ≠ 0 ∧ s' = s1)) := by
  unfold bread at h
  cases hg : bget pid dev blockno s with
  | ret c s1 =>
    rw [hg] at h
    simp only at h
    split_ifs at h with hv
    · simp only [Result.ret.injEq] at h
      obtain ⟨rfl, rfl⟩ := h
      exact ⟨s1, rfl, Or.inl ⟨hv, rfl⟩⟩
    · simp only [Result.ret.injEq] at h
      obtain ⟨rfl, rfl⟩ := h
      exact ⟨s1, rfl, Or.inr ⟨hv, rfl⟩⟩
  | sleep c s1 => rw [hg] at h; cases h
  | panic m => rw [hg] at h; cases h

theorem brelse_ret {pid b : Nat} {s s' : Bcache}
    (h : brelse pid b s = Result.ret () s') :
    (s.buf b).lock = some pid ∧
    (((s.buf b).refcnt + UINT - 1) % UINT = 0 ∧
        s' = insertHead (unlink (setBuf (releasesleep b s) b
            { (releasesleep b s).buf b with
              refcnt := (((releasesleep b s).buf b).refcnt + UINT - 1) % UINT }) b)
          (hash (s.buf b).dev (s.buf b).blockno) b ∨
      ((s.buf b).refcnt + UINT - 1) % UINT ≠ 0 ∧
        s' = setBuf (releasesleep b s) b
            { (releasesleep b s).buf b with
              refcnt := (((releasesleep b s).buf b).refcnt + UINT - 1) % UINT }) := by
  unfold brelse at h
  dsimp only at h
  split_ifs at h with hh h0
  · simp only [Result.ret.injEq, true_and] at h
    refine ⟨?_, Or.inl ⟨?_, ?_⟩⟩
    · simpa [holdingsleep] using hh
    · simpa [setBuf, releasesleep] using h0
    · rw [← h]; simp [setBuf, releasesleep]
  · simp only [Result.ret.injEq, true_and] at h
    refine ⟨?_, Or.inr ⟨?_, h.symm⟩⟩
    · simpa [holdingsleep] using hh
    · simpa [setBuf, releasesleep] using h0

theorem bwrite_ret {pid b : Nat} {s s' : Bcache} (h : bwrite pid b s = Result.ret () s') :
    (s.buf b).lock = some pid ∧ s' = virtio_disk_rw b true s := by
  unfold bwrite at h
  split_ifs at h with hh
  simp only [Result.ret.injEq, true_and] at h
  exact ⟨by simpa [holdingsleep] using hh, h.symm⟩

theorem bget_sleep {pid dev blockno : Nat} {s : Bcache} {b : Nat} {s1 : Bcache}
    (h : bget pid dev blockno s = Result.sleep b s1) :
    bget_select dev blockno s = some (b, s1) ∧ (s1.buf b).lock ≠ none := by
  unfold bget at h
  cases hs : bget_select dev blockno s with
  | none => rw [hs] at h; cases h
  | some p =>
    obtain ⟨c, t⟩ := p
    rw [hs] at h
    simp only [acquiresleep] at h
    cases hl : (t.buf c).lock with
    | none => rw [hl] at h; cases h
    | some q =>
      rw [hl] at h
      simp only [Result.sleep.injEq] at h
      obtain ⟨rfl, rfl⟩ := h
      exact ⟨rfl, by rw [hl]; simp⟩

theorem bread_sleep {pid dev blockno : Nat} {s : Bcache} {b : Nat} {s1 : Bcache}
    (h : bread pid dev blockno s = Result.sleep b s1) :
    bget pid dev blockno s = Result.sleep b s1 := by
  unfold bread at h
  cases hg : bget pid dev blockno s with
  | ret c t =>
    rw [hg] at h
    simp only at h
    split_ifs at h
  | sleep c t =>
    rw [hg] at h
    simp only [Result.sleep.injEq] at h
    obtain ⟨rfl, rfl⟩ := h
    rfl
  | panic m t => rw [hg] at h; cases h

/-- What a step is, case by case: a call that returns, a `bget` or `bread`
that is suspended, or the resumption of a suspended call. -/
theorem exec_cases {c : Call} {s s' : Bcache} (h : exec c s = some s') :
    (∃ pid dev blockno b, c = Call.bget pid dev blockno ∧
        bget pid dev blockno s = Result.ret b s') ∨
    (∃ pid dev blockno b, c = Call.bread pid dev blockno ∧
        bread pid dev blockno s = Result.ret b s') ∨
    (∃ pid b, c = Call.bwrite pid b ∧ b < s.nbuf ∧ bwrite pid b s = Result.ret () s') ∨
    (∃ pid b, c = Call.brelse pid b ∧ b < s.nbuf ∧ brelse pid b s = Result.ret () s') ∨
    (∃ b, c = Call.bpin b ∧ b < s.nbuf ∧ s' = bpin b s) ∨
    (∃ b, c = Call.bunpin b ∧ b < s.nbuf ∧ s' = bunpin b s) ∨
    (∃ pid dev blockno b s1, c = Call.bget pid dev blockno ∧
        bget pid dev blockno s = Result.sleep b s1 ∧ s' = suspend ⟨pid, b, false⟩ s1) ∨
    (∃ pid dev blockno b s1, c = Call.bread pid dev blockno ∧
        bread pid dev blockno s = Result.sleep b s1 ∧ s' = suspend ⟨pid, b, true⟩ s1) ∨
    (∃ pid b read, c = Call.wakeup pid b read ∧ (⟨pid, b, read⟩ : Waiter) ∈ s.waiting ∧
        (s.buf b).lock = none ∧ s' = resume ⟨pid, b, read⟩ s) := by
  cases c with
  | bget pid dev blockno =>
    simp only [exec] at h
    cases hg : bget pid dev blockno s with
    | ret b t =>
      rw [hg] at h
      simp only [Option.some.injEq] at h
      subst h
      exact Or.inl ⟨pid, dev, blockno, b, rfl, hg⟩
    | sleep b t =>
      rw [hg] at h
      simp only [Option.some.injEq] at h
      subst h
      exact Or.inr (Or.inr (Or.inr (Or.inr (Or.inr (Or.inr (Or.inl
        ⟨pid, dev, blockno, b, t, rfl, hg, rfl⟩))))))
    | panic m t => rw [hg] at h; cases h
  | bread pid dev blockno =>
    simp only [exec] at h
    cases hg : bread pid dev blockno s with
    | ret b t =>
      rw [hg] at h
      simp only [Option.some.injEq] at h
      subst h
      exact Or.inr (Or.inl ⟨pid, dev, blockno, b, rfl, hg⟩)
    | sleep b t =>
      rw [hg] at h
      simp only [Option.some.injEq] at h
      subst h
      exact Or.inr (Or.inr (Or.inr (Or.inr (Or.inr (Or.inr (Or.inr (Or.inl
        ⟨pid, dev, blockno, b, t, rfl, hg, rfl⟩)))))))
    | panic m t => rw [hg] at h; cases h
  | bwrite pid b =>
    simp only [exec] at h
    split_ifs at h with hb
    cases hg : bwrite pid b s with
    | ret u t =>
      rw [hg] at h
      simp only [Option.some.injEq] at h
      subst h
      exact Or.inr (Or.inr (Or.inl ⟨pid, b, rfl, hb, hg⟩))
    | sleep b t => rw [hg] at h; cases h
    | panic m t => rw [hg] at h; cases h
  | brelse pid b =>
    simp only [exec] at h
    split_ifs at h with hb
    cases hg : brelse pid b s with
    | ret u t =>
      rw [hg] at h
      simp only [Option.some.injEq] at h
      subst h
      exact Or.inr (Or.inr (Or.inr (Or.inl ⟨pid, b, rfl, hb, hg⟩)))
    | sleep b t => rw [hg] at h; cases h
    | panic m t => rw [hg] at h; cases h
  | bpin b =>
    simp only [exec] at h
    split_ifs at h with hb
    simp only [Option.some.injEq] at h
    exact Or.inr (Or.inr (Or.inr (Or.inr (Or.inl ⟨b, rfl, hb, h.symm⟩))))
  | bunpin b =>
    simp only [exec] at h
    split_ifs at h with hb
    simp only [Option.some.injEq] at h
    exact Or.inr (Or.inr (Or.inr (Or.inr (Or.inr (Or.inl ⟨b, rfl, hb, h.symm⟩)))))
  | wakeup pid b read =>
    simp only [exec] at h
    split_ifs at h with hw
    simp only [Option.some.injEq] at h
    exact Or.inr (Or.inr (Or.inr (Or.inr (Or.inr (Or.inr (Or.inr (Or.inr
      ⟨pid, b, read, rfl, hw.1, hw.2, h.symm⟩)))))))

/-- The sleeplock taken by a resumed call (and, for a `bread`, the valid flag
and the driver request) is all that a resumption changes, apart from the
record of the waiting calls. -/
theorem resume_facts (w : Waiter) (s : Bcache) :
    (resume w s).nbuf = s.nbuf ∧ (resume w s).head = s.head ∧
    (resume w s).waiting = s.waiting.erase w ∧
    (∀ x, x ≠ w.b → (resume w s).buf x = s.buf x) ∧
    ((resume w s).buf w.b).dev = (s.buf w.b).dev ∧
    ((resume w s).buf w.b).blockno = (s.buf w.b).blockno ∧
    ((resume w s).buf w.b).refcnt = (s.buf w.b).refcnt ∧
    ((resume w s).buf w.b).lock = some w.pid := by
  unfold resume
  dsimp only
  split_ifs
  · refine ⟨rfl, rfl, rfl, fun x hx => ?_, ?_, ?_, ?_, ?_⟩
    · simp [setBuf, virtio_disk_rw, Function.update_noteq hx]
    all_goals simp [setBuf, virtio_disk_rw]
  · refine ⟨rfl, rfl, rfl, fun x hx => ?_, ?_, ?_, ?_, ?_⟩
    · simp [setBuf, Function.update_noteq hx]
    all_goals simp [setBuf]

theorem exec_partition {c : Call} {s s' : Bcache} (hp : Partition s)
    (h : exec c s = some s') : Partition s' ∧ s'.nbuf = s.nbuf := by
  rcases exec_cases h with ⟨pid, dev, blockno, b, -, hg⟩ | ⟨pid, dev, blockno, b, -, hg⟩ |
    ⟨pid, b, -, hb, hw⟩ | ⟨pid, b, -, hb, hr⟩ | ⟨b, -, hb, rfl⟩ | ⟨b, -, hb, rfl⟩ |
    ⟨pid, dev, blockno, b, s1, -, hg, rfl⟩ | ⟨pid, dev, blockno, b, s1, -, hg, rfl⟩ |
    ⟨pid, b, read, -, -, -, rfl⟩
  · exact bget_partition hp hg
  · obtain ⟨s1, h1, h2⟩ := bread_ret hg
    obtain ⟨p1, n1⟩ := bget_partition hp h1
    rcases h2 with ⟨_, rfl⟩ | ⟨_, rfl⟩
    · exact ⟨p1.congr rfl rfl, n1⟩
    · exact ⟨p1, n1⟩
  · obtain ⟨_, rfl⟩ := bwrite_ret hw
    exact ⟨hp.congr rfl rfl, rfl⟩
  · obtain ⟨_, ⟨_, rfl⟩ | ⟨_, rfl⟩⟩ := brelse_ret hr
    · exact ⟨hp.move hb (hash_lt _ _) _ rfl rfl, rfl⟩
    · exact ⟨hp.congr rfl rfl, rfl⟩
  · exact ⟨hp.congr rfl rfl, rfl⟩
  · exact ⟨hp.congr rfl rfl, rfl⟩
  · obtain ⟨p1, n1⟩ := bget_select_partition hp (bget_sleep hg).1
    exact ⟨p1.congr rfl rfl, n1⟩
  · obtain ⟨p1, n1⟩ := bget_select_partition hp (bget_sleep (bread_sleep hg)).1
    exact ⟨p1.congr rfl rfl, n1⟩
  · obtain ⟨h1, h2, -⟩ := resume_facts ⟨pid, b, read⟩ s
    exact ⟨hp.congr h1 h2, h1⟩


theorem binit_loop_occ (N n : Nat) :
    ((List.range n).foldl binit_buf (binit_empty N)).nbuf = N ∧
    ∀ b, occ ((List.range n).foldl binit_buf (binit_empty N)) b = if b < n then 1 else 0 := by
  induction n with
  | zero =>
    refine ⟨rfl, fun b => ?_⟩
    simp [occ, binit_empty]
  | succ n ih =>
    rw [List.range_succ, List.foldl_append]
    refine ⟨ih.1, fun b => ?_⟩
    simp only [List.foldl_cons, List.foldl_nil]
    have key : ∀ t : Bcache, occ (binit_buf t n) b = occ t b + if b = n then 1 else 0 := by
      intro t
      unfold binit_buf
      rw [occ_insertHead _ _ _ _ (Nat.mod_lt _ (by decide))]
      rfl
    rw [key, ih.2 b]
    by_cases h1 : b = n
    · subst h1; simp
    · by_cases h2 : b < n
      · have : b < n + 1 := by omega
        simp [h1, h2, this]
      · have : ¬ b < n + 1 := by omega
        simp [h1, h2, this]

theorem binit_partition (nbuf : Nat) : Partition (binit nbuf) ∧ (binit nbuf).nbuf = nbuf := by
  obtain ⟨h1, h2⟩ := binit_loop_occ nbuf nbuf
  refine ⟨fun b => ?_, h1⟩
  show occ (binit nbuf) b = if b < (binit nbuf).nbuf then 1 else 0
  unfold binit
  rw [h1]; exact h2 b

theorem reachable_partition {nbuf : Nat} {s : Bcache} (hr : Reachable nbuf s) :
    Partition s ∧ s.nbuf = nbuf := by
  induction hr with
  | init => exact binit_partition nbuf
  | step s s' c _ hs ih =>
    obtain ⟨h1, h2⟩ := exec_partition ih.1 hs
    exact ⟨h1, h2.trans ih.2⟩

theorem length_eq_sum_count (l : List Nat) (n : Nat) (h : ∀ x ∈ l, x < n) :
    l.length = ∑ b in Finset.range n, l.count b := by
  induction l with
  | nil => simp
  | cons a l ih =>
    have ha : a < n := h a (List.mem_cons_self _ _)
    have hl : ∀ x ∈ l, x < n := fun x hx => h x (List.mem_cons_of_mem _ hx)
    simp only [List.length_cons, List.count_cons, Finset.sum_add_distrib, ← ih hl]
    congr 1
    simp [Finset.sum_ite_eq, ha]

theorem Partition.unique {s : Bcache} (hp : Partition s) {b : Nat} (hb : b < s.nbuf) :
    ∃ i, (i < NBUCKETS ∧ b ∈ s.head i ∧ (s.head i).count b = 1) ∧
      ∀ j, j < NBUCKETS → b ∈ s.head j → j = i := by
  have h1 := hp b
  rw [if_pos hb] at h1
  unfold occ at h1
  have hex : ∃ i ∈ Finset.range NBUCKETS, (s.head i).count b ≠ 0 := by
    by_contra hne
    push_neg at hne
    rw [Finset.sum_eq_zero hne] at h1
    exact absurd h1 (by decide)
  obtain ⟨i, hi, hc⟩ := hex
  have hsplit := Finset.add_sum_erase (Finset.range NBUCKETS)
    (fun i => (s.head i).count b) hi
  simp only at hsplit
  rw [h1] at hsplit
  have hci : (s.head i).count b = 1 := by omega
  have hrest : ∑ x in (Finset.range NBUCKETS).erase i, (s.head x).count b = 0 := by omega
  refine ⟨i, ⟨Finset.mem_range.mp hi, ?_, hci⟩, ?_⟩
  · exact List.count_pos_iff.mp (by omega)
  · intro j hj hm
    by_contra hji
    have := (Finset.sum_eq_zero_iff.mp hrest) j
      (Finset.mem_erase.mpr ⟨hji, Finset.mem_range.mpr hj⟩)
    exact (List.count_eq_zero.mp this) hm

theorem Partition.total {s : Bcache} (hp : Partition s) :
    ∑ i in Finset.range NBUCKETS, (s.head i).length = s.nbuf := by
  have e : ∀ i ∈ Finset.range NBUCKETS,
      (s.head i).length = ∑ b in Finset.range s.nbuf, (s.head i).count b := by
    intro i hi
    exact length_eq_sum_count _ _ (fun x hx => hp.mem_lt (Finset.mem_range.mp hi) hx)
  rw [Finset.sum_congr rfl e, Finset.sum_comm]
  have e2 : ∀ b ∈ Finset.range s.nbuf,
      ∑ i in Finset.range NBUCKETS, (s.head i).count b = 1 := by
    intro b hb
    have := hp b
    rw [if_pos (Finset.mem_range.mp hb)] at this
    exact this
  rw [Finset.sum_congr rfl e2]
  simp

theorem run_reachable {nbuf : Nat} {s : Bcache} (hr : Reachable nbuf s) (cs : List Call)
    {s' : Bcache} (h : run s cs = some s') : Reachable nbuf s' := by
  induction cs generalizing s with
  | nil =>
    simp only [run, Option.some.injEq] at h
    exact h ▸ hr
  | cons c cs ih =>
    simp only [run] at h
    cases hc : exec c s with
    | none => rw [hc] at h; cases h
    | some t =>
      rw [hc] at h
      exact ih (Reachable.step s t c hr hc) h

theorem after_reachable (nbuf : Nat) (cs : List Call)
    (h : (run (binit nbuf) cs).isSome = true) : Reachable nbuf (after nbuf cs) := by
  cases hr : run (binit nbuf) cs with
  | none => rw [hr] at h; cases h
  | some t =>
    have : after nbuf cs = t := by unfold after; rw [hr]; rfl
    rw [this]
    exact run_reachable Reachable.init cs hr

/-- C1. Pool partition invariant: in every state reachable from `binit` by
`bget`, `bread`, `bwrite`, `brelse`, `bpin` and `bunpin` calls run one at a
time, each of the `NBUF` buffers is linked in exactly one of the
`NBUCKETS` bucket lists and occurs exactly once in it, nothing but pool
buffers is linked, and the bucket lengths sum to `NBUF`. -/
theorem C1_pool_partition (nbuf : Nat) (s : Bcache) (hr : Reachable nbuf s) :
    s.nbuf = nbuf ∧
    (∀ b, b < nbuf → ∃ i, (i < NBUCKETS ∧ b ∈ s.head i ∧ (s.head i).count b = 1) ∧
      ∀ j, j < NBUCKETS → b ∈ s.head j → j = i) ∧
    (∀ b i, i < NBUCKETS → b ∈ s.head i → b < nbuf) ∧
    ∑ i in Finset.range NBUCKETS, (s.head i).length = nbuf := by
  obtain ⟨hp, hn⟩ := reachable_partition hr
  subst hn
  exact ⟨rfl, fun b hb => hp.unique hb, fun b i hi hb => hp.mem_lt hi hb, hp.total⟩

/-- C1 at the state reached by acquiring block (1, 5), pinning it, releasing
it, and acquiring block (1, 18) from another process. -/
theorem C1_pool_partition_witness :
    Reachable 30 (after 30 [Call.bget 1 1 5, Call.bpin 4, Call.brelse 1 4, Call.bget 2 1 18]) ∧
    ((after 30 [Call.bget 1 1 5, Call.bpin 4, Call.brelse 1 4, Call.bget 2 1 18]).nbuf = 30 ∧
    (∀ b, b < 30 → ∃ i, (i < NBUCKETS ∧
        b ∈ (after 30 [Call.bget 1 1 5, Call.bpin 4, Call.brelse 1 4, Call.bget 2 1 18]).head i ∧
        ((after 30 [Call.bget 1 1 5, Call.bpin 4, Call.brelse 1 4,
          Call.bget 2 1 18]).head i).count b = 1) ∧
      ∀ j, j < NBUCKETS →
        b ∈ (after 30 [Call.bget 1 1 5, Call.bpin 4, Call.brelse 1 4, Call.bget 2 1 18]).head j →
        j = i) ∧
    (∀ b i, i < NBUCKETS →
      b ∈ (after 30 [Call.bget 1 1 5, Call.bpin 4, Call.brelse 1 4, Call.bget 2 1 18]).head i →
      b < 30) ∧
    ∑ i in Finset.range NBUCKETS,
      ((after 30 [Call.bget 1 1 5, Call.bpin 4, Call.brelse 1 4, Call.bget 2 1 18]).head i).length
      = 30) :=
  ⟨after_reachable 30 _ (by decide),
    C1_pool_partition 30 _ (after_reachable 30 _ (by decide))⟩

/-- What `bget_select` changes in the buffers: nothing but the chosen buffer,
and of that one the identity and valid flag only if its `refcnt` was 0. -/
theorem bget_select_frame {dev blockno : Nat} {s : Bcache} {b : Nat} {s1 : Bcache}
    (h : bget_select dev blockno s = some (b, s1)) :
    (∀ x, x ≠ b → s1.buf x = s.buf x) ∧
    ((s.buf b).refcnt ≠ 0 → (s1.buf b).dev = (s.buf b).dev ∧
      (s1.buf b).blockno = (s.buf b).blockno ∧ (s1.buf b).valid = (s.buf b).valid) := by
  rcases bget_select_cases h with ⟨_, rfl⟩ | ⟨_, hv, rfl⟩ | ⟨_, _, ⟨i, hst⟩, rfl⟩
  · refine ⟨fun x hx => ?_, fun _ => ?_⟩
    · simp [setBuf, Function.update_noteq hx]
    · simp [setBuf]
  · refine ⟨fun x hx => ?_, fun hne => absurd (victim_refcnt hv) hne⟩
    simp [recycle, setBuf, Function.update_noteq hx]
  · have hv := (steal_some hst).2.2
    refine ⟨fun x hx => ?_, fun hne => absurd (victim_refcnt hv) hne⟩
    simp [insertHead, recycle, setBuf, unlink, Function.update_noteq hx]

/-- C2. A referenced buffer is never reassigned: when `bget(dev, blockno)`
returns, every buffer whose `refcnt` was positive before the call keeps its
`dev`, `blockno` and `valid`; a buffer whose identity or valid flag changed is
the returned one, and its `refcnt` was 0 before the call. -/
theorem C2_referenced_not_reassigned (pid dev blockno : Nat) (s : Bcache) (b : Nat)
    (s' : Bcache) (h : bget pid dev blockno s = Result.ret b s') :
    (∀ x, 0 < (s.buf x).refcnt →
      (s'.buf x).dev = (s.buf x).dev ∧ (s'.buf x).blockno = (s.buf x).blockno ∧
        (s'.buf x).valid = (s.buf x).valid) ∧
    (∀ x, ((s'.buf x).dev ≠ (s.buf x).dev ∨ (s'.buf x).blockno ≠ (s.buf x).blockno ∨
        (s'.buf x).valid ≠ (s.buf x).valid) → x = b ∧ (s.buf b).refcnt = 0) := by
  obtain ⟨s1, hs, _, rfl⟩ := bget_ret h
  obtain ⟨hf1, hf2⟩ := bget_select_frame hs
  have key : ∀ x, (x ≠ b ∨ (s.buf b).refcnt ≠ 0) →
      ((setBuf s1 b { s1.buf b with lock := some pid }).buf x).dev = (s.buf x).dev ∧
      ((setBuf s1 b { s1.buf b with lock := some pid }).buf x).blockno = (s.buf x).blockno ∧
      ((setBuf s1 b { s1.buf b with lock := some pid }).buf x).valid = (s.buf x).valid := by
    intro x hx
    by_cases hxb : x = b
    · subst hxb
      have hne : (s.buf x).refcnt ≠ 0 := by
        rcases hx with hx | hx
        · exact absurd rfl hx
        · exact hx
      simpa [setBuf] using hf2 hne
    · simp [setBuf, Function.update_noteq hxb, hf1 x hxb]
  refine ⟨fun x hx => key x ?_, fun x hx => ?_⟩
  · by_cases hxb : x = b
    · subst hxb; exact Or.inr (by omega)
    · exact Or.inl hxb
  · by_contra hcon
    have : x ≠ b ∨ (s.buf b).refcnt ≠ 0 := by
      by_cases hxb : x = b
      · exact Or.inr (fun h0 => hcon ⟨hxb, h0⟩)
      · exact Or.inl hxb
    obtain ⟨h1, h2, h3⟩ := key x this
    rcases hx with hx | hx | hx
    · exact hx h1
    · exact hx h2
    · exact hx h3

/-- C2 on a cache where buffer 4 is held for block (1, 5): acquiring block
(1, 16), of the same bucket, takes buffer 17 and leaves buffer 4 alone. -/
theorem C2_referenced_not_reassigned_witness :
    bget 2 1 16 (after 30 [Call.bget 1 1 5])
      = Result.ret 17 (after 30 [Call.bget 1 1 5, Call.bget 2 1 16]) ∧
    ((∀ x, 0 < ((after 30 [Call.bget 1 1 5]).buf x).refcnt →
      ((after 30 [Call.bget 1 1 5, Call.bget 2 1 16]).buf x).dev
          = ((after 30 [Call.bget 1 1 5]).buf x).dev ∧
        ((after 30 [Call.bget 1 1 5, Call.bget 2 1 16]).buf x).blockno
          = ((after 30 [Call.bget 1 1 5]).buf x).blockno ∧
        ((after 30 [Call.bget 1 1 5, Call.bget 2 1 16]).buf x).valid
          = ((after 30 [Call.bget 1 1 5]).buf x).valid) ∧
    (∀ x, (((after 30 [Call.bget 1 1 5, Call.bget 2 1 16]).buf x).dev
          ≠ ((after 30 [Call.bget 1 1 5]).buf x).dev ∨
        ((after 30 [Call.bget 1 1 5, Call.bget 2 1 16]).buf x).blockno
          ≠ ((after 30 [Call.bget 1 1 5]).buf x).blockno ∨
        ((after 30 [Call.bget 1 1 5, Call.bget 2 1 16]).buf x).valid
          ≠ ((after 30 [Call.bget 1 1 5]).buf x).valid) →
      x = 17 ∧ ((after 30 [Call.bget 1 1 5]).buf 17).refcnt = 0)) :=
  ⟨rfl, C2_referenced_not_reassigned 2 1 16 _ 17 _ rfl⟩

theorem uint_dec_one : (1 + UINT - 1) % UINT = 0 := by decide

theorem uint_inc_zero : (0 + 1) % UINT = 1 := by decide

theorem brelse_last {pid b : Nat} {s : Bcache} (hl : (s.buf b).lock = some pid)
    (hc : (s.buf b).refcnt = 1) :
    brelse pid b s = Result.ret ()
      (insertHead (unlink (setBuf s b { s.buf b with refcnt := 0, lock := none }) b)
        (hash (s.buf b).dev (s.buf b).blockno) b) := by
  unfold brelse
  have hh : holdingsleep pid b s = true := by simp [holdingsleep, hl]
  simp [hh, releasesleep, setBuf, hc, uint_dec_one]

theorem bget_hit_head (pid dev blockno b : Nat) (t : Bcache) (l : List Nat)
    (hh : t.head (hash dev blockno) = b :: l) (hd : (t.buf b).dev = dev)
    (hb : (t.buf b).blockno = blockno) (hl : (t.buf b).lock = none) :
    bget pid dev blockno t = Result.ret b
      (setBuf t b { t.buf b with refcnt := ((t.buf b).refcnt + 1) % UINT, lock := some pid }) := by
  have hlk : lookup t (hash dev blockno) dev blockno = some b := by
    unfold lookup
    rw [hh]
    simp [List.find?, hd, hb]
  unfold bget bget_select
  simp only [hlk]
  unfold acquiresleep
  simp [setBuf, hl]

/-- C5. Release then re-acquire returns the same buffer: when process `pid`
holds buffer `b` and `b.refcnt` is 1, `brelse(b)` returns and leaves
`refcnt = 0`; a `bget(b.dev, b.blockno)` that follows immediately, from any
process, returns the same buffer `b` with the same identity and valid flag,
`refcnt = 1`, and without any driver request; and when the valid flag was set
a `bread` of that identity returns `b` without any driver request. -/
theorem C5_release_then_reacquire (s : Bcache) (pid b : Nat)
    (hl : (s.buf b).lock = some pid) (hc : (s.buf b).refcnt = 1) :
    ∃ s1, brelse pid b s = Result.ret () s1 ∧ (s1.buf b).refcnt = 0 ∧
      ∀ pid', ∃ s2, bget pid' (s.buf b).dev (s.buf b).blockno s1 = Result.ret b s2 ∧
        (s2.buf b).dev = (s.buf b).dev ∧ (s2.buf b).blockno = (s.buf b).blockno ∧
        (s2.buf b).valid = (s.buf b).valid ∧ (s2.buf b).refcnt = 1 ∧
        s2.disk = s.disk ∧
        ((s.buf b).valid ≠ 0 →
          bread pid' (s.buf b).dev (s.buf b).blockno s1 = Result.ret b s2) := by
  refine ⟨_, brelse_last hl hc, by simp [insertHead, unlink, setBuf], fun pid' => ?_⟩
  have hg := bget_hit_head pid' (s.buf b).dev (s.buf b).blockno b
    (insertHead (unlink (setBuf s b { s.buf b with refcnt := 0, lock := none }) b)
        (hash (s.buf b).dev (s.buf b).blockno) b)
    (((setBuf s b { s.buf b with refcnt := 0, lock := none }).head
        (hash (s.buf b).dev (s.buf b).blockno)).filter (fun x => x != b))
    (by simp [insertHead, unlink]) (by simp [insertHead, unlink, setBuf])
    (by simp [insertHead, unlink, setBuf]) (by simp [insertHead, unlink, setBuf])
  refine ⟨_, hg, ?_, ?_, ?_, ?_, ?_, ?_⟩
  · simp [insertHead, unlink, setBuf]
  · simp [insertHead, unlink, setBuf]
  · simp [insertHead, unlink, setBuf]
  · simp [insertHead, unlink, setBuf, uint_inc_zero]
  · simp [insertHead, unlink, setBuf]
  · intro hv
    unfold bread
    rw [hg]
    simp [insertHead, unlink, setBuf, hv]

/-- C5 on the cache where process 1 has read block (1, 5) into buffer 4. -/
theorem C5_release_then_reacquire_witness :
    ((after 30 [Call.bread 1 1 5]).buf 4).lock = some 1 ∧
    ((after 30 [Call.bread 1 1 5]).buf 4).refcnt = 1 ∧
    ∃ s1, brelse 1 4 (after 30 [Call.bread 1 1 5]) = Result.ret () s1 ∧ (s1.buf 4).refcnt = 0 ∧
      ∀ pid', ∃ s2, bget pid' ((after 30 [Call.bread 1 1 5]).buf 4).dev
            ((after 30 [Call.bread 1 1 5]).buf 4).blockno s1 = Result.ret 4 s2 ∧
        (s2.buf 4).dev = ((after 30 [Call.bread 1 1 5]).buf 4).dev ∧
        (s2.buf 4).blockno = ((after 30 [Call.bread 1 1 5]).buf 4).blockno ∧
        (s2.buf 4).valid = ((after 30 [Call.bread 1 1 5]).buf 4).valid ∧
        (s2.buf 4).refcnt = 1 ∧
        s2.disk = (after 30 [Call.bread 1 1 5]).disk ∧
        (((after 30 [Call.bread 1 1 5]).buf 4).valid ≠ 0 →
          bread pid' ((after 30 [Call.bread 1 1 5]).buf 4).dev
            ((after 30 [Call.bread 1 1 5]).buf 4).blockno s1 = Result.ret 4 s2) :=
  ⟨by decide, by decide,
    C5_release_then_reacquire (after 30 [Call.bread 1 1 5]) 1 4 (by decide) (by decide)⟩

theorem lookup_none_iff (s : Bcache) (h dev blockno : Nat) :
    lookup s h dev blockno = none ↔
      ∀ x ∈ s.head h, ¬ ((s.buf x).dev = dev ∧ (s.buf x).blockno = blockno) := by
  unfold lookup
  rw [List.find?_eq_none]
  simp

theorem victim_none_iff (s : Bcache) (i : Nat) :
    victim s i = none ↔ ∀ x ∈ s.head i, (s.buf x).refcnt ≠ 0 := by
  unfold victim
  rw [List.find?_eq_none]
  simp

theorem steal_none_iff (s : Bcache) (h : Nat) (is : List Nat) :
    steal s h is = none ↔ ∀ i ∈ is, i ≠ h → victim s i = none := by
  induction is with
  | nil => simp [steal]
  | cons j js ih =>
    unfold steal
    by_cases hj : j = h
    · simp [hj, ih]
    · cases hv : victim s j with
      | none => simp [hj, hv, ih]
      | some c =>
        simp only [hj, if_false, List.mem_cons]
        constructor
        · intro hc; cases hc
        · intro hall
          have := hall j (Or.inl rfl) hj
          rw [hv] at this; cases this

/-- No buffer is chosen exactly when bucket `h` has no buffer carrying the
identity and no bucket has a buffer with `refcnt == 0`. -/
theorem bget_select_none_iff (dev blockno : Nat) (s : Bcache) :
    bget_select dev blockno s = none ↔
      (∀ x ∈ s.head (hash dev blockno),
          ¬ ((s.buf x).dev = dev ∧ (s.buf x).blockno = blockno)) ∧
      ∀ i, i < NBUCKETS → ∀ x ∈ s.head i, (s.buf x).refcnt ≠ 0 := by
  rw [← lookup_none_iff]
  constructor
  · intro h
    unfold bget_select at h
    simp only at h
    cases hl : lookup s (hash dev blockno) dev blockno with
    | some c => rw [hl] at h; cases h
    | none =>
      rw [hl] at h
      cases hv : victim s (hash dev blockno) with
      | some c => rw [hv] at h; cases h
      | none =>
        rw [hv] at h
        cases hst : steal s (hash dev blockno) (List.range NBUCKETS) with
        | some p => rw [hst] at h; cases h
        | none =>
          refine ⟨rfl, fun i hi => ?_⟩
          by_cases hih : i = hash dev blockno
          · subst hih; exact (victim_none_iff s _).mp hv
          · exact (victim_none_iff s i).mp
              ((steal_none_iff s _ _).mp hst i (List.mem_range.mpr hi) hih)
  · rintro ⟨hl, hall⟩
    have hv : victim s (hash dev blockno) = none :=
      (victim_none_iff s _).mpr (hall _ (hash_lt dev blockno))
    have hst : steal s (hash dev blockno) (List.range NBUCKETS) = none :=
      (steal_none_iff s _ _).mpr
        (fun i hi _ => (victim_none_iff s i).mpr (hall i (List.mem_range.mp hi)))
    unfold bget_select
    simp only [hl, hv, hst]

theorem bget_panic_iff (pid dev blockno : Nat) (s : Bcache) :
    bget pid dev blockno s = Result.panic Panic.bget_no_buffers s ↔
      bget_select dev blockno s = none := by
  unfold bget
  cases hs : bget_select dev blockno s with
  | none => simp
  | some p =>
    obtain ⟨b, s1⟩ := p
    simp only [false_iff]
    unfold acquiresleep
    cases (s1.buf b).lock <;> simp

/-- The outcome of `bget` once a buffer is chosen: it returns when the
sleeplock of the buffer is free, and is suspended when it is held. -/
theorem bget_of_select (pid : Nat) {dev blockno : Nat} {s : Bcache} {b : Nat} {s1 : Bcache}
    (h : bget_select dev blockno s = some (b, s1)) :
    ((s1.buf b).lock = none →
      bget pid dev blockno s
        = Result.ret b (setBuf s1 b { s1.buf b with lock := some pid })) ∧
    (∀ q, (s1.buf b).lock = some q → bget pid dev blockno s = Result.sleep b s1) := by
  unfold bget
  rw [h]
  simp only
  unfold acquiresleep
  constructor
  · intro hl; rw [hl]
  · intro q hl; rw [hl]

/-- C7 (amended). `bget(dev, blockno)` panics with "bget: no buffers" if and
only if no buffer of bucket `h = (dev ^ blockno) % NBUCKETS` carries
`(dev, blockno)` and no buffer of any bucket has `refcnt == 0`; so it panics
when every buffer is held and none carries the identity asked for. Whenever
some buffer has `refcnt == 0` it does not panic: it chooses a buffer `b`, and
returns `b` if the sleeplock of `b` is free, and is suspended in
`acquiresleep` if that sleeplock is held. -/
theorem C7_bget_panic_iff (pid dev blockno : Nat) (s : Bcache) :
    (bget pid dev blockno s = Result.panic Panic.bget_no_buffers s ↔
      (∀ x ∈ s.head (hash dev blockno),
          ¬ ((s.buf x).dev = dev ∧ (s.buf x).blockno = blockno)) ∧
      ∀ i, i < NBUCKETS → ∀ x ∈ s.head i, (s.buf x).refcnt ≠ 0) ∧
    ((∀ i, i < NBUCKETS → ∀ x ∈ s.head i,
        0 < (s.buf x).refcnt ∧ ¬ ((s.buf x).dev = dev ∧ (s.buf x).blockno = blockno)) →
      bget pid dev blockno s = Result.panic Panic.bget_no_buffers s) ∧
    ((∃ i, i < NBUCKETS ∧ ∃ x ∈ s.head i, (s.buf x).refcnt = 0) →
      ∃ b s1, bget_select dev blockno s = some (b, s1) ∧
        ((s1.buf b).lock = none →
          bget pid dev blockno s
            = Result.ret b (setBuf s1 b { s1.buf b with lock := some pid })) ∧
        (∀ q, (s1.buf b).lock = some q → bget pid dev blockno s = Result.sleep b s1)) := by
  have h1 := (bget_panic_iff pid dev blockno s).trans (bget_select_none_iff dev blockno s)
  refine ⟨h1, fun hall => ?_, fun hex => ?_⟩
  · refine h1.mpr ⟨fun x hx => (hall _ (hash_lt dev blockno) x hx).2, fun i hi x hx => ?_⟩
    have := (hall i hi x hx).1
    omega
  · obtain ⟨i, hi, x, hx, h0⟩ := hex
    cases hs : bget_select dev blockno s with
    | none =>
      exact absurd h0 (((bget_select_none_iff dev blockno s).mp hs).2 i hi x hx)
    | some p =>
      obtain ⟨b, s1⟩ := p
      exact ⟨b, s1, rfl, bget_of_select pid hs⟩

/-- C7 as stated fails: process 1 holds buffer 4 for block (1, 5), buffer 0 is
linked in bucket 0 with `refcnt == 0`, and a second `bget(1, 5)` by process 1
does not return: it is suspended in `acquiresleep` on the sleeplock that
process 1 itself holds, after raising the `refcnt` of buffer 4. -/
theorem C7_counterexample :
    0 ∈ (after 30 [Call.bget 1 1 5]).head 0 ∧
    ((after 30 [Call.bget 1 1 5]).buf 0).refcnt = 0 ∧
    ((after 30 [Call.bget 1 1 5]).buf 4).lock = some 1 ∧
    bget 1 1 5 (after 30 [Call.bget 1 1 5])
      = Result.sleep 4 (bpin 4 (after 30 [Call.bget 1 1 5])) :=
  ⟨by decide, by decide, by decide, rfl⟩

/-- The buffer chosen by `bget_select` carries the identity asked for; after a
miss in bucket `h` its valid flag is clear. -/
theorem bget_select_identity {dev blockno : Nat} {s : Bcache} {b : Nat} {s1 : Bcache}
    (h : bget_select dev blockno s = some (b, s1)) :
    (s1.buf b).dev = dev ∧ (s1.buf b).blockno = blockno ∧
    (lookup s (hash dev blockno) dev blockno = none → (s1.buf b).valid = 0) := by
  rcases bget_select_cases h with ⟨hl, rfl⟩ | ⟨_, _, rfl⟩ | ⟨_, _, _, rfl⟩
  · have hp := List.find?_some hl
    simp only [Bool.and_eq_true, beq_iff_eq] at hp
    refine ⟨by simpa [setBuf] using hp.1, by simpa [setBuf] using hp.2, fun hn => ?_⟩
    rw [hl] at hn; cases hn
  · simp [recycle, setBuf]
  · simp [insertHead, recycle, setBuf]

theorem binit_loop_buf (N n : Nat) (x : Nat) :
    ((List.range n).foldl binit_buf (binit_empty N)).buf x =
      if x < n then { dev := 4294967295, blockno := 0, valid := 0, refcnt := 0, lock := none }
      else { dev := 0, blockno := 0, valid := 0, refcnt := 0, lock := none } := by
  induction n with
  | zero => simp [binit_empty]
  | succ n ih =>
    rw [List.range_succ, List.foldl_append]
    simp only [List.foldl_cons, List.foldl_nil]
    have key : ∀ t : Bcache, (binit_buf t n).buf x =
        if x = n then { dev := 4294967295, blockno := 0, valid := 0, refcnt := 0, lock := none }
        else t.buf x := by
      intro t
      simp only [binit_buf, insertHead, setBuf, Function.update_apply]
    rw [key, ih]
    by_cases h1 : x = n
    · subst h1; simp
    · by_cases h2 : x < n
      · have : x < n + 1 := by omega
        simp [h1, h2, this]
      · have : ¬ x < n + 1 := by omega
        simp [h1, h2, this]

/-- Right after `binit` no buffer is referenced or locked, no driver request
has been issued, and no buffer carries device 1. -/
theorem binit_buf_fresh (nbuf x : Nat) :
    ((binit nbuf).buf x).refcnt = 0 ∧ ((binit nbuf).buf x).lock = none ∧
    ((binit nbuf).buf x).dev ≠ 1 := by
  unfold binit
  rw [binit_loop_buf]
  split_ifs <;> simp

/-- Scenario B: the 30 buffers are held for the blocks (1, 0) … (1, 29); the
next `bget`, for block (2, 0), panics. -/
theorem bget_full_cache_panics :
    (run (binit 30) ((List.range 30).map (fun k => Call.bget k 1 k))).isSome = true ∧
    (∀ x, x < 30 →
      ((after 30 ((List.range 30).map (fun k => Call.bget k 1 k))).buf x).refcnt = 1) ∧
    bget 99 2 0 (after 30 ((List.range 30).map (fun k => Call.bget k 1 k)))
      = Result.panic Panic.bget_no_buffers
          (after 30 ((List.range 30).map (fun k => Call.bget k 1 k))) :=
  ⟨by decide, by decide, rfl⟩

end Bio

namespace Kalloc

theorem chain_frame {next : Nat → Nat} {a v : Nat} {l : List Nat} (ha : a ∉ l) (p : Nat) :
    Chain (Function.update next a v) p l ↔ Chain next p l := by
  induction l generalizing p with
  | nil => simp [Chain]
  | cons b l ih =>
    have hb : b ≠ a := fun h => ha (h ▸ List.mem_cons_self _ _)
    have hl : a ∉ l := fun h => ha (List.mem_cons_of_mem _ h)
    simp only [Chain, Function.update_noteq hb, ih hl]

theorem chain_unique {next : Nat → Nat} {p : Nat} {l l' : List Nat}
    (h : Chain next p l) (h' : Chain next p l') : l = l' := by
  induction l generalizing p l' with
  | nil =>
    cases l' with
    | nil => rfl
    | cons b l' =>
      simp only [Chain] at h h'
      exact absurd (h'.1.symm.trans h) h'.2.1
  | cons a l ih =>
    cases l' with
    | nil =>
      simp only [Chain] at h h'
      exact absurd (h.1.symm.trans h') h.2.1
    | cons b l' =>
      simp only [Chain] at h h'
      have hab : a = b := h.1.symm.trans h'.1
      subst hab
      rw [ih h.2.2 h'.2.2]

theorem chain_zero_not_mem {next : Nat → Nat} {p : Nat} {l : List Nat}
    (h : Chain next p l) : 0 ∉ l := by
  induction l generalizing p with
  | nil => simp
  | cons a l ih =>
    simp only [Chain] at h
    simp only [List.mem_cons, not_or]
    exact ⟨fun h0 => h.2.1 h0.symm, ih h.2.2⟩

theorem occ_update_cons (cfg : Config) (L : Nat → List Nat) (c pa a : Nat)
    (hc : c < cfg.ncpu) :
    occ cfg (Function.update L c (pa :: L c)) a = occ cfg L a + if a = pa then 1 else 0 := by
  unfold occ
  rw [← Finset.add_sum_erase _ _ (Finset.mem_range.mpr hc),
    ← Finset.add_sum_erase (Finset.range cfg.ncpu) (fun i => (L i).count a)
      (Finset.mem_range.mpr hc)]
  have e : ∑ i in (Finset.range cfg.ncpu).erase c,
        (Function.update L c (pa :: L c) i).count a
      = ∑ i in (Finset.range cfg.ncpu).erase c, (L i).count a := by
    apply Finset.sum_congr rfl
    intro i hi
    rw [Function.update_noteq (Finset.ne_of_mem_erase hi)]
  rw [e, Function.update_same, List.count_cons]
  by_cases hx : a = pa
  · subst hx; simp; omega
  · have : ¬ pa = a := fun h => hx h.symm
    simp [hx, this]

theorem occ_eq_zero {cfg : Config} {L : Nat → List Nat} {a : Nat}
    (h : ∀ i, i < cfg.ncpu → a ∉ L i) : occ cfg L a = 0 := by
  unfold occ
  apply Finset.sum_eq_zero
  intro i hi
  exact List.count_eq_zero.mpr (h i (Finset.mem_range.mp hi))

/-- The core whose list `kfree` pushes on. -/
theorem kfree_some (cfg : Config) (cpu : Nat) {pa : Nat} (s : Kmem)
    (hv : ¬ (pa % PGSIZE ≠ 0 ∨ pa < cfg.kend ∨ pa ≥ cfg.phystop)) :
    ∃ s', kfree cfg cpu pa s = some s' ∧
      s'.freelist (if s.kmem_init_phase ≠ 0 then s.init_cpu else cpu) = pa ∧
      s'.next pa = s.freelist (if s.kmem_init_phase ≠ 0 then s.init_cpu else cpu) ∧
      (∀ i, i ≠ (if s.kmem_init_phase ≠ 0 then s.init_cpu else cpu) →
        s'.freelist i = s.freelist i) ∧
      (∀ a, a ≠ pa → s'.next a = s.next a) ∧
      s'.kmem_init_phase = s.kmem_init_phase ∧
      s'.init_cpu = (if s.kmem_init_phase ≠ 0 then (s.init_cpu + 1) % cfg.ncpu
        else s.init_cpu) := by
  unfold kfree
  rw [if_neg hv]
  dsimp only
  by_cases hp : s.kmem_init_phase ≠ 0
  · repeat rw [if_pos hp]
    refine ⟨_, rfl, by simp, by simp, fun i hi => ?_, fun a ha => ?_, rfl, rfl⟩
    · simp [Function.update_noteq hi]
    · simp [Function.update_noteq ha]
  · repeat rw [if_neg hp]
    refine ⟨_, rfl, by simp, by simp, fun i hi => ?_, fun a ha => ?_, rfl, rfl⟩
    · simp [Function.update_noteq hi]
    · simp [Function.update_noteq ha]

/-- On well-formed lists, `kfree` of a page that is on no list pushes it on
the list of the target core. -/
theorem kfree_lists {cfg : Config} {cpu pa : Nat} {s s' : Kmem} {L : Nat → List Nat}
    (hL : Lists cfg s L) (hpa : pa ≠ 0) (hfree : ∀ i, i < cfg.ncpu → pa ∉ L i)
    (hc : (if s.kmem_init_phase ≠ 0 then s.init_cpu else cpu) < cfg.ncpu)
    (hk : kfree cfg cpu pa s = some s') :
    Lists cfg s'
      (Function.update L (if s.kmem_init_phase ≠ 0 then s.init_cpu else cpu)
        (pa :: L (if s.kmem_init_phase ≠ 0 then s.init_cpu else cpu))) := by
  have hv : ¬ (pa % PGSIZE ≠ 0 ∨ pa < cfg.kend ∨ pa ≥ cfg.phystop) := by
    intro h
    unfold kfree at hk
    rw [if_pos h] at hk
    cases hk
  obtain ⟨t, ht, h1, h2, h3, h4, _, _⟩ := kfree_some cfg cpu s hv
  rw [hk] at ht
  cases ht
  generalize (if s.kmem_init_phase ≠ 0 then s.init_cpu else cpu) = c at *
  have hnext : s'.next = Function.update s.next pa (s.freelist c) := by
    funext a
    by_cases ha : a = pa
    · subst ha; rw [h2, Function.update_same]
    · rw [h4 a ha, Function.update_noteq ha]
  refine ⟨fun i hi => ?_, fun a => ?_⟩
  · by_cases hic : i = c
    · subst hic
      rw [Function.update_same, h1]
      refine ⟨rfl, hpa, ?_⟩
      rw [h2, hnext]
      exact (chain_frame (hfree i hi) _).mpr (hL.1 i hi)
    · rw [Function.update_noteq hic, h3 i hic, hnext]
      exact (chain_frame (hfree i hi) _).mpr (hL.1 i hi)
  · rw [occ_update_cons cfg L c pa a hc]
    by_cases ha : a = pa
    · subst ha
      rw [occ_eq_zero hfree]
      simp
    · simp only [ha, if_false, Nat.add_zero]
      exact hL.2 a

/-- C8. `kfree(pa)` panics if and only if `pa` is not a multiple of `PGSIZE`,
or `pa` is below `end`, or `pa >= PHYSTOP`. For every other `pa` it returns,
and `pa` is linked at the head of exactly one list, the one of the calling
core (of the round-robin core during `kinit`): that head becomes `pa`, the
`next` field of `pa` becomes the former head, and no other head or `next`
field changes. When the free lists are well-formed and `pa` is on none of
them, that list grows by `pa` at its head and every other list is the same. -/
theorem C8_kfree_panic_iff (cfg : Config) (cpu pa : Nat) (s : Kmem) :
    (kfree cfg cpu pa s = none ↔
      (pa % PGSIZE ≠ 0 ∨ pa < cfg.kend ∨ pa ≥ cfg.phystop)) ∧
    (¬ (pa % PGSIZE ≠ 0 ∨ pa < cfg.kend ∨ pa ≥ cfg.phystop) →
      ∃ s', kfree cfg cpu pa s = some s' ∧
        s'.freelist (if s.kmem_init_phase ≠ 0 then s.init_cpu else cpu) = pa ∧
        s'.next pa = s.freelist (if s.kmem_init_phase ≠ 0 then s.init_cpu else cpu) ∧
        (∀ i, i ≠ (if s.kmem_init_phase ≠ 0 then s.init_cpu else cpu) →
          s'.freelist i = s.freelist i) ∧
        (∀ a, a ≠ pa → s'.next a = s.next a) ∧
        ∀ L, Lists cfg s L → 0 < cfg.kend →
          (if s.kmem_init_phase ≠ 0 then s.init_cpu else cpu) < cfg.ncpu →
          (∀ i, i < cfg.ncpu → pa ∉ L i) →
          Lists cfg s'
            (Function.update L (if s.kmem_init_phase ≠ 0 then s.init_cpu else cpu)
              (pa :: L (if s.kmem_init_phase ≠ 0 then s.init_cpu else cpu)))) := by
  constructor
  · constructor
    · intro h
      by_contra hv
      obtain ⟨t, ht, _⟩ := kfree_some cfg cpu s hv
      rw [h] at ht
      cases ht
    · intro h
      unfold kfree
      rw [if_pos h]
  · intro hv
    obtain ⟨t, ht, h1, h2, h3, h4, _, _⟩ := kfree_some cfg cpu s hv
    refine ⟨t, ht, h1, h2, h3, h4, fun L hL hk hc hfree => ?_⟩
    have hpa : pa ≠ 0 := by
      simp only [not_or, not_lt] at hv
      omega
    exact kfree_lists hL hpa hfree hc ht

theorem occ_eq_count_flatten (cfg : Config) (L : Nat → List Nat) (a : Nat) :
    occ cfg L a = (((List.range cfg.ncpu).map L).flatten).count a := by
  unfold occ
  rw [List.count_flatten, List.map_map]
  generalize cfg.ncpu = n
  induction n with
  | zero => simp
  | succ n ih =>
    rw [Finset.sum_range_succ, ih, List.range_succ, List.map_append, List.sum_append]
    simp

/-- Lists without a repeated page, chained in the state, are well-formed. -/
theorem lists_of_nodup {cfg : Config} {s : Kmem} {L : Nat → List Nat}
    (hc : ∀ i, i < cfg.ncpu → Chain s.next (s.freelist i) (L i))
    (hn : (((List.range cfg.ncpu).map L).flatten).Nodup) : Lists cfg s L := by
  refine ⟨hc, fun a => ?_⟩
  rw [occ_eq_count_flatten]
  exact List.nodup_iff_count_le_one.mp hn a

theorem chain_head_zero_iff {next : Nat → Nat} {p : Nat} {l : List Nat}
    (h : Chain next p l) : p = 0 ↔ l = [] := by
  cases l with
  | nil => simpa [Chain] using h
  | cons a l =>
    simp only [Chain] at h
    simp only [reduceCtorEq, iff_false]
    rw [h.1]; exact h.2.1

theorem occ_update_le (cfg : Config) (L : Nat → List Nat) (i : Nat) (l : List Nat) (a : Nat)
    (hl : l.count a ≤ (L i).count a) :
    occ cfg (Function.update L i l) a ≤ occ cfg L a := by
  unfold occ
  apply Finset.sum_le_sum
  intro j _
  by_cases hj : j = i
  · subst hj; rw [Function.update_same]; exact hl
  · rw [Function.update_noteq hj]

/-- The head of a well-formed list is on no other list and not in its own
tail. -/
theorem lists_head_fresh {cfg : Config} {s : Kmem} {L : Nat → List Nat} (hL : Lists cfg s L)
    {i r : Nat} {rest : List Nat} (hi : i < cfg.ncpu) (hLi : L i = r :: rest) :
    r ∉ rest ∧ ∀ j, j < cfg.ncpu → j ≠ i → r ∉ L j := by
  have h1 := hL.2 r
  unfold occ at h1
  rw [← Finset.add_sum_erase _ _ (Finset.mem_range.mpr hi)] at h1
  simp only [hLi, List.count_cons_self] at h1
  have hrest : rest.count r = 0 := by omega
  have hsum : ∑ x in (Finset.range cfg.ncpu).erase i, (L x).count r = 0 := by omega
  refine ⟨List.count_eq_zero.mp hrest, fun j hj hji => ?_⟩
  exact List.count_eq_zero.mp ((Finset.sum_eq_zero_iff.mp hsum) j
    (Finset.mem_erase.mpr ⟨hji, Finset.mem_range.mpr hj⟩))

/-- Taking the head off a well-formed list, whatever is written into the page
afterwards. -/
theorem lists_pop {cfg : Config} {s s' : Kmem} {L : Nat → List Nat} (hL : Lists cfg s L)
    {i r : Nat} {rest : List Nat} {v : Nat} (hi : i < cfg.ncpu) (hLi : L i = r :: rest)
    (hf : s'.freelist = Function.update s.freelist i (s.next r))
    (hn : s'.next = Function.update s.next r v) :
    Lists cfg s' (Function.update L i rest) := by
  obtain ⟨hr1, hr2⟩ := lists_head_fresh hL hi hLi
  have hci := hL.1 i hi
  rw [hLi] at hci
  simp only [Chain] at hci
  refine ⟨fun j hj => ?_, fun a => ?_⟩
  · rw [hf, hn]
    by_cases hji : j = i
    · subst hji
      rw [Function.update_same, Function.update_same]
      exact (chain_frame hr1 _).mpr hci.2.2
    · rw [Function.update_noteq hji, Function.update_noteq hji]
      exact (chain_frame (hr2 j hj hji) _).mpr (hL.1 j hj)
  · refine le_trans (occ_update_le cfg L i rest a ?_) (hL.2 a)
    rw [hLi, List.count_cons]
    omega

theorem kalloc_local {cfg : Config} {cpu : Nat} {s : Kmem} (h : s.freelist cpu ≠ 0) :
    kalloc cfg cpu s = (s.freelist cpu,
      { s with
        freelist := Function.update s.freelist cpu (s.next (s.freelist cpu))
        next := Function.update s.next (s.freelist cpu) JUNK5 }) := by
  unfold kalloc
  simp only [h, ne_eq, not_false_eq_true, if_true, if_false]

theorem kalloc_remote {cfg : Config} {cpu : Nat} {s : Kmem} (h : s.freelist cpu = 0) :
    kalloc cfg cpu s =
      if (kalloc_steal s cpu (List.range cfg.ncpu)).1 ≠ 0 then
        ((kalloc_steal s cpu (List.range cfg.ncpu)).1,
          { (kalloc_steal s cpu (List.range cfg.ncpu)).2 with
            next := Function.update (kalloc_steal s cpu (List.range cfg.ncpu)).2.next
              (kalloc_steal s cpu (List.range cfg.ncpu)).1 JUNK5 })
      else kalloc_steal s cpu (List.range cfg.ncpu) := by
  unfold kalloc
  simp only [h, ne_eq, not_true_eq_false, if_false, if_true]

/-- The stealing loop finds the first core other than `cpu`, among those
still to visit, whose list is non-empty. -/
theorem kalloc_steal_spec {cfg : Config} {s : Kmem} {L : Nat → List Nat} (hL : Lists cfg s L)
    (cpu : Nat) (is : List Nat) (his : ∀ i ∈ is, i < cfg.ncpu) :
    kalloc_steal s cpu is =
      match is.find? (fun i => i != cpu && !(L i).isEmpty) with
      | some i => (s.freelist i,
          { s with freelist := Function.update s.freelist i (s.next (s.freelist i)) })
      | none => (0, s) := by
  induction is with
  | nil => rfl
  | cons j js ih =>
    have hj : j < cfg.ncpu := his j (List.mem_cons_self _ _)
    have hjs : ∀ i ∈ js, i < cfg.ncpu := fun i hi => his i (List.mem_cons_of_mem _ hi)
    have hz := chain_head_zero_iff (hL.1 j hj)
    unfold kalloc_steal
    by_cases hjc : j = cpu
    · rw [if_pos hjc, ih hjs, List.find?_cons_of_neg]
      simp [hjc]
    · rw [if_neg hjc]
      by_cases hf : s.freelist j = 0
      · have hnil : L j = [] := hz.mp hf
        rw [if_neg (by simpa using hf), ih hjs, List.find?_cons_of_neg]
        simp [hnil]
      · have hne : L j ≠ [] := fun h => hf (hz.mpr h)
        rw [if_pos hf, List.find?_cons_of_pos]
        simp [hjc, hne]

theorem find_range_first (p : Nat → Bool) (n i : Nat)
    (h : (List.range n).find? p = some i) : i < n ∧ p i = true ∧ ∀ j, j < i → p j = false := by
  induction n with
  | zero => simp at h
  | succ n ih =>
    rw [List.range_succ, List.find?_append] at h
    cases hf : (List.range n).find? p with
    | some k =>
      rw [hf] at h
      simp only [Option.or, Option.some.injEq] at h
      subst h
      obtain ⟨h1, h2, h3⟩ := ih hf
      exact ⟨by omega, h2, h3⟩
    | none =>
      rw [hf] at h
      simp only [Option.or] at h
      have hpi := List.find?_some h
      have hmem := List.mem_of_find?_eq_some h
      simp only [List.mem_singleton] at hmem
      subst hmem
      refine ⟨by omega, hpi, fun j hj => ?_⟩
      have := List.find?_eq_none.mp hf j (List.mem_range.mpr hj)
      simpa using this

/-- What `kalloc` does on well-formed free lists, in terms of `kalloc_ref`. -/
theorem kalloc_spec (cfg : Config) (c : Nat) (s : Kmem) (L : Nat → List Nat)
    (hL : Lists cfg s L) (hc : c < cfg.ncpu) :
    (kalloc cfg c s).1 = (kalloc_ref cfg c L).1 ∧
    Lists cfg (kalloc cfg c s).2 (kalloc_ref cfg c L).2 ∧
    (((kalloc cfg c s).1 = 0 ∧ (kalloc_ref cfg c L).2 = L ∧ ∀ i, i < cfg.ncpu → L i = []) ∨
      ∃ i, i < cfg.ncpu ∧ (kalloc cfg c s).1 ≠ 0 ∧
        L i = (kalloc cfg c s).1 :: (kalloc_ref cfg c L).2 i ∧
        (∀ j, j ≠ i → (kalloc_ref cfg c L).2 j = L j) ∧
        (i = c ∨ (L c = [] ∧ ∀ j, j < i → j ≠ c → L j = []))) := by
  have hcc := hL.1 c hc
  cases hLc : L c with
  | cons r rest =>
    rw [hLc] at hcc
    simp only [Chain] at hcc
    have hne : s.freelist c ≠ 0 := by rw [hcc.1]; exact hcc.2.1
    have href : kalloc_ref cfg c L = (r, Function.update L c rest) := by
      unfold kalloc_ref; rw [hLc]
    rw [kalloc_local hne, href, hcc.1]
    refine ⟨rfl, lists_pop hL hc hLc rfl rfl, Or.inr ⟨c, hc, hcc.2.1, ?_, fun j hj => ?_, Or.inl rfl⟩⟩
    · simp only [Function.update_same]; exact hLc
    · simp only [Function.update_noteq hj]
  | nil =>
    rw [hLc] at hcc
    simp only [Chain] at hcc
    have hst := kalloc_steal_spec hL c (List.range cfg.ncpu) (fun i hi => List.mem_range.mp hi)
    cases hf : (List.range cfg.ncpu).find? (fun i => i != c && !(L i).isEmpty) with
    | none =>
      rw [hf] at hst
      dsimp only at hst
      have href : kalloc_ref cfg c L = (0, L) := by
        unfold kalloc_ref; rw [hLc]; simp only [hf]
      have hk : kalloc cfg c s = (0, s) := by
        rw [kalloc_remote hcc, hst]
        simp only [ne_eq, not_true_eq_false, if_false]
      rw [hk, href]
      refine ⟨rfl, hL, Or.inl ⟨rfl, rfl, fun i hi => ?_⟩⟩
      by_cases hic : i = c
      · rw [hic]; exact hLc
      · have := List.find?_eq_none.mp hf i (List.mem_range.mpr hi)
        simpa [hic] using this
    | some i =>
      rw [hf] at hst
      dsimp only at hst
      obtain ⟨hi, hpi, hfirst⟩ := find_range_first _ _ _ hf
      simp only [Bool.and_eq_true, bne_iff_ne, ne_eq, Bool.not_eq_true',
        List.isEmpty_eq_false_iff_exists_mem] at hpi
      obtain ⟨hic, x, hx⟩ := hpi
      cases hLi : L i with
      | nil => rw [hLi] at hx; cases hx
      | cons r rest =>
        have hci := hL.1 i hi
        rw [hLi] at hci
        simp only [Chain] at hci
        have href : kalloc_ref cfg c L = (r, Function.update L i rest) := by
          unfold kalloc_ref; rw [hLc]; simp only [hf, hLi, List.headD_cons, List.tail_cons]
        have hk : kalloc cfg c s = (r,
            { s with
              freelist := Function.update s.freelist i (s.next r)
              next := Function.update s.next r JUNK5 }) := by
          rw [kalloc_remote hcc, hst, hci.1]
          simp only [ne_eq, hci.2.1, not_false_eq_true, if_true]
        rw [hk, href]
        refine ⟨rfl, lists_pop hL hi hLi rfl rfl, Or.inr ⟨i, hi, hci.2.1, ?_, fun j hj => ?_,
          Or.inr ⟨rfl, fun j hj hjc => ?_⟩⟩⟩
        · simp only [Function.update_same]; exact hLi
        · simp only [Function.update_noteq hj]
        · have := hfirst j hj
          simpa [hjc] using this

/-- C3. On well-formed free lists `kalloc` on core `c` is the reference
definition `kalloc_ref`: it returns the head of the list of `c` and removes
it if that list is non-empty; otherwise the head of the list of the
lowest-indexed core `i != c` whose list is non-empty, removing it there;
otherwise, every list being empty, it returns 0. The lists after the call are
well-formed again; exactly one list has lost exactly its head (none on
failure) and all other lists are as before. -/
theorem C3_kalloc_matches_reference (cfg : Config) (c : Nat) (s : Kmem) (L : Nat → List Nat)
    (hL : Lists cfg s L) (hc : c < cfg.ncpu) :
    (kalloc cfg c s).1 = (kalloc_ref cfg c L).1 ∧
    Lists cfg (kalloc cfg c s).2 (kalloc_ref cfg c L).2 ∧
    (((kalloc cfg c s).1 = 0 ∧ (kalloc_ref cfg c L).2 = L ∧ ∀ i, i < cfg.ncpu → L i = []) ∨
      ∃ i, i < cfg.ncpu ∧ (kalloc cfg c s).1 ≠ 0 ∧
        L i = (kalloc cfg c s).1 :: (kalloc_ref cfg c L).2 i ∧
        (∀ j, j ≠ i → (kalloc_ref cfg c L).2 j = L j) ∧
        (i = c ∨ (L c = [] ∧ ∀ j, j < i → j ≠ c → L j = []))) :=
  kalloc_spec cfg c s L hL hc

/-- C3 in Scenario C: the list of core 1 is empty and core 0 holds 3 pages;
`kalloc` on core 1 returns page 28672, the head of the list of core 0, which
is left with 2 pages. -/
theorem C3_kalloc_matches_reference_witness :
    Lists demoCfg scenarioC scenarioC_lists ∧ 1 < demoCfg.ncpu ∧
    (kalloc demoCfg 1 scenarioC).1 = 28672 ∧
    Chain (kalloc demoCfg 1 scenarioC).2.next ((kalloc demoCfg 1 scenarioC).2.freelist 0)
      [20480, 12288] ∧
    ((kalloc demoCfg 1 scenarioC).1 = (kalloc_ref demoCfg 1 scenarioC_lists).1 ∧
    Lists demoCfg (kalloc demoCfg 1 scenarioC).2 (kalloc_ref demoCfg 1 scenarioC_lists).2 ∧
    (((kalloc demoCfg 1 scenarioC).1 = 0 ∧
        (kalloc_ref demoCfg 1 scenarioC_lists).2 = scenarioC_lists ∧
        ∀ i, i < demoCfg.ncpu → scenarioC_lists i = []) ∨
      ∃ i, i < demoCfg.ncpu ∧ (kalloc demoCfg 1 scenarioC).1 ≠ 0 ∧
        scenarioC_lists i
          = (kalloc demoCfg 1 scenarioC).1 :: (kalloc_ref demoCfg 1 scenarioC_lists).2 i ∧
        (∀ j, j ≠ i → (kalloc_ref demoCfg 1 scenarioC_lists).2 j = scenarioC_lists j) ∧
        (i = 1 ∨ (scenarioC_lists 1 = [] ∧ ∀ j, j < i → j ≠ 1 → scenarioC_lists j = [])))) :=
  have hL : Lists demoCfg scenarioC scenarioC_lists := lists_of_nodup (by decide) (by decide)
  ⟨hL, by decide, by decide, by decide,
    C3_kalloc_matches_reference demoCfg 1 scenarioC scenarioC_lists hL (by decide)⟩

theorem total_update (cfg : Config) (L : Nat → List Nat) (i : Nat) (l : List Nat)
    (hi : i < cfg.ncpu) :
    total cfg (Function.update L i l) + (L i).length = total cfg L + l.length := by
  unfold total
  rw [← Finset.add_sum_erase _ _ (Finset.mem_range.mpr hi),
    ← Finset.add_sum_erase (Finset.range cfg.ncpu) (fun j => (L j).length)
      (Finset.mem_range.mpr hi)]
  have e : ∑ j in (Finset.range cfg.ncpu).erase i, (Function.update L i l j).length
      = ∑ j in (Finset.range cfg.ncpu).erase i, (L j).length := by
    apply Finset.sum_congr rfl
    intro j hj
    rw [Function.update_noteq (Finset.ne_of_mem_erase hj)]
  rw [e, Function.update_same]
  omega

theorem kalloc_steal_phase (s : Kmem) (cpu : Nat) (is : List Nat) :
    (kalloc_steal s cpu is).2.kmem_init_phase = s.kmem_init_phase := by
  induction is with
  | nil => rfl
  | cons j js ih =>
    unfold kalloc_steal
    split_ifs
    · exact ih
    · rfl
    · exact ih

theorem kalloc_phase (cfg : Config) (cpu : Nat) (s : Kmem) :
    (kalloc cfg cpu s).2.kmem_init_phase = s.kmem_init_phase := by
  by_cases h : s.freelist cpu = 0
  · rw [kalloc_remote h]
    split_ifs
    · exact kalloc_steal_phase s cpu _
    · exact kalloc_steal_phase s cpu _
  · rw [kalloc_local h]

theorem kfree_valid {cfg : Config} {cpu pa : Nat} {s s' : Kmem}
    (h : kfree cfg cpu pa s = some s') :
    ¬ (pa % PGSIZE ≠ 0 ∨ pa < cfg.kend ∨ pa ≥ cfg.phystop) := by
  intro hv
  unfold kfree at h
  rw [if_pos hv] at h
  cases h

/-- One call keeps the pages conserved. -/
theorem kexec_conserved {cfg : Config} {R : Nat} {s : Kmem} {A : List Nat} {c : KCall}
    {s' : Kmem} {A' : List Nat} (he : 0 < cfg.kend) (hc : Conserved cfg R s A)
    (hp : s.kmem_init_phase = 0) (hx : kexec cfg c (s, A) = some (s', A')) :
    Conserved cfg R s' A' ∧ s'.kmem_init_phase = 0 := by
  obtain ⟨L, hL, htot, hnd, hdis⟩ := hc
  cases c with
  | kalloc cpu =>
    simp only [kexec] at hx
    by_cases hcpu : cpu < cfg.ncpu
    · rw [if_pos hcpu] at hx
      simp only [Option.some.injEq, Prod.mk.injEq] at hx
      obtain ⟨rfl, rfl⟩ := hx
      obtain ⟨h1, h2, h3⟩ := kalloc_spec cfg cpu s L hL hcpu
      refine ⟨?_, (kalloc_phase cfg cpu s).trans hp⟩
      rcases h3 with ⟨hz, href, -⟩ | ⟨i, hi, hnz, hLi, hother, -⟩
      · rw [href] at h2
        rw [if_neg (by simpa using hz)]
        exact ⟨L, h2, htot, hnd, hdis⟩
      · rw [if_pos hnz]
        obtain ⟨hf1, hf2⟩ := lists_head_fresh hL hi hLi
        refine ⟨_, h2, ?_, ?_, ?_⟩
        · have e : (kalloc_ref cfg cpu L).2
              = Function.update L i ((kalloc_ref cfg cpu L).2 i) := by
            funext j
            by_cases hj : j = i
            · subst hj; rw [Function.update_same]
            · rw [Function.update_noteq hj, hother j hj]
          have ht := total_update cfg L i ((kalloc_ref cfg cpu L).2 i) hi
          rw [← e, hLi] at ht
          simp only [List.length_cons] at ht ⊢
          omega
        · refine List.nodup_cons.mpr ⟨fun hmem => ?_, hnd⟩
          exact hdis _ hmem i hi (by rw [hLi]; exact List.mem_cons_self _ _)
        · intro a ha j hj
          by_cases hji : j = i
          · subst hji
            rcases List.mem_cons.mp ha with rfl | ha
            · exact hf1
            · intro hm
              exact hdis a ha j hj (by rw [hLi]; exact List.mem_cons_of_mem _ hm)
          · rw [hother j hji]
            rcases List.mem_cons.mp ha with rfl | ha
            · exact hf2 j hj hji
            · exact hdis a ha j hj
    · rw [if_neg hcpu] at hx
      cases hx
  | kfree cpu pa =>
    simp only [kexec] at hx
    by_cases hg : cpu < cfg.ncpu ∧ pa ∈ A
    swap
    · rw [if_neg hg] at hx
      cases hx
    rw [if_pos hg] at hx
    obtain ⟨hcpu, hmem⟩ := hg
    cases hk : kfree cfg cpu pa s with
    | none => rw [hk] at hx; cases hx
    | some t =>
      rw [hk] at hx
      simp only [Option.some.injEq, Prod.mk.injEq] at hx
      obtain ⟨rfl, rfl⟩ := hx
      have hv := kfree_valid hk
      have hpa : pa ≠ 0 := by
        simp only [not_or, not_lt] at hv
        omega
      obtain ⟨t', ht', -, -, -, -, hph, -⟩ := kfree_some cfg cpu s hv
      rw [hk] at ht'
      cases ht'
      have hfree : ∀ i, i < cfg.ncpu → pa ∉ L i := fun i hi => hdis pa hmem i hi
      have htarget : (if s.kmem_init_phase ≠ 0 then s.init_cpu else cpu) = cpu := by
        rw [if_neg (by simpa using hp)]
      have hl := kfree_lists hL hpa hfree (by rw [htarget]; exact hcpu) hk
      rw [htarget] at hl
      refine ⟨⟨_, hl, ?_, hnd.erase pa, ?_⟩, hph.trans hp⟩
      · have ht := total_update cfg L cpu (pa :: L cpu) hcpu
        have hlen := List.length_erase_of_mem hmem
        have hpos : 0 < A.length := List.length_pos_of_mem hmem
        simp only [List.length_cons] at ht
        omega
      · intro a ha j hj
        have haA : a ∈ A := List.mem_of_mem_erase ha
        have hne : a ≠ pa := fun h => by
          subst h
          exact (List.Nodup.not_mem_erase hnd) ha
        by_cases hjc : j = cpu
        · subst hjc
          rw [Function.update_same]
          simp only [List.mem_cons, not_or]
          exact ⟨hne, hdis a haA j hj⟩
        · rw [Function.update_noteq hjc]
          exact hdis a haA j hj

/-- The page boundary `PGROUNDUP` computes is a 64-bit address and a multiple
of the page size. -/
theorem PGROUNDUP_lt (a : Nat) : PGROUNDUP a < U64 ∧ PGROUNDUP a % PGSIZE = 0 := by
  unfold PGROUNDUP U64 PGSIZE
  omega

/-- A panic of `kfree` on an address below `end`. -/
theorem kfree_below {cfg : Config} {pa : Nat} (h : pa < cfg.kend) (cpu : Nat) (s : Kmem) :
    kfree cfg cpu pa s = none := by
  unfold kfree
  rw [if_pos (Or.inr (Or.inl h))]

/-- A loop of `freerange` that is at address 0 and returns has freed nothing
more: with `0 < end` its next call would be `kfree(0)`, which panics. -/
theorem freerange_loop_zero {cfg : Config} (he : 0 < cfg.kend) (pa_end fuel : Nat)
    {s s' : Kmem} (h : freerange_loop cfg pa_end fuel 0 s = some s') :
    s' = s ∧ pa_end < PGSIZE := by
  have h0 : (0 + PGSIZE) % U64 = PGSIZE := by decide
  cases fuel with
  | zero =>
    rw [freerange_loop] at h
    rw [h0] at h
    split_ifs at h with hc
    simp only [Option.some.injEq] at h
    exact ⟨h.symm, by omega⟩
  | succ fuel =>
    rw [freerange_loop] at h
    rw [h0, kfree_below he] at h
    split_ifs at h with hc
    simp only [Option.some.injEq] at h
    exact ⟨h.symm, by omega⟩

/-- The loop of `freerange` during `kinit` keeps the free lists well-formed:
each page freed is above all pages freed before, up to the last page below
`2^64`, after which the loop is at address 0 and frees nothing more. -/
theorem freerange_loop_lists {cfg : Config} (hn : 0 < cfg.ncpu) (he : 0 < cfg.kend)
    (pa_end : Nat) (fuel : Nat) :
    ∀ (p : Nat) (s : Kmem) (L : Nat → List Nat), Lists cfg s L → s.kmem_init_phase ≠ 0 →
      s.init_cpu < cfg.ncpu → p < U64 → (∀ i, i < cfg.ncpu → ∀ a ∈ L i, a < p) →
      ∀ s', freerange_loop cfg pa_end fuel p s = some s' →
        ∃ L', Lists cfg s' L' ∧ s'.kmem_init_phase = s.kmem_init_phase := by
  induction fuel with
  | zero =>
    intro p s L hL _ _ _ _ s' h
    rw [freerange_loop] at h
    split_ifs at h
    simp only [Option.some.injEq] at h
    subst h
    exact ⟨L, hL, rfl⟩
  | succ fuel ih =>
    intro p s L hL hph hcpu hp64 hbound s' h
    rw [freerange_loop] at h
    by_cases hcond : (p + PGSIZE) % U64 ≤ pa_end
    · rw [if_pos hcond] at h
      cases hk : kfree cfg 0 p s with
      | none => rw [hk] at h; cases h
      | some s1 =>
        rw [hk] at h
        simp only at h
        have hv := kfree_valid hk
        have hpa : p ≠ 0 := by
          simp only [not_or, not_lt] at hv
          omega
        obtain ⟨t, ht, -, -, -, -, hph1, hic⟩ := kfree_some cfg 0 s hv
        rw [hk] at ht
        cases ht
        have htarget : (if s.kmem_init_phase ≠ 0 then s.init_cpu else 0) = s.init_cpu := by
          rw [if_pos hph]
        have hfree : ∀ i, i < cfg.ncpu → p ∉ L i := fun i hi hm =>
          absurd (hbound i hi p hm) (lt_irrefl p)
        have hl := kfree_lists hL hpa hfree (by rw [htarget]; exact hcpu) hk
        rw [htarget] at hl
        by_cases hw : p + PGSIZE < U64
        · rw [Nat.mod_eq_of_lt hw] at h
          have hcpu1 : s1.init_cpu < cfg.ncpu := by
            rw [hic, if_pos hph]
            exact Nat.mod_lt _ hn
          have hbound1 : ∀ i, i < cfg.ncpu →
              ∀ a ∈ Function.update L s.init_cpu (p :: L s.init_cpu) i, a < p + PGSIZE := by
            intro i hi a ha
            have hpg : 0 < PGSIZE := by decide
            by_cases hic' : i = s.init_cpu
            · subst hic'
              rw [Function.update_same] at ha
              rcases List.mem_cons.mp ha with rfl | ha
              · omega
              · have := hbound _ hi a ha
                omega
            · rw [Function.update_noteq hic'] at ha
              have := hbound i hi a ha
              omega
          obtain ⟨L', hL', hph'⟩ := ih (p + PGSIZE) s1 _ hl (by rw [hph1]; exact hph) hcpu1
            hw hbound1 s' h
          exact ⟨L', hL', hph'.trans hph1⟩
        · have hz : (p + PGSIZE) % U64 = 0 := by
            simp only [not_or, not_lt, ne_eq, not_not] at hv
            have h1 := hv.1
            unfold PGSIZE at h1 ⊢
            unfold U64 at hp64 hw ⊢
            unfold PGSIZE at hw
            omega
          rw [hz] at h
          obtain ⟨rfl, -⟩ := freerange_loop_zero he pa_end fuel h
          exact ⟨_, hl, hph1⟩
    · rw [if_neg hcond] at h
      simp only [Option.some.injEq] at h
      subst h
      exact ⟨L, hL, rfl⟩

/-- After `kinit` the free lists are well-formed and the bootstrap phase is closed. -/
theorem kinit_lists {cfg : Config} {mem : Nat → Nat} {s0 : Kmem} (hn : 0 < cfg.ncpu)
    (he : 0 < cfg.kend) (hk : kinit cfg mem = some s0) :
    (∃ L0, Lists cfg s0 L0) ∧ s0.kmem_init_phase = 0 := by
  unfold kinit at hk
  cases hf : freerange cfg cfg.kend cfg.phystop
      { freelist := fun _ => 0, next := mem, kmem_init_phase := 1, init_cpu := 0 } with
  | none => rw [hf] at hk; cases hk
  | some s =>
    rw [hf] at hk
    simp only [Option.some.injEq] at hk
    subst hk
    unfold freerange at hf
    have h0 : Lists cfg
        { freelist := fun _ => 0, next := mem, kmem_init_phase := 1, init_cpu := 0 }
        (fun _ => []) := by
      refine ⟨fun i _ => ?_, fun a => ?_⟩
      · simp [Chain]
      · simp [occ]
    obtain ⟨L, hL, -⟩ := freerange_loop_lists hn he cfg.phystop _ _ _ _ h0 (by simp) hn
      (PGROUNDUP_lt cfg.kend).1 (by simp) s hf
    exact ⟨⟨L, hL.1, hL.2⟩, rfl⟩

theorem kreach_conserved {cfg : Config} {s0 : Kmem} {L0 : Nat → List Nat} (he : 0 < cfg.kend)
    (hL0 : Lists cfg s0 L0) (hp0 : s0.kmem_init_phase = 0) {s : Kmem} {A : List Nat}
    (hr : KReach cfg s0 s A) :
    Conserved cfg (total cfg L0) s A ∧ s.kmem_init_phase = 0 := by
  induction hr with
  | init => exact ⟨⟨L0, hL0, rfl, List.nodup_nil, fun a ha => by cases ha⟩, hp0⟩
  | step s A c s' A' _ hx ih => exact kexec_conserved he ih.1 ih.2 hx

theorem krun_reach {cfg : Config} {s0 : Kmem} {s : Kmem} {A : List Nat}
    (hr : KReach cfg s0 s A) (cs : List KCall) {t : Kmem × List Nat}
    (h : krun cfg (s, A) cs = some t) : KReach cfg s0 t.1 t.2 := by
  induction cs generalizing s A with
  | nil =>
    simp only [krun, Option.some.injEq] at h
    subst h
    exact hr
  | cons c cs ih =>
    simp only [krun] at h
    cases hc : kexec cfg c (s, A) with
    | none => rw [hc] at h; cases h
    | some u =>
      rw [hc] at h
      exact ih (KReach.step s A c u.1 u.2 hr hc) h

theorem kafter_reach (cfg : Config) (cs : List KCall)
    (h : (krun cfg (booted cfg, []) cs).isSome = true) :
    KReach cfg (booted cfg) (kafter cfg cs).1 (kafter cfg cs).2 := by
  cases hr : krun cfg (booted cfg, []) cs with
  | none => rw [hr] at h; cases h
  | some t =>
    have : kafter cfg cs = t := by unfold kafter; rw [hr]; rfl
    rw [this]
    exact krun_reach KReach.init cs hr

/-- C4. Page conservation: let `kinit` leave `R` pages on the free lists
(`R` is the total length of the lists `L0` right after `kinit`). After every
sequence of `kalloc` calls and of `kfree` calls on pages currently allocated,
issued one at a time from any cores, the free lists are well-formed lists `L`
(so no page is on two free lists or twice on one), the sum of their lengths
plus the number of pages currently allocated is `R`, no allocated page is
counted twice, and no allocated page is on a free list. -/
theorem C4_page_conservation (cfg : Config) (mem : Nat → Nat) (s0 : Kmem)
    (hn : 0 < cfg.ncpu) (he : 0 < cfg.kend) (hk : kinit cfg mem = some s0)
    (s : Kmem) (A : List Nat) (hr : KReach cfg s0 s A) :
    ∃ L0 L, Lists cfg s0 L0 ∧ Lists cfg s L ∧
      (∑ i in Finset.range cfg.ncpu, (L i).length) + A.length
        = ∑ i in Finset.range cfg.ncpu, (L0 i).length ∧
      (∀ a, ∑ i in Finset.range cfg.ncpu, (L i).count a ≤ 1) ∧
      A.Nodup ∧ ∀ a ∈ A, ∀ i, i < cfg.ncpu → a ∉ L i := by
  obtain ⟨⟨L0, hL0⟩, hp0⟩ := kinit_lists hn he hk
  obtain ⟨⟨L, hL, htot, hnd, hdis⟩, -⟩ := kreach_conserved he hL0 hp0 hr
  exact ⟨L0, L, hL0, hL, htot, hL.2, hnd, hdis⟩

/-- C4 on the demo machine (5 managed pages), after three `kalloc` on core 1
(the third one steals from core 0), `kfree` of page 28672 on core 0 and
`kfree` of page 24576 on core 1. -/
theorem C4_page_conservation_witness :
    0 < demoCfg.ncpu ∧ 0 < demoCfg.kend ∧
    kinit demoCfg (fun _ => 0) = some (booted demoCfg) ∧
    KReach demoCfg (booted demoCfg)
      (kafter demoCfg [KCall.kalloc 1, KCall.kalloc 1, KCall.kalloc 1, KCall.kfree 0 28672,
        KCall.kfree 1 24576]).1
      (kafter demoCfg [KCall.kalloc 1, KCall.kalloc 1, KCall.kalloc 1, KCall.kfree 0 28672,
        KCall.kfree 1 24576]).2 ∧
    ∃ L0 L, Lists demoCfg (booted demoCfg) L0 ∧
      Lists demoCfg
        (kafter demoCfg [KCall.kalloc 1, KCall.kalloc 1, KCall.kalloc 1, KCall.kfree 0 28672,
          KCall.kfree 1 24576]).1 L ∧
      (∑ i in Finset.range demoCfg.ncpu, (L i).length) +
          (kafter demoCfg [KCall.kalloc 1, KCall.kalloc 1, KCall.kalloc 1,
            KCall.kfree 0 28672, KCall.kfree 1 24576]).2.length
        = ∑ i in Finset.range demoCfg.ncpu, (L0 i).length ∧
      (∀ a, ∑ i in Finset.range demoCfg.ncpu, (L i).count a ≤ 1) ∧
      (kafter demoCfg [KCall.kalloc 1, KCall.kalloc 1, KCall.kalloc 1, KCall.kfree 0 28672,
        KCall.kfree 1 24576]).2.Nodup ∧
      ∀ a ∈ (kafter demoCfg [KCall.kalloc 1, KCall.kalloc 1, KCall.kalloc 1,
          KCall.kfree 0 28672, KCall.kfree 1 24576]).2,
        ∀ i, i < demoCfg.ncpu → a ∉ L i :=
  ⟨by decide, by decide, rfl, kafter_reach demoCfg _ (by decide),
    C4_page_conservation demoCfg (fun _ => 0) (booted demoCfg) (by decide) (by decide) rfl _ _
      (kafter_reach demoCfg _ (by decide))⟩

/-- A panic of `kfree` on an address at or above `PHYSTOP`. -/
theorem kfree_above {cfg : Config} {pa : Nat} (h : cfg.phystop ≤ pa) (cpu : Nat) (s : Kmem) :
    kfree cfg cpu pa s = none := by
  unfold kfree
  rw [if_pos (Or.inr (Or.inr h))]

/-- At address 0 the loop of `freerange` ends at once or panics in `kfree(0)`,
whatever the fuel. -/
theorem freerange_loop_zero_eq {cfg : Config} (he : 0 < cfg.kend) (pa_end fuel : Nat)
    (s : Kmem) :
    freerange_loop cfg pa_end fuel 0 s = if PGSIZE ≤ pa_end then none else some s := by
  have h0 : (0 + PGSIZE) % U64 = PGSIZE := by decide
  cases fuel with
  | zero => rw [freerange_loop, h0]
  | succ fuel =>
    rw [freerange_loop, h0, kfree_below he]

theorem freerange_loop_succ {cfg : Config} (he : 0 < cfg.kend) (fuel : Nat) :
    ∀ (p : Nat) (s : Kmem), p % PGSIZE = 0 → p < U64 →
      (p = 0 ∨ cfg.phystop < p + PGSIZE * fuel) →
      freerange_loop cfg cfg.phystop (fuel + 1) p s
        = freerange_loop cfg cfg.phystop fuel p s := by
  induction fuel with
  | zero =>
    intro p s _ _ h
    rcases h with rfl | h
    · rw [freerange_loop_zero_eq he, freerange_loop_zero_eq he]
    · conv_lhs => rw [freerange_loop]
      conv_rhs => rw [freerange_loop]
      rw [kfree_above (show cfg.phystop ≤ p by omega)]
  | succ fuel ih =>
    intro p s hal hp h
    rcases h with rfl | h
    · rw [freerange_loop_zero_eq he, freerange_loop_zero_eq he]
    · conv_lhs => rw [freerange_loop]
      conv_rhs => rw [freerange_loop]
      by_cases hc : (p + PGSIZE) % U64 ≤ cfg.phystop
      · rw [if_pos hc, if_pos hc]
        cases hk : kfree cfg 0 p s with
        | none => rfl
        | some s1 =>
          simp only
          by_cases hw : p + PGSIZE < U64
          · rw [Nat.mod_eq_of_lt hw]
            refine ih (p + PGSIZE) s1 ?_ hw (Or.inr ?_)
            · unfold PGSIZE at hal ⊢
              omega
            · unfold PGSIZE at h ⊢
              omega
          · have hz : (p + PGSIZE) % U64 = 0 := by
              unfold PGSIZE at hal hw ⊢
              unfold U64 at hp hw ⊢
              omega
            rw [hz]
            exact ih 0 s1 (by decide) (by decide) (Or.inl rfl)
      · rw [if_neg hc, if_neg hc]

/-- The fuel given to the loop of `freerange(end, PHYSTOP)` is enough: with
`0 < end`, more fuel gives the same result. -/
theorem freerange_fuel {cfg : Config} (he : 0 < cfg.kend) (a : Nat) (s : Kmem) (k : Nat) :
    freerange_loop cfg cfg.phystop (cfg.phystop / PGSIZE + k) (PGROUNDUP a) s
      = freerange cfg a cfg.phystop s := by
  induction k with
  | zero => rfl
  | succ k ih =>
    rw [← ih, ← Nat.add_assoc]
    obtain ⟨h1, h2⟩ := PGROUNDUP_lt a
    apply freerange_loop_succ he _ _ _ h2 h1
    by_cases h0 : PGROUNDUP a = 0
    · exact Or.inl h0
    · right
      unfold PGSIZE at h2 ⊢
      omega

theorem chain_cons_of_ne_zero {next : Nat → Nat} {p : Nat} {l : List Nat} (hp : p ≠ 0)
    (h : Chain next p l) : ∃ l0, l = p :: l0 ∧ Chain next (next p) l0 := by
  cases l with
  | nil => exact absurd h hp
  | cons a l0 =>
    simp only [Chain] at h
    obtain ⟨rfl, -, h3⟩ := h
    exact ⟨l0, rfl, h3⟩

/-- A page reached from `p` before the change of its own `next` field is
still reached from `p` after it. -/
theorem chain_still_mem {next next' : Nat → Nat} {pa : Nat}
    (hagree : ∀ a, a ≠ pa → next' a = next a) {l : List Nat} :
    ∀ {p : Nat} {l' : List Nat}, Chain next p l → pa ∈ l → Chain next' p l' → pa ∈ l' := by
  induction l with
  | nil => intro p l' _ hm _; cases hm
  | cons a l0 ih =>
    intro p l' h hm h'
    simp only [Chain] at h
    obtain ⟨rfl, ha, h3⟩ := h
    obtain ⟨l0', rfl, h3'⟩ := chain_cons_of_ne_zero ha h'
    by_cases hap : p = pa
    · rw [hap]; exact List.mem_cons_self _ _
    · rcases List.mem_cons.mp hm with hm | hm
      · exact absurd hm.symm hap
      · rw [hagree p hap] at h3'
        exact List.mem_cons_of_mem _ (ih h3 hm h3')

theorem occ_ge_two_of_mem_two {cfg : Config} {L : Nat → List Nat} {a i j : Nat}
    (hi : i < cfg.ncpu) (hj : j < cfg.ncpu) (hij : i ≠ j) (hai : a ∈ L i) (haj : a ∈ L j) :
    2 ≤ occ cfg L a := by
  unfold occ
  rw [← Finset.add_sum_erase _ _ (Finset.mem_range.mpr hi)]
  have h1 : 1 ≤ (L i).count a := List.count_pos_iff.mpr hai
  have h2 : 1 ≤ (L j).count a := List.count_pos_iff.mpr haj
  have h3 : (L j).count a ≤ ∑ x in (Finset.range cfg.ncpu).erase i, (L x).count a :=
    Finset.single_le_sum (f := fun x => (L x).count a) (fun _ _ => Nat.zero_le _)
      (Finset.mem_erase.mpr ⟨fun h => hij h.symm, Finset.mem_range.mpr hj⟩)
  omega

theorem occ_ge_count (cfg : Config) (L : Nat → List Nat) (a : Nat) {i : Nat}
    (hi : i < cfg.ncpu) :
    (L i).count a ≤ occ cfg L a := by
  unfold occ
  exact Finset.single_le_sum (f := fun x => (L x).count a) (fun _ _ => Nat.zero_le _)
    (Finset.mem_range.mpr hi)

/-- After `kfree` of a page that is on a free list, the free lists are no
longer well-formed: the page is on two lists or twice on one. -/
theorem kfree_twice_corrupts {cfg : Config} {cpu pa : Nat} {s s' : Kmem} {L : Nat → List Nat}
    {i : Nat} (hL : Lists cfg s L) (hi : i < cfg.ncpu) (hmem : pa ∈ L i)
    (hc : (if s.kmem_init_phase ≠ 0 then s.init_cpu else cpu) < cfg.ncpu)
    (hk : kfree cfg cpu pa s = some s') : ¬ ∃ L', Lists cfg s' L' := by
  rintro ⟨L', hL'⟩
  obtain ⟨t, ht, h1, h2, h3, h4, -, -⟩ := kfree_some cfg cpu s (kfree_valid hk)
  rw [hk] at ht
  cases ht
  generalize (if s.kmem_init_phase ≠ 0 then s.init_cpu else cpu) = c at *
  have hpa : pa ≠ 0 := fun h0 => chain_zero_not_mem (hL.1 i hi) (h0 ▸ hmem)
  have hcc := hL'.1 c hc
  rw [h1] at hcc
  obtain ⟨rest, hLc, hrest⟩ := chain_cons_of_ne_zero hpa hcc
  rw [h2] at hrest
  by_cases hic : i = c
  · subst hic
    have hin : pa ∈ rest := chain_still_mem h4 (hL.1 i hi) hmem hrest
    have hcount : 2 ≤ (L' i).count pa := by
      rw [hLc, List.count_cons_self]
      have := List.count_pos_iff.mpr hin
      omega
    have := hL'.2 pa
    have := occ_ge_count cfg L' pa hi
    omega
  · have hci := hL'.1 i hi
    rw [h3 i hic] at hci
    have hin : pa ∈ L' i := chain_still_mem h4 (hL.1 i hi) hmem hci
    have hinc : pa ∈ L' c := by rw [hLc]; exact List.mem_cons_self _ _
    have := occ_ge_two_of_mem_two hi hc hic hin hinc
    have := hL'.2 pa
    omega

/-- C9 (amended). The function `kfree` has no double-free check: for every
allocator state with well-formed free lists and every page-aligned `pa` in
`[end, PHYSTOP)` that is already on some core's free list, `kfree(pa)` does
not panic; it links `pa` a second time, the head of the target core's list
becoming `pa` and the `next` field of `pa` the former head, after which the
free lists are no longer well-formed (`pa` is on two lists or twice on one).
It panics only for an unaligned or out-of-range address. -/
theorem C9_double_free_is_linked_again (cfg : Config) (cpu pa : Nat) (s : Kmem)
    (L : Nat → List Nat) (i : Nat) (hL : Lists cfg s L) (hi : i < cfg.ncpu)
    (hmem : pa ∈ L i)
    (hc : (if s.kmem_init_phase ≠ 0 then s.init_cpu else cpu) < cfg.ncpu)
    (hv : pa % PGSIZE = 0 ∧ cfg.kend ≤ pa ∧ pa < cfg.phystop) :
    ∃ s', kfree cfg cpu pa s = some s' ∧
      s'.freelist (if s.kmem_init_phase ≠ 0 then s.init_cpu else cpu) = pa ∧
      s'.next pa = s.freelist (if s.kmem_init_phase ≠ 0 then s.init_cpu else cpu) ∧
      ¬ ∃ L', Lists cfg s' L' := by
  have hv' : ¬ (pa % PGSIZE ≠ 0 ∨ pa < cfg.kend ∨ pa ≥ cfg.phystop) := by
    simp only [not_or, not_lt, ne_eq, not_not, ge_iff_le, not_le]
    exact hv
  obtain ⟨t, ht, h1, h2, _⟩ := kfree_some cfg cpu s hv'
  exact ⟨t, ht, h1, h2, kfree_twice_corrupts hL hi hmem hc ht⟩

/-- C9 after `kinit` on the demo machine: page 28672 is the head of the free
list of core 0 and is freed again from core 0. -/
theorem C9_double_free_is_linked_again_witness :
    Lists demoCfg (booted demoCfg)
      (fun i => if i = 0 then [28672, 20480, 12288] else [24576, 16384]) ∧
    ∃ s', kfree demoCfg 0 28672 (booted demoCfg) = some s' ∧
      s'.freelist (if (booted demoCfg).kmem_init_phase ≠ 0 then (booted demoCfg).init_cpu
        else 0) = 28672 ∧
      s'.next 28672 = (booted demoCfg).freelist
        (if (booted demoCfg).kmem_init_phase ≠ 0 then (booted demoCfg).init_cpu else 0) ∧
      ¬ ∃ L', Lists demoCfg s' L' :=
  have hL : Lists demoCfg (booted demoCfg)
      (fun i => if i = 0 then [28672, 20480, 12288] else [24576, 16384]) :=
    lists_of_nodup (by decide) (by decide)
  ⟨hL, C9_double_free_is_linked_again demoCfg 0 28672 (booted demoCfg) _ 0 hL (by decide)
    (by decide) (by decide) (by decide)⟩

/-- C9 as stated fails: after `kinit` on the demo machine page 28672 is the
head of the free list of core 0; `kfree(28672)` on core 0 does not panic, and
leaves a list whose head 28672 points to itself. -/
theorem C9_counterexample :
    Chain (booted demoCfg).next ((booted demoCfg).freelist 0) [28672, 20480, 12288] ∧
    (kfree demoCfg 0 28672 (booted demoCfg)).isSome = true ∧
    ((kfree demoCfg 0 28672 (booted demoCfg)).map (fun s => s.freelist 0)) = some 28672 ∧
    ((kfree demoCfg 0 28672 (booted demoCfg)).map (fun s => s.next 28672)) = some 28672 :=
  ⟨by decide, by decide, by decide, by decide⟩

end Kalloc

namespace Bio

theorem uint_dec {r : Nat} (h1 : 1 ≤ r) (h2 : r < UINT) : (r + UINT - 1) % UINT = r - 1 := by
  unfold UINT at *
  omega

/-- What a returning `bget` leaves: the chosen buffer was unlocked, is locked
by the caller, its `refcnt` is 1 or one more than before; the other buffers
are untouched; and the bucket lists are as before or the buffer was moved to
the head of a list. -/
theorem bget_shape {pid dev blockno : Nat} {s : Bcache} {b : Nat} {s' : Bcache}
    (h : bget pid dev blockno s = Result.ret b s') :
    (s.buf b).lock = none ∧ (s'.buf b).lock = some pid ∧
    ((s'.buf b).refcnt = 1 ∨ (s'.buf b).refcnt = ((s.buf b).refcnt + 1) % UINT) ∧
    (∀ x, x ≠ b → s'.buf x = s.buf x) ∧
    (s'.head = s.head ∨ ∃ h', s'.head = (insertHead (unlink s b) h' b).head) := by
  obtain ⟨s1, hs, hl, rfl⟩ := bget_ret h
  rcases bget_select_cases hs with ⟨_, rfl⟩ | ⟨_, _, rfl⟩ | ⟨_, _, _, rfl⟩
  · refine ⟨by simpa [setBuf] using hl, by simp [setBuf], Or.inr (by simp [setBuf]),
      fun x hx => by simp [setBuf, Function.update_noteq hx], Or.inl rfl⟩
  · refine ⟨by simpa [recycle, setBuf] using hl, by simp [setBuf],
      Or.inl (by simp [recycle, setBuf]),
      fun x hx => by simp [recycle, setBuf, Function.update_noteq hx], Or.inl rfl⟩
  · refine ⟨by simpa [insertHead, recycle, unlink, setBuf] using hl, by simp [setBuf],
      Or.inl (by simp [insertHead, recycle, setBuf]),
      fun x hx => by simp [insertHead, recycle, unlink, setBuf, Function.update_noteq hx],
      Or.inr ⟨_, rfl⟩⟩

/-- What `bget_select` does to the buffer it chooses and to the rest: the
sleeplock of the buffer is not touched, its `refcnt` is one more than before
(1 for a repurposed buffer, whose `refcnt` was 0); the other buffers are
untouched, the bucket lists are as before or the buffer was moved to the head
of a list, and nothing else changes. -/
theorem select_shape {dev blockno : Nat} {s : Bcache} {b : Nat} {s1 : Bcache}
    (h : bget_select dev blockno s = some (b, s1)) :
    (s1.buf b).lock = (s.buf b).lock ∧
    (s1.buf b).refcnt = ((s.buf b).refcnt + 1) % UINT ∧
    (∀ x, x ≠ b → s1.buf x = s.buf x) ∧
    (s1.head = s.head ∨ ∃ h', s1.head = (insertHead (unlink s b) h' b).head) ∧
    s1.waiting = s.waiting ∧ s1.nbuf = s.nbuf ∧ s1.disk = s.disk := by
  rcases bget_select_cases h with ⟨_, rfl⟩ | ⟨_, hv, rfl⟩ | ⟨_, _, ⟨i, hst⟩, rfl⟩
  · refine ⟨by simp [setBuf], by simp [setBuf],
      fun x hx => by simp [setBuf, Function.update_noteq hx], Or.inl rfl, rfl, rfl, rfl⟩
  · refine ⟨by simp [recycle, setBuf], ?_,
      fun x hx => by simp [recycle, setBuf, Function.update_noteq hx], Or.inl rfl, rfl, rfl,
      rfl⟩
    rw [victim_refcnt hv, uint_inc_zero]
    simp [recycle, setBuf]
  · refine ⟨by simp [insertHead, recycle, unlink, setBuf], ?_,
      fun x hx => by simp [insertHead, recycle, unlink, setBuf, Function.update_noteq hx],
      Or.inr ⟨_, rfl⟩, rfl, rfl, rfl⟩
    rw [victim_refcnt (steal_some hst).2.2, uint_inc_zero]
    simp [insertHead, recycle, setBuf]

theorem countP_erase_add (p : Waiter → Bool) (w : Waiter) (l : List Waiter) (hw : w ∈ l) :
    (l.erase w).countP p + (if p w = true then 1 else 0) = l.countP p := by
  induction l with
  | nil => cases hw
  | cons a l ih =>
    by_cases ha : a = w
    · subst ha
      rw [List.erase_cons_head, List.countP_cons]
    · rw [List.erase_cons_tail (by simpa using ha), List.countP_cons, List.countP_cons]
      have := ih (by
        rcases List.mem_cons.mp hw with h | h
        · exact absurd h.symm ha
        · exact h)
      omega

theorem waiters_suspend (w : Waiter) (s : Bcache) (x : Nat) :
    waiters (suspend w s) x = waiters s x + if w.b = x then 1 else 0 := by
  unfold waiters suspend
  rw [List.countP_cons]
  simp

theorem waiters_resume (w : Waiter) (s : Bcache) (hw : w ∈ s.waiting) (x : Nat) :
    waiters (resume w s) x + (if w.b = x then 1 else 0) = waiters s x := by
  unfold waiters
  rw [(resume_facts w s).2.2.1]
  have := countP_erase_add (fun v => v.b == x) w s.waiting hw
  simpa using this

theorem binit_waiting (nbuf : Nat) : (binit nbuf).waiting = [] := by
  have key : ∀ n, ((List.range n).foldl binit_buf (binit_empty nbuf)).waiting = [] := by
    intro n
    induction n with
    | zero => rfl
    | succ n ih =>
      rw [List.range_succ, List.foldl_append]
      exact ih
  exact key nbuf

theorem traceStep_released {nbuf : Nat} {g : Bcache → Call → Bool}
    {h : Bcache × Nat × (Nat → Nat)} (hr : Released nbuf g h.1 h.2.1 h.2.2) (c : Call) :
    Released nbuf g (traceStep g h c).1 (traceStep g h c).2.1 (traceStep g h c).2.2 := by
  unfold traceStep
  by_cases hg : g h.1 c = true
  · rw [if_pos hg]
    cases hx : exec c h.1 with
    | none => exact hr
    | some s' => exact Released.step h.1 h.2.1 h.2.2 c s' hr hg hx
  · rw [if_neg hg]
    exact hr

theorem foldl_released {nbuf : Nat} {g : Bcache → Call → Bool} (cs : List Call)
    (h : Bcache × Nat × (Nat → Nat)) (hr : Released nbuf g h.1 h.2.1 h.2.2) :
    Released nbuf g (cs.foldl (traceStep g) h).1 (cs.foldl (traceStep g) h).2.1
      (cs.foldl (traceStep g) h).2.2 := by
  induction cs generalizing h with
  | nil => exact hr
  | cons c cs ih =>
    simp only [List.foldl_cons]
    exact ih _ (traceStep_released hr c)

theorem trace_released (g : Bcache → Call → Bool) (nbuf : Nat) (cs : List Call) :
    Released nbuf g (trace g nbuf cs).1 (trace g nbuf cs).2.1 (trace g nbuf cs).2.2 :=
  foldl_released cs _ Released.init

theorem steal_prefix {s : Bcache} {h : Nat} {is : List Nat} {i b : Nat}
    (hs : steal s h is = some (i, b)) :
    ∃ pre post, is = pre ++ i :: post ∧ (∀ j ∈ pre, j = h ∨ victim s j = none) ∧
      i ≠ h ∧ victim s i = some b := by
  induction is with
  | nil => simp [steal] at hs
  | cons j js ih =>
    unfold steal at hs
    split_ifs at hs with hj
    · obtain ⟨pre, post, h1, h2, h3⟩ := ih hs
      refine ⟨j :: pre, post, by rw [h1]; rfl, fun k hk => ?_, h3⟩
      rcases List.mem_cons.mp hk with rfl | hk
      · exact Or.inl hj
      · exact h2 k hk
    · cases hv : victim s j with
      | none =>
        rw [hv] at hs
        obtain ⟨pre, post, h1, h2, h3⟩ := ih hs
        refine ⟨j :: pre, post, by rw [h1]; rfl, fun k hk => ?_, h3⟩
        rcases List.mem_cons.mp hk with rfl | hk
        · exact Or.inr hv
        · exact h2 k hk
      | some c =>
        rw [hv] at hs
        simp only [Option.some.injEq, Prod.mk.injEq] at hs
        obtain ⟨rfl, rfl⟩ := hs
        exact ⟨[], js, rfl, fun k hk => (by cases hk), hj, hv⟩

/-- The bucket the loop over the other buckets stops at is the lowest-indexed
bucket other than `h` with an unreferenced buffer. -/
theorem steal_first {s : Bcache} {h n i b : Nat}
    (hs : steal s h (List.range n) = some (i, b)) :
    i < n ∧ i ≠ h ∧ victim s i = some b ∧ ∀ j, j < i → j ≠ h → victim s j = none := by
  obtain ⟨pre, post, h1, h2, h3, h4⟩ := steal_prefix hs
  have hi : i ∈ List.range n := by rw [h1]; simp
  have hsorted := List.pairwise_lt_range n
  rw [h1] at hsorted
  obtain ⟨-, hpost, hcross⟩ := List.pairwise_append.mp hsorted
  refine ⟨List.mem_range.mp hi, h3, h4, fun j hj hjh => ?_⟩
  have hjm : j ∈ pre ++ i :: post := by
    rw [← h1]; exact List.mem_range.mpr (lt_trans hj (List.mem_range.mp hi))
  rcases List.mem_append.mp hjm with hp | hp
  · rcases h2 j hp with e | e
    · exact absurd e hjh
    · exact e
  · rcases List.mem_cons.mp hp with e | e
    · omega
    · have := (List.pairwise_cons.mp hpost).1 j e
      omega

/-- The buffer found by the walk from the tail of a bucket: it is
unreferenced and every buffer behind it is referenced. -/
theorem victim_split {s : Bcache} {i b : Nat} (hv : victim s i = some b) :
    ∃ pre post, s.head i = pre ++ b :: post ∧ (s.buf b).refcnt = 0 ∧
      ∀ x ∈ post, (s.buf x).refcnt ≠ 0 := by
  have hb0 := victim_refcnt hv
  unfold victim at hv
  obtain ⟨_, as, bs, hrev, has⟩ := List.find?_eq_some.mp hv
  refine ⟨bs.reverse, as.reverse, ?_, hb0, fun x hx => ?_⟩
  · have := congrArg List.reverse hrev
    simpa using this
  · have := has x (List.mem_reverse.mp hx)
    simpa using this

theorem filter_ne_self {l : List Nat} {b : Nat} (h : b ∉ l) :
    l.filter (fun x => x != b) = l := by
  rw [List.filter_eq_self]
  intro a ha
  have : a ≠ b := fun e => h (e ▸ ha)
  simpa using this

theorem filter_ne_split {pre post : List Nat} {b : Nat}
    (hc : (pre ++ b :: post).count b = 1) :
    (pre ++ b :: post).filter (fun x => x != b) = pre ++ post := by
  rw [List.count_append, List.count_cons_self] at hc
  have h1 : b ∉ pre := List.count_eq_zero.mp (by omega)
  have h2 : b ∉ post := List.count_eq_zero.mp (by omega)
  rw [List.filter_append, List.filter_cons, filter_ne_self h1, filter_ne_self h2]
  simp

/-- What `bget_select` does when it borrows from another bucket, on a
partitioned cache. -/
theorem bget_select_borrow {s : Bcache} (hp : Partition s) {dev blockno : Nat}
    (hmiss : lookup s (hash dev blockno) dev blockno = none)
    (hnone : victim s (hash dev blockno) = none) {i b : Nat}
    (hst : steal s (hash dev blockno) (List.range NBUCKETS) = some (i, b)) :
    ∃ pre post, s.head i = pre ++ b :: post ∧ (s.buf b).refcnt = 0 ∧
      (∀ x ∈ post, (s.buf x).refcnt ≠ 0) ∧
      ∃ s1, bget_select dev blockno s = some (b, s1) ∧
        s1.head i = pre ++ post ∧
        s1.head (hash dev blockno) = b :: s.head (hash dev blockno) ∧
        (∀ j, j < NBUCKETS → j ≠ i → j ≠ hash dev blockno → s1.head j = s.head j) ∧
        s1.buf b = (⟨dev, blockno, 0, 1, (s.buf b).lock⟩ : Buf) ∧
        (∀ x, x ≠ b → s1.buf x = s.buf x) ∧ s1.disk = s.disk := by
  obtain ⟨hi, hih, hv, -⟩ := steal_first hst
  obtain ⟨pre, post, hsplit, hb0, hpost⟩ := victim_split hv
  have hbn : b < s.nbuf := hp.mem_lt hi (victim_mem hv)
  obtain ⟨i', ⟨hi', hmem', hcount⟩, huniq⟩ := hp.unique hbn
  have hii : i = i' := huniq i hi (victim_mem hv)
  subst hii
  have hnot : ∀ j, j < NBUCKETS → j ≠ i → b ∉ s.head j := fun j hj hji hm =>
    hji (huniq j hj hm)
  refine ⟨pre, post, hsplit, hb0, hpost,
    insertHead (recycle (unlink s b) b dev blockno) (hash dev blockno) b, ?_, ?_, ?_, ?_, ?_,
    ?_, rfl⟩
  · unfold bget_select
    simp only [hmiss, hnone, hst]
  · simp only [insertHead, recycle, setBuf, unlink, Function.update_noteq hih]
    rw [hsplit] at hcount ⊢
    exact filter_ne_split hcount
  · simp only [insertHead, recycle, setBuf, unlink, Function.update_same]
    rw [filter_ne_self (hnot _ (hash_lt dev blockno) (Ne.symm hih))]
  · intro j hj hji hjh
    simp only [insertHead, recycle, setBuf, unlink, Function.update_noteq hjh]
    exact filter_ne_self (hnot j hj hji)
  · simp [insertHead, recycle, setBuf, unlink]
  · intro x hx
    simp [insertHead, recycle, setBuf, unlink, Function.update_noteq hx]


end Bio

namespace Kalloc

/-! ## Bootstrap: the pages freed by `kinit` -/

theorem freerange_loop_calls (cfg : Config) (pa_end : Nat) (hpe : pa_end + PGSIZE < U64)
    (fuel : Nat) :
    ∀ (p : Nat) (s : Kmem), p + PGSIZE < U64 → pa_end < p + PGSIZE * (fuel + 1) →
      freerange_loop cfg pa_end fuel p s
        = kfree_all cfg (freerange_calls pa_end fuel p) s := by
  induction fuel with
  | zero =>
    intro p s hw h
    have hc : ¬ (p + PGSIZE) % U64 ≤ pa_end := by
      rw [Nat.mod_eq_of_lt hw]
      omega
    simp only [freerange_loop, if_neg hc, freerange_calls, kfree_all]
  | succ fuel ih =>
    intro p s hw h
    rw [freerange_loop, freerange_calls, Nat.mod_eq_of_lt hw]
    by_cases hc : p + PGSIZE ≤ pa_end
    · rw [if_pos hc, if_pos hc, kfree_all]
      cases kfree cfg 0 p s with
      | none => rfl
      | some s' =>
        simp only
        exact ih (p + PGSIZE) s' (by omega) (by rw [Nat.mul_add] at h; omega)
    · rw [if_neg hc, if_neg hc, kfree_all]

theorem freerange_calls_eq (pa_end : Nat) (hpe : pa_end + PGSIZE < U64) (fuel : Nat) :
    ∀ p : Nat, p + PGSIZE < U64 → pa_end < p + PGSIZE * (fuel + 1) →
      freerange_calls pa_end fuel p
        = (List.range ((pa_end - p) / PGSIZE)).map (fun k => p + k * PGSIZE) := by
  induction fuel with
  | zero =>
    intro p _ h
    have h0 : (pa_end - p) / PGSIZE = 0 := by
      unfold PGSIZE at h ⊢
      omega
    rw [h0]
    rfl
  | succ fuel ih =>
    intro p hw h
    rw [freerange_calls, Nat.mod_eq_of_lt hw]
    by_cases hc : p + PGSIZE ≤ pa_end
    · rw [if_pos hc, ih (p + PGSIZE) (by omega) (by rw [Nat.mul_add] at h; omega)]
      have h1 : (pa_end - p) / PGSIZE = (pa_end - (p + PGSIZE)) / PGSIZE + 1 := by
        unfold PGSIZE at hc ⊢
        omega
      rw [h1, List.range_succ_eq_map, List.map_cons, List.map_map]
      refine congrArg₂ List.cons (by simp) (List.map_congr_left fun k _ => ?_)
      simp only [Function.comp, PGSIZE]
      omega
    · rw [if_neg hc]
      have h0 : (pa_end - p) / PGSIZE = 0 := by
        unfold PGSIZE at hc ⊢
        omega
      rw [h0]
      rfl

/-- Without a wrap-around, `PGROUNDUP` gives the first page boundary at or after an
address. -/
theorem PGROUNDUP_spec (a : Nat) (h : a + PGSIZE ≤ U64) :
    PGROUNDUP a % PGSIZE = 0 ∧ a ≤ PGROUNDUP a ∧ PGROUNDUP a < a + PGSIZE := by
  unfold PGROUNDUP
  unfold PGSIZE U64 at *
  omega

/-- With `end` two pages and `PHYSTOP` more than one page below `2^64`, the loop of
`freerange(end, PHYSTOP)` calls `kfree` on the pages at the positions `0`, …,
`R - 1` of the managed range, in this order, whatever fuel beyond
`PHYSTOP / PGSIZE` it is given. -/
theorem freerange_pages_fuel (cfg : Config) (hk : cfg.kend + 2 * PGSIZE ≤ U64)
    (hp : cfg.phystop + PGSIZE < U64) (k : Nat) :
    freerange_calls cfg.phystop (cfg.phystop / PGSIZE + k) (PGROUNDUP cfg.kend)
      = (List.range (managed cfg)).map (page cfg) := by
  have h2 := (PGROUNDUP_spec cfg.kend (by omega)).2.2
  rw [freerange_calls_eq _ hp _ _ (by omega)]
  · rfl
  · unfold PGSIZE
    omega

theorem freerange_pages (cfg : Config) (hk : cfg.kend + 2 * PGSIZE ≤ U64)
    (hp : cfg.phystop + PGSIZE < U64) :
    freerange_calls cfg.phystop (cfg.phystop / PGSIZE) (PGROUNDUP cfg.kend)
      = (List.range (managed cfg)).map (page cfg) :=
  freerange_pages_fuel cfg hk hp 0

theorem freerange_loop_kfree_all (cfg : Config) (hk : cfg.kend + 2 * PGSIZE ≤ U64)
    (hp : cfg.phystop + PGSIZE < U64) (s : Kmem) (k : Nat) :
    freerange_loop cfg cfg.phystop (cfg.phystop / PGSIZE + k) (PGROUNDUP cfg.kend) s
      = kfree_all cfg ((List.range (managed cfg)).map (page cfg)) s := by
  have h2 := (PGROUNDUP_spec cfg.kend (by omega)).2.2
  rw [← freerange_pages_fuel cfg hk hp k]
  apply freerange_loop_calls _ _ hp _ _ _ (by omega)
  unfold PGSIZE
  omega

theorem freerange_eq_kfree_all (cfg : Config) (hk : cfg.kend + 2 * PGSIZE ≤ U64)
    (hp : cfg.phystop + PGSIZE < U64) (s : Kmem) :
    freerange cfg cfg.kend cfg.phystop s
      = kfree_all cfg ((List.range (managed cfg)).map (page cfg)) s :=
  freerange_loop_kfree_all cfg hk hp s 0

theorem kfree_all_append (cfg : Config) (l1 l2 : List Nat) :
    ∀ s : Kmem, kfree_all cfg (l1 ++ l2) s = (kfree_all cfg l1 s).bind (kfree_all cfg l2) := by
  induction l1 with
  | nil => intro s; rfl
  | cons a l ih =>
    intro s
    rw [List.cons_append, kfree_all, kfree_all]
    cases kfree cfg 0 a s with
    | none => rfl
    | some s' => exact ih s'

theorem page_add_le_iff (cfg : Config) (k : Nat) :
    page cfg k + PGSIZE ≤ cfg.phystop ↔ k < managed cfg := by
  unfold page managed
  rw [Nat.lt_iff_add_one_le, Nat.le_div_iff_mul_le (by decide : 0 < PGSIZE)]
  unfold PGSIZE
  omega

theorem page_lt_page (cfg : Config) {j k : Nat} (h : j < k) : page cfg j < page cfg k := by
  unfold page
  have := Nat.mul_lt_mul_of_pos_right h (by decide : 0 < PGSIZE)
  omega

/-- Every page of the managed range passes the validation of `kfree`. -/
theorem page_valid (cfg : Config) (he : cfg.kend + PGSIZE ≤ U64) {k : Nat}
    (hk : k < managed cfg) :
    page cfg k % PGSIZE = 0 ∧ cfg.kend ≤ page cfg k ∧ page cfg k < cfg.phystop := by
  have h1 := (page_add_le_iff cfg k).mpr hk
  obtain ⟨h2, h3, -⟩ := PGROUNDUP_spec cfg.kend he
  refine ⟨?_, ?_, ?_⟩
  · unfold page
    rw [Nat.add_mul_mod_self_right]
    exact h2
  · unfold page
    omega
  · have : 0 < PGSIZE := by decide
    omega

theorem kfree_all_some (cfg : Config) (l : List Nat) :
    ∀ s : Kmem, (∀ a ∈ l, a % PGSIZE = 0 ∧ cfg.kend ≤ a ∧ a < cfg.phystop) →
      ∃ s', kfree_all cfg l s = some s' := by
  induction l with
  | nil => intro s _; exact ⟨s, rfl⟩
  | cons a l ih =>
    intro s h
    have ha := h a (List.mem_cons_self a l)
    obtain ⟨t, ht, -⟩ := kfree_some cfg 0 s
      (show ¬ (a % PGSIZE ≠ 0 ∨ a < cfg.kend ∨ a ≥ cfg.phystop) by omega)
    rw [kfree_all, ht]
    exact ih t (fun x hx => h x (List.mem_cons_of_mem a hx))

theorem dealt_succ (cfg : Config) (k : Nat) :
    dealt cfg (k + 1)
      = Function.update (dealt cfg k) (k % cfg.ncpu)
          (page cfg k :: dealt cfg k (k % cfg.ncpu)) := by
  funext i
  unfold dealt
  rw [List.range_succ, List.filter_append, List.map_append, List.reverse_append]
  by_cases hi : i = k % cfg.ncpu
  · subst hi
    rw [Function.update_same]
    simp
  · rw [Function.update_noteq hi]
    have : ¬ k % cfg.ncpu = i := fun h => hi h.symm
    simp [this]

theorem mem_dealt (cfg : Config) (k i a : Nat) :
    a ∈ dealt cfg k i ↔ ∃ j, j < k ∧ j % cfg.ncpu = i ∧ a = page cfg j := by
  unfold dealt
  simp only [List.mem_reverse, List.mem_map, List.mem_filter, List.mem_range,
    decide_eq_true_eq]
  constructor
  · rintro ⟨j, ⟨hj, hji⟩, rfl⟩
    exact ⟨j, hj, hji, rfl⟩
  · rintro ⟨j, hj, hji, rfl⟩
    exact ⟨j, ⟨hj, hji⟩, rfl⟩

/-- The state during `kinit` once the first `k` pages of the managed range
have been freed: core `i` holds the pages at the positions congruent to `i`. -/
theorem kfree_all_dealt {cfg : Config} (hn : 0 < cfg.ncpu) (he : 0 < cfg.kend)
    (mem : Nat → Nat) (k : Nat) :
    ∀ s, kfree_all cfg ((List.range k).map (page cfg))
          { freelist := fun _ => 0, next := mem, kmem_init_phase := 1, init_cpu := 0 }
        = some s →
      Lists cfg s (dealt cfg k) ∧ s.kmem_init_phase = 1 ∧ s.init_cpu = k % cfg.ncpu := by
  induction k with
  | zero =>
    intro s h
    simp only [List.range_zero, List.map_nil, kfree_all, Option.some.injEq] at h
    subst h
    refine ⟨⟨fun i _ => ?_, fun a => ?_⟩, rfl, ?_⟩
    · simp [dealt, Chain]
    · simp [occ, dealt]
    · simp
  | succ k ih =>
    intro t h
    rw [List.range_succ, List.map_append, kfree_all_append] at h
    cases hs : kfree_all cfg ((List.range k).map (page cfg))
        { freelist := fun _ => 0, next := mem, kmem_init_phase := 1, init_cpu := 0 } with
    | none => rw [hs] at h; cases h
    | some s =>
      rw [hs] at h
      simp only [Option.bind, List.map_cons, List.map_nil, kfree_all] at h
      obtain ⟨hL, hph, hic⟩ := ih s hs
      cases ht : kfree cfg 0 (page cfg k) s with
      | none => rw [ht] at h; cases h
      | some t1 =>
        rw [ht] at h
        simp only [Option.some.injEq] at h
        subst h
        have hv := kfree_valid ht
        obtain ⟨t2, ht2, -, -, -, -, hph1, hic1⟩ := kfree_some cfg 0 s hv
        rw [ht] at ht2
        cases ht2
        have hph0 : s.kmem_init_phase ≠ 0 := by rw [hph]; decide
        have htarget : (if s.kmem_init_phase ≠ 0 then s.init_cpu else 0) = k % cfg.ncpu := by
          rw [if_pos hph0, hic]
        have hfree : ∀ i, i < cfg.ncpu → page cfg k ∉ dealt cfg k i := by
          intro i _ hm
          obtain ⟨j, hj, -, hpj⟩ := (mem_dealt cfg k i _).mp hm
          have := page_lt_page cfg hj
          omega
        have hl := kfree_lists hL (by simp only [not_or, not_lt] at hv; omega) hfree
          (by rw [htarget]; exact Nat.mod_lt _ hn) ht
        rw [htarget] at hl
        refine ⟨?_, by rw [hph1, hph], ?_⟩
        · rw [dealt_succ]
          exact hl
        · rw [hic1, if_pos hph0, hic, Nat.mod_add_mod]

theorem dealt_length {cfg : Config} (hn : 0 < cfg.ncpu) (k : Nat) :
    ∃ q c, c < cfg.ncpu ∧ k = q * cfg.ncpu + c ∧
      ∀ i, i < cfg.ncpu → (dealt cfg k i).length = q + if i < c then 1 else 0 := by
  induction k with
  | zero =>
    refine ⟨0, 0, hn, by simp, fun i _ => ?_⟩
    simp [dealt]
  | succ k ih =>
    obtain ⟨q, c, hc, hk, hlen⟩ := ih
    have hmod : k % cfg.ncpu = c := by
      rw [hk, Nat.mul_add_mod_of_lt hc]
    have hstep : ∀ i, i < cfg.ncpu →
        (dealt cfg (k + 1) i).length = q + (if i < c then 1 else 0) + if i = c then 1 else 0 := by
      intro i hi
      rw [dealt_succ, hmod]
      by_cases hic : i = c
      · subst hic
        rw [Function.update_same, List.length_cons, hlen i hi]
        simp
      · rw [Function.update_noteq hic, hlen i hi]
        simp [hic]
    by_cases hlast : c + 1 < cfg.ncpu
    · refine ⟨q, c + 1, hlast, by omega, fun i hi => ?_⟩
      rw [hstep i hi]
      split_ifs <;> omega
    · have hN : cfg.ncpu = c + 1 := by omega
      refine ⟨q + 1, 0, hn, ?_, fun i hi => ?_⟩
      · rw [Nat.add_mul, one_mul]
        omega
      · rw [hstep i hi]
        split_ifs <;> omega

theorem dealt_total {cfg : Config} (hn : 0 < cfg.ncpu) (k : Nat) :
    total cfg (dealt cfg k) = k := by
  induction k with
  | zero => simp [total, dealt]
  | succ k ih =>
    have := total_update cfg (dealt cfg k) (k % cfg.ncpu)
      (page cfg k :: dealt cfg k (k % cfg.ncpu)) (Nat.mod_lt _ hn)
    rw [dealt_succ]
    rw [List.length_cons] at this
    omega

/-- A loop of `freerange(·, PHYSTOP)` that returns has made the calls `kfree(p)`,
`kfree(p + PGSIZE)`, … for the whole pages between its first address `p` and
`PHYSTOP`, in this order, and none of them has panicked. -/
theorem freerange_loop_some {cfg : Config} (he : 0 < cfg.kend) (fuel : Nat) :
    ∀ (p : Nat) (s s' : Kmem), p % PGSIZE = 0 → p < U64 →
      freerange_loop cfg cfg.phystop fuel p s = some s' →
      kfree_all cfg ((List.range ((cfg.phystop - p) / PGSIZE)).map (fun k => p + k * PGSIZE)) s
        = some s' := by
  have hstop : ∀ p : Nat, p % PGSIZE = 0 → p < U64 → ¬ (p + PGSIZE) % U64 ≤ cfg.phystop →
      (cfg.phystop - p) / PGSIZE = 0 := by
    intro p hal hp hc
    unfold PGSIZE U64 at *
    omega
  induction fuel with
  | zero =>
    intro p s s' hal hp h
    rw [freerange_loop] at h
    split_ifs at h with hc
    simp only [Option.some.injEq] at h
    subst h
    rw [hstop p hal hp hc]
    rfl
  | succ fuel ih =>
    intro p s s' hal hp h
    rw [freerange_loop] at h
    by_cases hc : (p + PGSIZE) % U64 ≤ cfg.phystop
    · rw [if_pos hc] at h
      cases hk : kfree cfg 0 p s with
      | none => rw [hk] at h; cases h
      | some s1 =>
        rw [hk] at h
        simp only at h
        have hv := kfree_valid hk
        simp only [not_or, not_lt, ne_eq, not_not, ge_iff_le, not_le] at hv
        by_cases hw : p + PGSIZE < U64
        · rw [Nat.mod_eq_of_lt hw] at h hc
          have h1 : (cfg.phystop - p) / PGSIZE = (cfg.phystop - (p + PGSIZE)) / PGSIZE + 1 := by
            unfold PGSIZE at hc ⊢
            omega
          have hl : (List.range ((cfg.phystop - (p + PGSIZE)) / PGSIZE + 1)).map
                (fun k => p + k * PGSIZE)
              = p :: (List.range ((cfg.phystop - (p + PGSIZE)) / PGSIZE)).map
                (fun k => p + PGSIZE + k * PGSIZE) := by
            rw [List.range_succ_eq_map, List.map_cons, List.map_map]
            refine congrArg₂ List.cons (by simp) (List.map_congr_left fun k _ => ?_)
            simp only [Function.comp, PGSIZE]
            omega
          rw [h1, hl, kfree_all, hk]
          refine ih (p + PGSIZE) s1 s' ?_ hw h
          unfold PGSIZE at hal ⊢
          omega
        · have hz : (p + PGSIZE) % U64 = 0 := by
            unfold PGSIZE at hal hw ⊢
            unfold U64 at hp hw ⊢
            omega
          rw [hz] at h
          obtain ⟨-, hlt⟩ := freerange_loop_zero he cfg.phystop fuel h
          exfalso
          unfold PGSIZE at hal hw hlt
          unfold U64 at hp hw
          omega
    · rw [if_neg hc] at h
      simp only [Option.some.injEq] at h
      subst h
      rw [hstop p hal hp hc]
      rfl

/-- A `kinit` that returns has made the calls `kfree` for the pages at the
positions `0`, …, `R - 1` of the managed range, in this order, and has then closed
the bootstrap phase. -/
theorem kinit_some {cfg : Config} {mem : Nat → Nat} {s : Kmem} (he : 0 < cfg.kend)
    (hk : kinit cfg mem = some s) :
    ∃ t, kfree_all cfg ((List.range (managed cfg)).map (page cfg))
          { freelist := fun _ => 0, next := mem, kmem_init_phase := 1, init_cpu := 0 }
        = some t ∧ s = { t with kmem_init_phase := 0 } := by
  unfold kinit at hk
  cases hf : freerange cfg cfg.kend cfg.phystop
      { freelist := fun _ => 0, next := mem, kmem_init_phase := 1, init_cpu := 0 } with
  | none => rw [hf] at hk; cases hk
  | some t =>
    rw [hf] at hk
    simp only [Option.some.injEq] at hk
    obtain ⟨h1, h2⟩ := PGROUNDUP_lt cfg.kend
    exact ⟨t, freerange_loop_some he _ _ _ _ h2 h1 hf, hk.symm⟩

/-- With `end` two pages and `PHYSTOP` more than one page below `2^64`, `kinit`
returns. -/
theorem kinit_returns (cfg : Config) (mem : Nat → Nat) (hk : cfg.kend + 2 * PGSIZE ≤ U64)
    (hp : cfg.phystop + PGSIZE < U64) : ∃ s, kinit cfg mem = some s := by
  obtain ⟨s, hs⟩ := kfree_all_some cfg ((List.range (managed cfg)).map (page cfg))
    { freelist := fun _ => 0, next := mem, kmem_init_phase := 1, init_cpu := 0 }
    (fun a ha => by
      obtain ⟨k, hk', rfl⟩ := List.mem_map.mp ha
      exact page_valid cfg (by omega) (List.mem_range.mp hk'))
  refine ⟨{ s with kmem_init_phase := 0 }, ?_⟩
  unfold kinit
  rw [freerange_eq_kfree_all cfg hk hp, hs]

/-- C12. Balanced bootstrap: a `kinit` that has returned has freed the `R`
pages of the managed range, in order, over `N = NCPU` cores (addresses being
64-bit values), and the free list of core `i` then holds exactly the pages
freed at the positions `k < R` with `k mod N = i` (the last freed first); the
lengths of the free lists of any two cores differ by at most 1 and the
lengths sum to `R`. And `kinit` does return when `end + 2 * PGSIZE <= 2^64`
and `PHYSTOP + PGSIZE < 2^64`. -/
theorem C12_balanced_bootstrap (cfg : Config) (mem : Nat → Nat) (hn : 0 < cfg.ncpu)
    (he : 0 < cfg.kend) :
    (∀ s, kinit cfg mem = some s →
      (∃ t, kfree_all cfg ((List.range (managed cfg)).map (page cfg))
            { freelist := fun _ => 0, next := mem, kmem_init_phase := 1, init_cpu := 0 }
          = some t ∧ s = { t with kmem_init_phase := 0 }) ∧
        Lists cfg s (dealt cfg (managed cfg)) ∧
        (∀ i a, a ∈ dealt cfg (managed cfg) i ↔
          ∃ k, k < managed cfg ∧ k % cfg.ncpu = i ∧ a = page cfg k) ∧
        (∀ i j, i < cfg.ncpu → j < cfg.ncpu →
          (dealt cfg (managed cfg) i).length ≤ (dealt cfg (managed cfg) j).length + 1) ∧
        ∑ i in Finset.range cfg.ncpu, (dealt cfg (managed cfg) i).length = managed cfg) ∧
    (cfg.kend + 2 * PGSIZE ≤ U64 → cfg.phystop + PGSIZE < U64 →
      ∃ s, kinit cfg mem = some s) := by
  refine ⟨fun s hk => ?_, kinit_returns cfg mem⟩
  obtain ⟨t, ht, rfl⟩ := kinit_some he hk
  obtain ⟨hL, -, -⟩ := kfree_all_dealt hn he mem (managed cfg) t ht
  obtain ⟨q, c, -, -, hlen⟩ := dealt_length hn (managed cfg)
  refine ⟨⟨t, ht, rfl⟩, ⟨hL.1, hL.2⟩, mem_dealt cfg _, fun i j hi hj => ?_, dealt_total hn _⟩
  rw [hlen i hi, hlen j hj]
  split_ifs <;> omega

/-- C12 on the demo machine (2 cores, 5 managed pages), where `kinit` returns:
core 0 receives the pages at positions 0, 2, 4 and core 1 the pages at
positions 1, 3. -/
theorem C12_balanced_bootstrap_witness :
    0 < demoCfg.ncpu ∧ 0 < demoCfg.kend ∧
    kinit demoCfg (fun _ => 0) = some (booted demoCfg) ∧ managed demoCfg = 5 ∧
    dealt demoCfg 5 0 = [28672, 20480, 12288] ∧ dealt demoCfg 5 1 = [24576, 16384] ∧
    ((∃ t, kfree_all demoCfg ((List.range (managed demoCfg)).map (page demoCfg))
          { freelist := fun _ => 0, next := fun _ => 0, kmem_init_phase := 1, init_cpu := 0 }
        = some t ∧ booted demoCfg = { t with kmem_init_phase := 0 }) ∧
      Lists demoCfg (booted demoCfg) (dealt demoCfg (managed demoCfg)) ∧
      (∀ i a, a ∈ dealt demoCfg (managed demoCfg) i ↔
        ∃ k, k < managed demoCfg ∧ k % demoCfg.ncpu = i ∧ a = page demoCfg k) ∧
      (∀ i j, i < demoCfg.ncpu → j < demoCfg.ncpu →
        (dealt demoCfg (managed demoCfg) i).length
          ≤ (dealt demoCfg (managed demoCfg) j).length + 1) ∧
      ∑ i in Finset.range demoCfg.ncpu, (dealt demoCfg (managed demoCfg) i).length
        = managed demoCfg) ∧
    ∃ s, kinit demoCfg (fun _ => 0) = some s :=
  ⟨by decide, by decide, rfl, by decide, by decide, by decide,
    (C12_balanced_bootstrap demoCfg (fun _ => 0) (by decide) (by decide)).1
      (booted demoCfg) rfl,
    (C12_balanced_bootstrap demoCfg (fun _ => 0) (by decide) (by decide)).2
      (by decide) (by decide)⟩

theorem page_injective (cfg : Config) : Function.Injective (page cfg) := by
  intro a b h
  unfold page PGSIZE at h
  omega

/-- C20 as amended. With `end + 2 * PGSIZE <= 2^64` and
`PHYSTOP + PGSIZE < 2^64` (addresses being 64-bit values), `kinit` never
panics: `freerange(end, PHYSTOP)` is the sequence of calls `kfree(p)` for the
pages `p = PGROUNDUP(end) + k * PGSIZE` with `p + PGSIZE <= PHYSTOP`, in
increasing order and each once; every such `p` is page-aligned, `>= end` and
`< PHYSTOP`, so no `kfree(p)` panics, and `kinit` returns (its loop ends
within the `PHYSTOP / PGSIZE` iterations granted, and more would change
nothing); `PGROUNDUP(end)` is the first multiple of `PGSIZE` at or after
`end`. -/
theorem C20_kinit_never_panics (cfg : Config) (mem : Nat → Nat)
    (hk : cfg.kend + 2 * PGSIZE ≤ U64) (hp : cfg.phystop + PGSIZE < U64) :
    (∃ s, kinit cfg mem = some s) ∧
    (∀ s0, freerange cfg cfg.kend cfg.phystop s0
      = kfree_all cfg
          (freerange_calls cfg.phystop (cfg.phystop / PGSIZE) (PGROUNDUP cfg.kend)) s0) ∧
    (∀ s0 k, freerange_loop cfg cfg.phystop (cfg.phystop / PGSIZE + k) (PGROUNDUP cfg.kend) s0
      = freerange cfg cfg.kend cfg.phystop s0) ∧
    freerange_calls cfg.phystop (cfg.phystop / PGSIZE) (PGROUNDUP cfg.kend)
      = (List.range (managed cfg)).map (fun k => PGROUNDUP cfg.kend + k * PGSIZE) ∧
    (∀ p ∈ freerange_calls cfg.phystop (cfg.phystop / PGSIZE) (PGROUNDUP cfg.kend),
      p % PGSIZE = 0 ∧ cfg.kend ≤ p ∧ p < cfg.phystop ∧
        ∀ cpu s0, kfree cfg cpu p s0 ≠ none) ∧
    (∀ p, p ∈ freerange_calls cfg.phystop (cfg.phystop / PGSIZE) (PGROUNDUP cfg.kend) ↔
      ∃ k, p = PGROUNDUP cfg.kend + k * PGSIZE ∧ p + PGSIZE ≤ cfg.phystop) ∧
    (freerange_calls cfg.phystop (cfg.phystop / PGSIZE) (PGROUNDUP cfg.kend)).Nodup ∧
    (PGROUNDUP cfg.kend % PGSIZE = 0 ∧ cfg.kend ≤ PGROUNDUP cfg.kend ∧
      PGROUNDUP cfg.kend < cfg.kend + PGSIZE) := by
  have hk1 : cfg.kend + PGSIZE ≤ U64 := by omega
  have hvalid : ∀ p ∈ (List.range (managed cfg)).map (page cfg),
      p % PGSIZE = 0 ∧ cfg.kend ≤ p ∧ p < cfg.phystop := by
    intro p hp
    obtain ⟨k, hk, rfl⟩ := List.mem_map.mp hp
    exact page_valid cfg hk1 (List.mem_range.mp hk)
  refine ⟨?_, fun s0 => ?_, fun s0 k => ?_, freerange_pages cfg hk hp,
    fun p hmem => ?_, fun p => ?_, ?_, PGROUNDUP_spec cfg.kend hk1⟩
  · exact kinit_returns cfg mem hk hp
  · rw [freerange_pages cfg hk hp, freerange_eq_kfree_all cfg hk hp]
  · rw [freerange_loop_kfree_all cfg hk hp, freerange_eq_kfree_all cfg hk hp]
  · rw [freerange_pages cfg hk hp] at hmem
    obtain ⟨h1, h2, h3⟩ := hvalid p hmem
    refine ⟨h1, h2, h3, fun cpu s0 hnone => ?_⟩
    obtain ⟨t, ht, -⟩ := kfree_some cfg cpu s0
      (show ¬ (p % PGSIZE ≠ 0 ∨ p < cfg.kend ∨ p ≥ cfg.phystop) by omega)
    rw [hnone] at ht
    cases ht
  · rw [freerange_pages cfg hk hp]
    constructor
    · intro hp
      obtain ⟨k, hk, rfl⟩ := List.mem_map.mp hp
      exact ⟨k, rfl, (page_add_le_iff cfg k).mpr (List.mem_range.mp hk)⟩
    · rintro ⟨k, rfl, hk⟩
      exact List.mem_map.mpr ⟨k, List.mem_range.mpr ((page_add_le_iff cfg k).mp hk), rfl⟩
  · rw [freerange_pages cfg hk hp]
    exact (List.nodup_range _).map (page_injective cfg)

/-- C20 as amended, on the demo machine: `kinit` returns and the loop of
`freerange` frees the five pages 12288, …, 28672. -/
theorem C20_kinit_never_panics_witness :
    demoCfg.kend + 2 * PGSIZE ≤ U64 ∧ demoCfg.phystop + PGSIZE < U64 ∧
    freerange_calls demoCfg.phystop (demoCfg.phystop / PGSIZE) (PGROUNDUP demoCfg.kend)
      = [12288, 16384, 20480, 24576, 28672] ∧
    ((∃ s, kinit demoCfg (fun _ => 0) = some s) ∧
    (∀ s0, freerange demoCfg demoCfg.kend demoCfg.phystop s0
      = kfree_all demoCfg
          (freerange_calls demoCfg.phystop (demoCfg.phystop / PGSIZE)
            (PGROUNDUP demoCfg.kend)) s0) ∧
    (∀ s0 k, freerange_loop demoCfg demoCfg.phystop (demoCfg.phystop / PGSIZE + k)
        (PGROUNDUP demoCfg.kend) s0
      = freerange demoCfg demoCfg.kend demoCfg.phystop s0) ∧
    freerange_calls demoCfg.phystop (demoCfg.phystop / PGSIZE) (PGROUNDUP demoCfg.kend)
      = (List.range (managed demoCfg)).map (fun k => PGROUNDUP demoCfg.kend + k * PGSIZE) ∧
    (∀ p ∈ freerange_calls demoCfg.phystop (demoCfg.phystop / PGSIZE)
        (PGROUNDUP demoCfg.kend),
      p % PGSIZE = 0 ∧ demoCfg.kend ≤ p ∧ p < demoCfg.phystop ∧
        ∀ cpu s0, kfree demoCfg cpu p s0 ≠ none) ∧
    (∀ p, p ∈ freerange_calls demoCfg.phystop (demoCfg.phystop / PGSIZE)
        (PGROUNDUP demoCfg.kend) ↔
      ∃ k, p = PGROUNDUP demoCfg.kend + k * PGSIZE ∧ p + PGSIZE ≤ demoCfg.phystop) ∧
    (freerange_calls demoCfg.phystop (demoCfg.phystop / PGSIZE)
      (PGROUNDUP demoCfg.kend)).Nodup ∧
    (PGROUNDUP demoCfg.kend % PGSIZE = 0 ∧ demoCfg.kend ≤ PGROUNDUP demoCfg.kend ∧
      PGROUNDUP demoCfg.kend < demoCfg.kend + PGSIZE)) :=
  ⟨by decide, by decide, by decide,
    C20_kinit_never_panics demoCfg (fun _ => 0) (by decide) (by decide)⟩

/-- C20 as stated fails, for every `end` and `PHYSTOP` that is: three
machines on which `kinit` panics in a `kfree` of its own. With `end` 100 bytes
below `2^64`, `PGROUNDUP(end)` wraps around to 0 and the first call is
`kfree(0)`, below `end`. With `end + 2 * PGSIZE = 2^64 + 1`, `PGROUNDUP(end)`
is the last page below `2^64`, `p + PGSIZE` wraps around to 0, the test
`p + PGSIZE <= PHYSTOP` passes and the first call is `kfree(2^64 - PGSIZE)`, at
or above `PHYSTOP`. With `PHYSTOP + PGSIZE = 2^64` and `end` two pages below
`2^64`, the first call frees the page `2^64 - 2 * PGSIZE` and the second is
`kfree(2^64 - PGSIZE)`, at `PHYSTOP`. -/
theorem C20_counterexample :
    (roundWrapCfg.kend + 100 = U64 ∧ roundWrapCfg.phystop + PGSIZE < U64 ∧
      PGROUNDUP roundWrapCfg.kend = 0 ∧
      (freerange_calls roundWrapCfg.phystop (roundWrapCfg.phystop / PGSIZE)
        (PGROUNDUP roundWrapCfg.kend)).head? = some 0 ∧
      0 < roundWrapCfg.kend ∧
      (∀ mem, kfree roundWrapCfg 0 0
        { freelist := fun _ => 0, next := mem, kmem_init_phase := 1, init_cpu := 0 } = none) ∧
      ∀ mem, kinit roundWrapCfg mem = none) ∧
    (endWrapCfg.kend + 2 * PGSIZE = U64 + 1 ∧ endWrapCfg.phystop + PGSIZE < U64 ∧
      PGROUNDUP endWrapCfg.kend + PGSIZE = U64 ∧
      (PGROUNDUP endWrapCfg.kend + PGSIZE) % U64 = 0 ∧
      (freerange_calls endWrapCfg.phystop (endWrapCfg.phystop / PGSIZE)
        (PGROUNDUP endWrapCfg.kend)).head? = some (PGROUNDUP endWrapCfg.kend) ∧
      endWrapCfg.phystop ≤ PGROUNDUP endWrapCfg.kend ∧
      (∀ mem, kfree endWrapCfg 0 (PGROUNDUP endWrapCfg.kend)
        { freelist := fun _ => 0, next := mem, kmem_init_phase := 1, init_cpu := 0 } = none) ∧
      ∀ mem, kinit endWrapCfg mem = none) ∧
    (stopWrapCfg.kend + 2 * PGSIZE = U64 ∧ stopWrapCfg.phystop + PGSIZE = U64 ∧
      PGROUNDUP stopWrapCfg.kend = stopWrapCfg.kend ∧
      (freerange_calls stopWrapCfg.phystop (stopWrapCfg.phystop / PGSIZE)
        (PGROUNDUP stopWrapCfg.kend)).take 2
        = [stopWrapCfg.kend, stopWrapCfg.phystop] ∧
      (∀ mem, ∃ s1, kfree stopWrapCfg 0 stopWrapCfg.kend
          { freelist := fun _ => 0, next := mem, kmem_init_phase := 1, init_cpu := 0 }
          = some s1 ∧
        kfree stopWrapCfg 0 stopWrapCfg.phystop s1 = none) ∧
      ∀ mem, kinit stopWrapCfg mem = none) :=
  ⟨⟨by decide, by decide, by decide, by decide, by decide, fun _ => rfl, fun _ => rfl⟩,
    ⟨by decide, by decide, by decide, by decide, by decide, by decide, fun _ => rfl,
      fun _ => rfl⟩,
    ⟨by decide, by decide, by decide, by decide, fun _ => ⟨_, rfl, rfl⟩, fun _ => rfl⟩⟩

end Kalloc

namespace Bio

/-! ## Where a buffer is linked, and uniqueness of identities -/

theorem mem_move (s : Bcache) (b h : Nat) {x : Nat} (hx : x ≠ b) (j : Nat) :
    x ∈ (insertHead (unlink s b) h b).head j ↔ x ∈ s.head j := by
  unfold insertHead unlink
  dsimp only
  by_cases hj : j = h
  · subst hj
    rw [Function.update_same]
    simp [hx]
  · rw [Function.update_noteq hj]
    simp [hx]

theorem mem_move_self (s : Bcache) (b h : Nat) : b ∈ (insertHead (unlink s b) h b).head h := by
  unfold insertHead unlink
  dsimp only
  rw [Function.update_same]
  exact List.mem_cons_self _ _

theorem lookup_identity {s : Bcache} {h dev blockno b : Nat}
    (hl : lookup s h dev blockno = some b) :
    (s.buf b).dev = dev ∧ (s.buf b).blockno = blockno := by
  unfold lookup at hl
  have := List.find?_some hl
  simpa using this

/-- What a returning `bget` leaves: the buffer returned carries the identity
asked for and is linked in the bucket of that identity; every other buffer is
as before and linked where it was; and either the buffer returned carried the
identity before (a hit) or no buffer of that bucket did. -/
theorem bget_facts {pid dev blockno : Nat} {s : Bcache} {b : Nat} {s' : Bcache}
    (h : bget pid dev blockno s = Result.ret b s') :
    s'.nbuf = s.nbuf ∧ (∀ x, x ≠ b → s'.buf x = s.buf x) ∧
    (s'.buf b).dev = dev ∧ (s'.buf b).blockno = blockno ∧
    b ∈ s'.head (hash dev blockno) ∧
    (∀ x, x ≠ b → ∀ j, x ∈ s'.head j ↔ x ∈ s.head j) ∧
    (((s.buf b).dev = dev ∧ (s.buf b).blockno = blockno) ∨
      ∀ x ∈ s.head (hash dev blockno),
        ¬ ((s.buf x).dev = dev ∧ (s.buf x).blockno = blockno)) := by
  obtain ⟨s1, hsel, -, rfl⟩ := bget_ret h
  obtain ⟨-, -, -, hfr, -⟩ := bget_shape h
  obtain ⟨hd, hb, -⟩ := bget_select_identity hsel
  have hid : ((setBuf s1 b { s1.buf b with lock := some pid }).buf b).dev = dev ∧
      ((setBuf s1 b { s1.buf b with lock := some pid }).buf b).blockno = blockno := by
    simp [setBuf, hd, hb]
  have hrest : s1.nbuf = s.nbuf ∧ b ∈ s1.head (hash dev blockno) ∧
      (∀ x, x ≠ b → ∀ j, x ∈ s1.head j ↔ x ∈ s.head j) ∧
      (((s.buf b).dev = dev ∧ (s.buf b).blockno = blockno) ∨
        ∀ x ∈ s.head (hash dev blockno),
          ¬ ((s.buf x).dev = dev ∧ (s.buf x).blockno = blockno)) := by
    rcases bget_select_cases hsel with ⟨hl, rfl⟩ | ⟨hl, hv, rfl⟩ | ⟨hl, hv, -, rfl⟩
    · exact ⟨rfl, (lookup_mem hl : b ∈ s.head _), fun _ _ _ => Iff.rfl,
        Or.inl (lookup_identity hl)⟩
    · exact ⟨rfl, (victim_mem hv : b ∈ s.head _), fun _ _ _ => Iff.rfl,
        Or.inr ((lookup_none_iff s _ dev blockno).mp hl)⟩
    · exact ⟨rfl, mem_move_self s b _, fun x hx j => mem_move s b _ hx j,
        Or.inr ((lookup_none_iff s _ dev blockno).mp hl)⟩
  exact ⟨hrest.1, hfr, hid.1, hid.2, hrest.2.1, hrest.2.2.1, hrest.2.2.2⟩

theorem bget_lock {pid dev blockno : Nat} {s : Bcache} {b : Nat} {s' : Bcache}
    (h : bget pid dev blockno s = Result.ret b s') :
    (s.buf b).lock = none ∧ (s'.buf b).lock = some pid :=
  ⟨(bget_shape h).1, (bget_shape h).2.1⟩

/-- What a returning `bread` leaves, as `bget_facts`. -/
theorem bread_facts {pid dev blockno : Nat} {s : Bcache} {b : Nat} {s' : Bcache}
    (h : bread pid dev blockno s = Result.ret b s') :
    s'.nbuf = s.nbuf ∧ (∀ x, x ≠ b → s'.buf x = s.buf x) ∧
    (s'.buf b).dev = dev ∧ (s'.buf b).blockno = blockno ∧
    b ∈ s'.head (hash dev blockno) ∧
    (∀ x, x ≠ b → ∀ j, x ∈ s'.head j ↔ x ∈ s.head j) ∧
    (((s.buf b).dev = dev ∧ (s.buf b).blockno = blockno) ∨
      ∀ x ∈ s.head (hash dev blockno),
        ¬ ((s.buf x).dev = dev ∧ (s.buf x).blockno = blockno)) ∧
    (s.buf b).lock = none ∧ (s'.buf b).lock = some pid := by
  obtain ⟨s1, hg, hcase⟩ := bread_ret h
  obtain ⟨h1, h2, h3, h4, h5, h6, h7⟩ := bget_facts hg
  obtain ⟨h8, h9⟩ := bget_lock hg
  rcases hcase with ⟨-, rfl⟩ | ⟨-, rfl⟩
  · refine ⟨h1, fun x hx => ?_, ?_, ?_, h5, h6, h7, h8, ?_⟩
    · rw [← h2 x hx]
      simp [setBuf, virtio_disk_rw, Function.update_noteq hx]
    · simpa [setBuf, virtio_disk_rw] using h3
    · simpa [setBuf, virtio_disk_rw] using h4
    · simpa [setBuf, virtio_disk_rw] using h9
  · exact ⟨h1, h2, h3, h4, h5, h6, h7, h8, h9⟩

/-- What a returning `brelse` leaves: only the reference count and the
sleeplock of `b` change, `b` is linked in the bucket of its identity if it was
or if its reference count reached 0, and every other buffer is linked where
it was. -/
theorem brelse_facts {pid b : Nat} {s s' : Bcache} (h : brelse pid b s = Result.ret () s') :
    s'.nbuf = s.nbuf ∧ (s.buf b).lock = some pid ∧ (s'.buf b).lock = none ∧
    (∀ x, x ≠ b → s'.buf x = s.buf x) ∧
    (s'.buf b).dev = (s.buf b).dev ∧ (s'.buf b).blockno = (s.buf b).blockno ∧
    (s'.buf b).valid = (s.buf b).valid ∧
    (s'.buf b).refcnt = ((s.buf b).refcnt + UINT - 1) % UINT ∧
    (∀ x, x ≠ b → ∀ j, x ∈ s'.head j ↔ x ∈ s.head j) ∧
    (Located s b → Located s' b) := by
  obtain ⟨hl, hcase⟩ := brelse_ret h
  rcases hcase with ⟨-, rfl⟩ | ⟨-, rfl⟩
  · refine ⟨rfl, hl, ?_, fun x hx => ?_, ?_, ?_, ?_, ?_, fun x hx j => ?_, fun _ => ?_⟩
    · simp [insertHead, unlink, setBuf, releasesleep]
    · simp [insertHead, unlink, setBuf, releasesleep, Function.update_noteq hx]
    · simp [insertHead, unlink, setBuf, releasesleep]
    · simp [insertHead, unlink, setBuf, releasesleep]
    · simp [insertHead, unlink, setBuf, releasesleep]
    · simp [insertHead, unlink, setBuf, releasesleep]
    · exact mem_move _ b _ hx j
    · unfold Located
      have e1 : ∀ t : Bcache, ∀ k, ((insertHead (unlink t b) k b).buf b) = t.buf b :=
        fun _ _ => rfl
      rw [e1]
      have e2 : ((setBuf (releasesleep b s) b
          { (releasesleep b s).buf b with
            refcnt := (((releasesleep b s).buf b).refcnt + UINT - 1) % UINT }).buf b).dev
          = (s.buf b).dev := by simp [setBuf, releasesleep]
      have e3 : ((setBuf (releasesleep b s) b
          { (releasesleep b s).buf b with
            refcnt := (((releasesleep b s).buf b).refcnt + UINT - 1) % UINT }).buf b).blockno
          = (s.buf b).blockno := by simp [setBuf, releasesleep]
      rw [e2, e3]
      exact mem_move_self _ b _
  · refine ⟨rfl, hl, ?_, fun x hx => ?_, ?_, ?_, ?_, ?_, fun x hx j => Iff.rfl, fun hloc => ?_⟩
    · simp [setBuf, releasesleep]
    · simp [setBuf, releasesleep, Function.update_noteq hx]
    · simp [setBuf, releasesleep]
    · simp [setBuf, releasesleep]
    · simp [setBuf, releasesleep]
    · simp [setBuf, releasesleep]
    · unfold Located at hloc ⊢
      simpa [setBuf, releasesleep] using hloc

/-- What `bget_select` leaves, as `bget_facts`: the state in which a `bget`
is suspended when the sleeplock of the buffer chosen is held. -/
theorem select_facts {dev blockno : Nat} {s : Bcache} {b : Nat} {s1 : Bcache}
    (hsel : bget_select dev blockno s = some (b, s1)) :
    s1.nbuf = s.nbuf ∧ (∀ x, x ≠ b → s1.buf x = s.buf x) ∧
    (s1.buf b).dev = dev ∧ (s1.buf b).blockno = blockno ∧
    b ∈ s1.head (hash dev blockno) ∧
    (∀ x, x ≠ b → ∀ j, x ∈ s1.head j ↔ x ∈ s.head j) ∧
    (((s.buf b).dev = dev ∧ (s.buf b).blockno = blockno) ∨
      ∀ x ∈ s.head (hash dev blockno),
        ¬ ((s.buf x).dev = dev ∧ (s.buf x).blockno = blockno)) ∧
    s1.waiting = s.waiting := by
  obtain ⟨hd, hb, -⟩ := bget_select_identity hsel
  obtain ⟨-, -, hfr, -, hw, hn, -⟩ := select_shape hsel
  refine ⟨hn, hfr, hd, hb, ?_, ?_, ?_, hw⟩
  · rcases bget_select_cases hsel with ⟨hl, rfl⟩ | ⟨hl, hv, rfl⟩ | ⟨hl, hv, -, rfl⟩
    · exact (lookup_mem hl : b ∈ s.head _)
    · exact (victim_mem hv : b ∈ s.head _)
    · exact mem_move_self s b _
  · rcases bget_select_cases hsel with ⟨hl, rfl⟩ | ⟨hl, hv, rfl⟩ | ⟨hl, hv, -, rfl⟩
    · exact fun _ _ _ => Iff.rfl
    · exact fun _ _ _ => Iff.rfl
    · exact fun x hx j => mem_move s b _ hx j
  · rcases bget_select_cases hsel with ⟨hl, rfl⟩ | ⟨hl, hv, rfl⟩ | ⟨hl, hv, -, rfl⟩
    · exact Or.inl (lookup_identity hl)
    · exact Or.inr ((lookup_none_iff s _ dev blockno).mp hl)
    · exact Or.inr ((lookup_none_iff s _ dev blockno).mp hl)

theorem bget_waiting {pid dev blockno : Nat} {s : Bcache} {b : Nat} {s' : Bcache}
    (h : bget pid dev blockno s = Result.ret b s') : s'.waiting = s.waiting := by
  obtain ⟨s1, hsel, -, rfl⟩ := bget_ret h
  exact (select_shape hsel).2.2.2.2.1

theorem bread_waiting {pid dev blockno : Nat} {s : Bcache} {b : Nat} {s' : Bcache}
    (h : bread pid dev blockno s = Result.ret b s') : s'.waiting = s.waiting := by
  obtain ⟨s1, hg, hcase⟩ := bread_ret h
  rcases hcase with ⟨-, rfl⟩ | ⟨-, rfl⟩
  · show s1.waiting = s.waiting
    exact bget_waiting hg
  · exact bget_waiting hg

theorem brelse_waiting {pid b : Nat} {s s' : Bcache}
    (h : brelse pid b s = Result.ret () s') : s'.waiting = s.waiting := by
  rcases (brelse_ret h).2 with ⟨-, rfl⟩ | ⟨-, rfl⟩ <;> rfl

/-- A call that touches only reference counts, the valid flag and the driver
trace keeps every buffer where it is. -/
theorem placed_of_same {P : Nat → Prop} {s s' : Bcache} (hP : Placed P s)
    (hn : s'.nbuf = s.nbuf) (hh : s'.head = s.head) (hw : s'.waiting = s.waiting)
    (hd : ∀ x, (s'.buf x).dev = (s.buf x).dev ∧ (s'.buf x).blockno = (s.buf x).blockno ∧
      (s'.buf x).lock = (s.buf x).lock)
    (hr : ∀ x, x < s.nbuf → Located s x ∨ (P (s.buf x).refcnt → P (s'.buf x).refcnt)) :
    Placed P s' := by
  intro x hx
  rw [hn] at hx
  have hloc : Located s x → Located s' x := by
    unfold Located
    rw [hh, (hd x).1, (hd x).2.1]
    exact id
  rcases hr x hx with hl | hp
  · exact Or.inl (hloc hl)
  · rcases hP x hx with hl | ⟨⟨h1, h2⟩, h3, h4, h5⟩
    · exact Or.inl (hloc hl)
    · exact Or.inr ⟨⟨by rw [(hd x).1, h1], by rw [(hd x).2.1, h2]⟩, by rw [(hd x).2.2, h3],
        by unfold waiters at h4 ⊢; rw [hw]; exact h4, hp h5⟩

/-- A `bget` or `bread`, returning or suspended, a `brelse` and a resumption
keep every buffer placed. -/
theorem placed_of_facts {P : Nat → Prop} {s s' : Bcache} {b : Nat} (hP : Placed P s)
    (hn : s'.nbuf = s.nbuf) (hfr : ∀ x, x ≠ b → s'.buf x = s.buf x)
    (hmem : ∀ x, x ≠ b → ∀ j, x ∈ s'.head j ↔ x ∈ s.head j)
    (hw : ∀ x, x ≠ b → waiters s' x = waiters s x) (hb : b < s.nbuf → Located s' b) :
    Placed P s' := by
  intro x hx
  rw [hn] at hx
  by_cases hxb : x = b
  · subst hxb
    exact Or.inl (hb hx)
  · rcases hP x hx with hl | ⟨⟨h1, h2⟩, h3, h4, h5⟩
    · left
      unfold Located at hl ⊢
      rw [hfr x hxb]
      exact (hmem x hxb _).mpr hl
    · right
      unfold Placeholder
      rw [hfr x hxb, hw x hxb]
      exact ⟨⟨h1, h2⟩, h3, h4, h5⟩

theorem exec_nbuf {c : Call} {s s' : Bcache} (h : exec c s = some s') : s'.nbuf = s.nbuf := by
  rcases exec_cases h with ⟨pid, dev, blockno, b, -, hb⟩ | ⟨pid, dev, blockno, b, -, hb⟩ |
    ⟨pid, b, -, -, hb⟩ | ⟨pid, b, -, -, hb⟩ | ⟨b, -, -, rfl⟩ | ⟨b, -, -, rfl⟩ |
    ⟨pid, dev, blockno, b, s1, -, hb, rfl⟩ | ⟨pid, dev, blockno, b, s1, -, hb, rfl⟩ |
    ⟨pid, b, read, -, -, -, rfl⟩
  · exact (bget_facts hb).1
  · exact (bread_facts hb).1
  · rw [(bwrite_ret hb).2]; rfl
  · exact (brelse_facts hb).1
  · rfl
  · rfl
  · exact (select_facts (bget_sleep hb).1).1
  · exact (select_facts (bget_sleep (bread_sleep hb)).1).1
  · exact (resume_facts _ s).1

theorem waiters_pos {s : Bcache} {w : Waiter} (hw : w ∈ s.waiting) : 0 < waiters s w.b := by
  unfold waiters
  exact List.countP_pos_iff.mpr ⟨w, hw, by simp⟩

/-- Every step keeps every buffer placed, provided `bpin` and `bunpin` are
applied to a buffer linked in the bucket of its identity or the condition `P`
on the reference count holds of every number. -/
theorem exec_placed {P : Nat → Prop} {c : Call} {s s' : Bcache} (hP : Placed P s)
    (hpin : ∀ b, c = Call.bpin b ∨ c = Call.bunpin b → Located s b ∨ ∀ r, P r)
    (h : exec c s = some s') : Placed P s' := by
  have suspended : ∀ {dev blockno b s1} (w : Waiter), w.b = b →
      bget_select dev blockno s = some (b, s1) → Placed P (suspend w s1) := by
    intro dev blockno b s1 w hwb hsel
    obtain ⟨h1, h2, h3, h4, h5, h6, -, -⟩ := select_facts hsel
    refine placed_of_facts hP h1 h2 h6 (fun x hx => ?_) (fun _ => ?_)
    · rw [waiters_suspend, if_neg (by rw [hwb]; exact fun e => hx e.symm)]
      unfold waiters
      rw [(select_facts hsel).2.2.2.2.2.2.2]
      rfl
    · unfold Located
      have e : (suspend w s1).buf b = s1.buf b := rfl
      rw [e, h3, h4]
      exact h5
  rcases exec_cases h with ⟨pid, dev, blockno, b, -, hb⟩ | ⟨pid, dev, blockno, b, -, hb⟩ |
    ⟨pid, b, -, -, hb⟩ | ⟨pid, b, -, hbn, hb⟩ | ⟨b, rfl, hbn, rfl⟩ | ⟨b, rfl, hbn, rfl⟩ |
    ⟨pid, dev, blockno, b, s1, -, hb, rfl⟩ | ⟨pid, dev, blockno, b, s1, -, hb, rfl⟩ |
    ⟨pid, b, read, -, hw, hl, rfl⟩
  · obtain ⟨h1, h2, h3, h4, h5, h6, -⟩ := bget_facts hb
    refine placed_of_facts hP h1 h2 h6
      (fun x _ => by unfold waiters; rw [bget_waiting hb]) (fun _ => ?_)
    unfold Located
    rw [h3, h4]
    exact h5
  · obtain ⟨h1, h2, h3, h4, h5, h6, -⟩ := bread_facts hb
    refine placed_of_facts hP h1 h2 h6
      (fun x _ => by unfold waiters; rw [bread_waiting hb]) (fun _ => ?_)
    unfold Located
    rw [h3, h4]
    exact h5
  · rw [(bwrite_ret hb).2]
    exact placed_of_same hP rfl rfl rfl (fun x => ⟨rfl, rfl, rfl⟩) (fun x _ => Or.inr id)
  · obtain ⟨h1, hl, -, h2, -, -, -, -, h6, h7⟩ := brelse_facts hb
    refine placed_of_facts hP h1 h2 h6
      (fun x _ => by unfold waiters; rw [brelse_waiting hb]) (fun _ => h7 ?_)
    rcases hP b hbn with hloc | ⟨-, hnone, -⟩
    · exact hloc
    · rw [hl] at hnone
      cases hnone
  · refine placed_of_same hP rfl rfl rfl (fun x => ?_) (fun x _ => ?_)
    · by_cases hx : x = b
      · subst hx; simp [bpin, setBuf]
      · simp [bpin, setBuf, Function.update_noteq hx]
    · by_cases hx : x = b
      · subst hx
        rcases hpin x (Or.inl rfl) with hl | hall
        · exact Or.inl hl
        · exact Or.inr (fun _ => hall _)
      · right
        simp [bpin, setBuf, Function.update_noteq hx]
  · refine placed_of_same hP rfl rfl rfl (fun x => ?_) (fun x _ => ?_)
    · by_cases hx : x = b
      · subst hx; simp [bunpin, setBuf]
      · simp [bunpin, setBuf, Function.update_noteq hx]
    · by_cases hx : x = b
      · subst hx
        rcases hpin x (Or.inr rfl) with hl | hall
        · exact Or.inl hl
        · exact Or.inr (fun _ => hall _)
      · right
        simp [bunpin, setBuf, Function.update_noteq hx]
  · exact suspended ⟨pid, b, false⟩ rfl (bget_sleep hb).1
  · exact suspended ⟨pid, b, true⟩ rfl (bget_sleep (bread_sleep hb)).1
  · obtain ⟨r1, r2, -, r4, r5, r6, -, -⟩ := resume_facts ⟨pid, b, read⟩ s
    have hwt := waiters_resume ⟨pid, b, read⟩ s hw
    refine placed_of_facts hP r1 r4 (fun x _ j => by rw [r2]) (fun x hx => ?_) (fun hbn => ?_)
    · have := hwt x
      rw [if_neg (fun e : b = x => hx e.symm)] at this
      exact this
    · rcases hP b hbn with hloc | ⟨-, -, h0, -⟩
      · unfold Located at hloc ⊢
        rw [r2, r5, r6]
        exact hloc
      · have := waiters_pos hw
        simp only at this
        omega

theorem binit_fresh (nbuf x : Nat) (hx : x < nbuf) :
    (binit nbuf).buf x
      = { dev := 4294967295, blockno := 0, valid := 0, refcnt := 0, lock := none } := by
  unfold binit
  rw [binit_loop_buf, if_pos hx]

theorem binit_placed (P : Nat → Prop) (h0 : P 0) (nbuf : Nat) : Placed P (binit nbuf) := by
  intro x hx
  rw [(binit_partition nbuf).2] at hx
  right
  unfold Placeholder waiters
  rw [binit_fresh nbuf x hx, binit_waiting]
  exact ⟨⟨rfl, rfl⟩, rfl, rfl, h0⟩

theorem reachable_placed {nbuf : Nat} {s : Bcache} (hr : Reachable nbuf s) :
    Placed (fun _ => True) s := by
  induction hr with
  | init => exact binit_placed _ trivial nbuf
  | step s s' c _ hex ih => exact exec_placed ih (fun _ _ => Or.inr (fun _ => trivial)) hex

/-- Calls that leave every identity as it is keep identities unique. -/
theorem unique_of_same {s s' : Bcache} (hU : Unique s) (hn : s'.nbuf = s.nbuf)
    (hd : ∀ x, (s'.buf x).dev = (s.buf x).dev ∧ (s'.buf x).blockno = (s.buf x).blockno) :
    Unique s' := by
  intro x y hx hy hxy h1 h2
  rw [hn] at hx hy
  rw [(hd x).1, (hd y).1] at h1
  rw [(hd x).2, (hd y).2] at h2
  have := hU x y hx hy hxy h1 h2
  exact ⟨by rw [(hd x).1]; exact this.1, by rw [(hd x).2]; exact this.2⟩

/-- A returning `bget` or `bread` keeps identities unique. -/
theorem unique_of_facts {s s' : Bcache} {b dev blockno : Nat}
    (hP : Placed (fun _ => True) s) (hU : Unique s) (hbn : b < s.nbuf)
    (hn : s'.nbuf = s.nbuf) (hfr : ∀ x, x ≠ b → s'.buf x = s.buf x)
    (hd : (s'.buf b).dev = dev) (hb : (s'.buf b).blockno = blockno)
    (hcase : ((s.buf b).dev = dev ∧ (s.buf b).blockno = blockno) ∨
      ∀ x ∈ s.head (hash dev blockno),
        ¬ ((s.buf x).dev = dev ∧ (s.buf x).blockno = blockno)) :
    Unique s' := by
  have key : ∀ y, y < s.nbuf → y ≠ b → (s.buf y).dev = dev → (s.buf y).blockno = blockno →
      dev = 4294967295 ∧ blockno = 0 := by
    intro y hy hyb h1 h2
    rcases hcase with ⟨c1, c2⟩ | hmiss
    · have := hU y b hy hbn hyb (h1.trans c1.symm) (h2.trans c2.symm)
      exact ⟨h1.symm.trans this.1, h2.symm.trans this.2⟩
    · rcases hP y hy with hloc | ⟨⟨p1, p2⟩, -, -, -⟩
      · unfold Located at hloc
        rw [h1, h2] at hloc
        exact absurd ⟨h1, h2⟩ (hmiss y hloc)
      · exact ⟨h1.symm.trans p1, h2.symm.trans p2⟩
  intro x y hx hy hxy h1 h2
  rw [hn] at hx hy
  unfold Placeholder
  by_cases hxb : x = b
  · subst hxb
    have hyb : y ≠ x := fun e => hxy e.symm
    rw [hfr y hyb] at h1 h2
    rw [hd] at h1 ⊢
    rw [hb] at h2 ⊢
    exact key y hy hyb h1.symm h2.symm
  · rw [hfr x hxb] at h1 h2 ⊢
    by_cases hyb : y = b
    · subst hyb
      rw [hd] at h1
      rw [hb] at h2
      have := key x hx hxb h1 h2
      exact ⟨h1.trans this.1, h2.trans this.2⟩
    · rw [hfr y hyb] at h1 h2
      exact hU x y hx hy hxy h1 h2

theorem select_lt {dev blockno : Nat} {s : Bcache} {b : Nat} {s1 : Bcache}
    (hp : Partition s) (hsel : bget_select dev blockno s = some (b, s1)) : b < s.nbuf := by
  rcases bget_select_cases hsel with ⟨hl, -⟩ | ⟨-, hv, -⟩ | ⟨-, -, ⟨i, hst⟩, -⟩
  · exact hp.mem_lt (hash_lt dev blockno) (lookup_mem hl)
  · exact hp.mem_lt (hash_lt dev blockno) (victim_mem hv)
  · exact hp.mem_lt (List.mem_range.mp (steal_some hst).1) (victim_mem (steal_some hst).2.2)

theorem bget_lt {pid dev blockno : Nat} {s : Bcache} {b : Nat} {s' : Bcache}
    (hp : Partition s) (h : bget pid dev blockno s = Result.ret b s') : b < s.nbuf := by
  obtain ⟨s1, hsel, -, -⟩ := bget_ret h
  exact select_lt hp hsel

theorem exec_unique {c : Call} {s s' : Bcache} (hp : Partition s)
    (hP : Placed (fun _ => True) s) (hU : Unique s) (h : exec c s = some s') : Unique s' := by
  have suspended : ∀ {dev blockno b s1} (w : Waiter),
      bget_select dev blockno s = some (b, s1) → Unique (suspend w s1) := by
    intro dev blockno b s1 w hsel
    obtain ⟨h1, h2, h3, h4, -, -, h7, -⟩ := select_facts hsel
    exact unique_of_facts hP hU (select_lt hp hsel) h1 h2 h3 h4 h7
  rcases exec_cases h with ⟨pid, dev, blockno, b, -, hb⟩ | ⟨pid, dev, blockno, b, -, hb⟩ |
    ⟨pid, b, -, -, hb⟩ | ⟨pid, b, -, hbn, hb⟩ | ⟨b, rfl, hbn, rfl⟩ | ⟨b, rfl, hbn, rfl⟩ |
    ⟨pid, dev, blockno, b, s1, -, hb, rfl⟩ | ⟨pid, dev, blockno, b, s1, -, hb, rfl⟩ |
    ⟨pid, b, read, -, -, -, rfl⟩
  · obtain ⟨h1, h2, h3, h4, -, -, h7⟩ := bget_facts hb
    exact unique_of_facts hP hU (bget_lt hp hb) h1 h2 h3 h4 h7
  · obtain ⟨h1, h2, h3, h4, -, -, h7, -, -⟩ := bread_facts hb
    obtain ⟨s1, hg, -⟩ := bread_ret hb
    exact unique_of_facts hP hU (bget_lt hp hg) h1 h2 h3 h4 h7
  · rw [(bwrite_ret hb).2]
    exact unique_of_same hU rfl (fun x => ⟨rfl, rfl⟩)
  · obtain ⟨h1, -, -, h2, h3, h4, -, -, -, -⟩ := brelse_facts hb
    refine unique_of_same hU h1 (fun x => ?_)
    by_cases hx : x = b
    · subst hx; exact ⟨h3, h4⟩
    · rw [h2 x hx]; exact ⟨rfl, rfl⟩
  · refine unique_of_same hU rfl (fun x => ?_)
    by_cases hx : x = b
    · subst hx; simp [bpin, setBuf]
    · simp [bpin, setBuf, Function.update_noteq hx]
  · refine unique_of_same hU rfl (fun x => ?_)
    by_cases hx : x = b
    · subst hx; simp [bunpin, setBuf]
    · simp [bunpin, setBuf, Function.update_noteq hx]
  · exact suspended _ (bget_sleep hb).1
  · exact suspended _ (bget_sleep (bread_sleep hb)).1
  · obtain ⟨r1, -, -, r4, r5, r6, -, -⟩ := resume_facts ⟨pid, b, read⟩ s
    refine unique_of_same hU r1 (fun x => ?_)
    by_cases hx : x = b
    · subst hx; exact ⟨r5, r6⟩
    · rw [r4 x hx]; exact ⟨rfl, rfl⟩

theorem reachable_unique {nbuf : Nat} {s : Bcache} (hr : Reachable nbuf s) : Unique s := by
  induction hr with
  | init =>
    intro x y hx _ _ _ _
    rw [(binit_partition nbuf).2] at hx
    unfold Placeholder
    rw [binit_fresh nbuf x hx]
    exact ⟨rfl, rfl⟩
  | step s s' c hr hex ih =>
    exact exec_unique (reachable_partition hr).1 (reachable_placed hr) ih hex

theorem released_reachable {nbuf : Nat} {g : Bcache → Call → Bool} {s : Bcache} {t : Nat}
    {rel : Nat → Nat} (hr : Released nbuf g s t rel) : Reachable nbuf s := by
  induction hr with
  | init => exact Reachable.init
  | step s t rel c s' _ _ hex ih => exact Reachable.step s s' c ih hex

theorem binit_buf_mem (s : Bcache) (b : Nat) :
    b ∈ (binit_buf s b).head (b % NBUCKETS) ∧
    ∀ x j, x ∈ s.head j → x ∈ (binit_buf s b).head j := by
  unfold binit_buf insertHead setBuf
  dsimp only
  refine ⟨?_, fun x j hx => ?_⟩
  · rw [Function.update_same]
    exact List.mem_cons_self _ _
  · by_cases hj : j = b % NBUCKETS
    · subst hj
      rw [Function.update_same]
      exact List.mem_cons_of_mem _ hx
    · rw [Function.update_noteq hj]
      exact hx

theorem binit_loop_mem (N n : Nat) :
    ∀ k, k < n → k ∈ ((List.range n).foldl binit_buf (binit_empty N)).head (k % NBUCKETS) := by
  induction n with
  | zero => intro k hk; omega
  | succ n ih =>
    intro k hk
    rw [List.range_succ, List.foldl_append]
    simp only [List.foldl_cons, List.foldl_nil]
    by_cases hkn : k = n
    · subst hkn
      exact (binit_buf_mem _ k).1
    · exact (binit_buf_mem _ n).2 k _ (ih k (by omega))

theorem released_placed {nbuf : Nat} {s : Bcache} {t : Nat} {rel : Nat → Nat}
    (hr : Released nbuf pinsReferenced s t rel) : Placed (fun r => r = 0) s := by
  induction hr with
  | init => exact binit_placed (fun r => r = 0) rfl nbuf
  | step s t rel c s' _ hg hex ih =>
    refine exec_placed ih (fun b hc => ?_) hex
    left
    have hb : b < s.nbuf ∧ 0 < (s.buf b).refcnt := by
      rcases hc with rfl | rfl
      · constructor
        · by_contra hlt
          simp [exec, hlt] at hex
        · simpa [pinsReferenced] using hg
      · constructor
        · by_contra hlt
          simp [exec, hlt] at hex
        · simpa [pinsReferenced] using hg
    rcases ih b hb.1 with hl | ⟨-, -, h0⟩
    · exact hl
    · omega

/-- C13 (amended). Identity uniqueness: in every state reachable from `binit`
by `bget`, `bread`, `bwrite`, `brelse`, `bpin` and `bunpin` calls run one at a
time, two distinct buffers of the pool carry the same `(dev, blockno)`
identity only if it is the identity `dev = -1` (4294967295 as a `uint`),
`blockno = 0` that `binit` gives to every buffer. -/
theorem C13_identity_unique (nbuf : Nat) (s : Bcache) (hr : Reachable nbuf s) (x y : Nat)
    (hx : x < nbuf) (hy : y < nbuf) (hxy : x ≠ y) (hd : (s.buf x).dev = (s.buf y).dev)
    (hb : (s.buf x).blockno = (s.buf y).blockno) :
    (s.buf x).dev = 4294967295 ∧ (s.buf x).blockno = 0 := by
  have hn := (reachable_partition hr).2
  exact reachable_unique hr x y (by rw [hn]; exact hx) (by rw [hn]; exact hy) hxy hd hb

/-- C13 (amended) on a cache of 30 buffers after `bget(1, 5)` and
`bget(1, 16)`: buffers 0 and 1 still carry the same identity, the initial
one, while buffers 4 and 17 carry `(1, 5)` and `(1, 16)`. -/
theorem C13_identity_unique_witness :
    Reachable 30 (after 30 [Call.bget 1 1 5, Call.bget 2 1 16]) ∧
    ((after 30 [Call.bget 1 1 5, Call.bget 2 1 16]).buf 4).dev = 1 ∧
    ((after 30 [Call.bget 1 1 5, Call.bget 2 1 16]).buf 4).blockno = 5 ∧
    ((after 30 [Call.bget 1 1 5, Call.bget 2 1 16]).buf 17).dev = 1 ∧
    ((after 30 [Call.bget 1 1 5, Call.bget 2 1 16]).buf 17).blockno = 16 ∧
    ((after 30 [Call.bget 1 1 5, Call.bget 2 1 16]).buf 0).dev
      = ((after 30 [Call.bget 1 1 5, Call.bget 2 1 16]).buf 1).dev ∧
    ((after 30 [Call.bget 1 1 5, Call.bget 2 1 16]).buf 0).blockno
      = ((after 30 [Call.bget 1 1 5, Call.bget 2 1 16]).buf 1).blockno ∧
    ((after 30 [Call.bget 1 1 5, Call.bget 2 1 16]).buf 0).dev = 4294967295 ∧
    ((after 30 [Call.bget 1 1 5, Call.bget 2 1 16]).buf 0).blockno = 0 :=
  ⟨after_reachable 30 _ (by decide), by decide, by decide, by decide, by decide, by decide,
    by decide,
    C13_identity_unique 30 _ (after_reachable 30 _ (by decide)) 0 1 (by decide) (by decide)
      (by decide) (by decide) (by decide)⟩

/-- C13 as stated fails in the state `binit` leaves, and any time later as
long as two buffers were never repurposed: on a cache of 30 buffers, buffers 0
and 1 are distinct buffers of the pool and both carry the identity
`(4294967295, 0)`, right after `binit` and after `bget(1, 5)` and
`brelse` of the buffer it returned. -/
theorem C13_counterexample :
    Reachable 30 (binit 30) ∧ 0 < 30 ∧ 1 < 30 ∧
    ((binit 30).buf 0).dev = ((binit 30).buf 1).dev ∧
    ((binit 30).buf 0).blockno = ((binit 30).buf 1).blockno ∧
    Reachable 30 (after 30 [Call.bget 1 1 5, Call.brelse 1 4]) ∧
    ((after 30 [Call.bget 1 1 5, Call.brelse 1 4]).buf 0).dev
      = ((after 30 [Call.bget 1 1 5, Call.brelse 1 4]).buf 1).dev ∧
    ((after 30 [Call.bget 1 1 5, Call.brelse 1 4]).buf 0).blockno
      = ((after 30 [Call.bget 1 1 5, Call.brelse 1 4]).buf 1).blockno :=
  ⟨Reachable.init, by decide, by decide, by decide, by decide,
    after_reachable 30 _ (by decide), by decide, by decide⟩

/-- C19. Bucket-location invariant: in every state reachable from `binit` by
`bget`, `bread`, `bwrite`, `brelse`, `bpin` and `bunpin` calls run one at a
time, `bpin` and `bunpin` being applied only to buffers with `refcnt > 0`,
every buffer of the pool with `refcnt > 0`, and every buffer whose sleeplock
is held, is linked in bucket `(dev ^ blockno) % NBUCKETS` of its own current
identity, the bucket that `brelse`, `bpin` and `bunpin` lock and relink in;
while `binit` links buffer `k` in bucket `k % NBUCKETS` and gives it the
identity `dev = -1`, `blockno = 0`, of bucket 8. -/
theorem C19_bucket_location (nbuf : Nat) (s : Bcache) (t : Nat) (rel : Nat → Nat)
    (hr : Released nbuf pinsReferenced s t rel) (x : Nat) (hx : x < nbuf)
    (hp : 0 < (s.buf x).refcnt ∨ (s.buf x).lock ≠ none) :
    x ∈ s.head (hash (s.buf x).dev (s.buf x).blockno) ∧
    x ∈ (binit nbuf).head (x % NBUCKETS) ∧
    hash ((binit nbuf).buf x).dev ((binit nbuf).buf x).blockno = 8 := by
  have hn := (reachable_partition (released_reachable hr)).2
  refine ⟨?_, binit_loop_mem nbuf nbuf x hx, ?_⟩
  · rcases released_placed hr x (by rw [hn]; exact hx) with hl | ⟨-, h1, h2⟩
    · exact hl
    · rcases hp with hp | hp
      · omega
      · exact absurd h1 hp
  · rw [binit_fresh nbuf x hx]
    decide

/-- C19 on a cache of 30 buffers after `bget(1, 5)`, `bpin` of the buffer
returned (buffer 4) and `brelse` of it: buffer 4 has `refcnt = 1` and is
linked in bucket 4, the bucket of `(1, 5)`. -/
theorem C19_bucket_location_witness :
    ((trace pinsReferenced 30 [Call.bget 1 1 5, Call.bpin 4, Call.brelse 1 4]).1.buf 4).refcnt
      = 1 ∧
    hash 1 5 = 4 ∧
    (trace pinsReferenced 30 [Call.bget 1 1 5, Call.bpin 4, Call.brelse 1 4]).2.1 = 3 ∧
    4 ∈ (trace pinsReferenced 30 [Call.bget 1 1 5, Call.bpin 4, Call.brelse 1 4]).1.head
      (hash
        ((trace pinsReferenced 30 [Call.bget 1 1 5, Call.bpin 4, Call.brelse 1 4]).1.buf 4).dev
        ((trace pinsReferenced 30
          [Call.bget 1 1 5, Call.bpin 4, Call.brelse 1 4]).1.buf 4).blockno) ∧
    4 ∈ (binit 30).head (4 % NBUCKETS) ∧
    hash ((binit 30).buf 4).dev ((binit 30).buf 4).blockno = 8 :=
  ⟨by decide, by decide, by decide,
    C19_bucket_location 30 _ _ _
      (trace_released pinsReferenced 30 [Call.bget 1 1 5, Call.bpin 4, Call.brelse 1 4]) 4
      (by decide) (Or.inl (by decide))⟩

/-! ## Reference counts -/

theorem bget_refcnt {pid dev blockno : Nat} {s : Bcache} {b : Nat} {s' : Bcache}
    (h : bget pid dev blockno s = Result.ret b s') :
    (s'.buf b).refcnt = ((s.buf b).refcnt + 1) % UINT := by
  obtain ⟨s1, hs, -, rfl⟩ := bget_ret h
  rw [← (select_shape hs).2.1]
  simp [setBuf]

theorem ownStep_owned {nbuf : Nat} {h : Bcache × (Nat → Option Nat)}
    (hr : Owned nbuf h.1 h.2) (c : Call) : Owned nbuf (ownStep h c).1 (ownStep h c).2 := by
  unfold ownStep
  cases hx : exec c h.1 with
  | none => exact hr
  | some s' => exact Owned.step h.1 h.2 c s' hr hx

theorem foldl_owned {nbuf : Nat} (cs : List Call) (h : Bcache × (Nat → Option Nat))
    (hr : Owned nbuf h.1 h.2) :
    Owned nbuf (cs.foldl ownStep h).1 (cs.foldl ownStep h).2 := by
  induction cs generalizing h with
  | nil => exact hr
  | cons c cs ih => exact ih _ (ownStep_owned hr c)

theorem owners_owned (nbuf : Nat) (cs : List Call) :
    Owned nbuf (owners nbuf cs).1 (owners nbuf cs).2 :=
  foldl_owned cs _ Owned.init

/-- The sleeplock of a buffer is held exactly by the process the buffer was
handed to and that has not released it. -/
theorem owned_lock {nbuf : Nat} {s : Bcache} {H : Nat → Option Nat} (hr : Owned nbuf s H) :
    ∀ x, (s.buf x).lock = H x := by
  induction hr with
  | init => exact fun x => (binit_buf_fresh nbuf x).2.1
  | step s H c s' _ hex ih =>
    intro x
    rcases exec_cases hex with ⟨pid, dev, blockno, b, rfl, hb⟩ |
      ⟨pid, dev, blockno, b, rfl, hb⟩ | ⟨pid, b, rfl, -, hb⟩ | ⟨pid, b, rfl, -, hb⟩ |
      ⟨b, rfl, -, rfl⟩ | ⟨b, rfl, -, rfl⟩ | ⟨pid, dev, blockno, b, s1, rfl, hb, rfl⟩ |
      ⟨pid, dev, blockno, b, s1, rfl, hb, rfl⟩ | ⟨pid, b, read, rfl, -, -, rfl⟩
    · obtain ⟨-, h2, -, h4, -⟩ := bget_shape hb
      simp only [own, hb]
      by_cases hx : x = b
      · subst hx; rw [Function.update_same, h2]
      · rw [Function.update_noteq hx, h4 x hx, ih x]
    · obtain ⟨-, h2, -, -, -, -, -, -, h9⟩ := bread_facts hb
      simp only [own, hb]
      by_cases hx : x = b
      · subst hx; rw [Function.update_same, h9]
      · rw [Function.update_noteq hx, h2 x hx, ih x]
    · rw [(bwrite_ret hb).2]
      exact ih x
    · obtain ⟨-, -, h2, h3, -⟩ := brelse_facts hb
      simp only [own]
      by_cases hx : x = b
      · subst hx; rw [Function.update_same, h2]
      · rw [Function.update_noteq hx, h3 x hx, ih x]
    · simp only [own]
      rw [← ih x]
      by_cases hx : x = b
      · subst hx; simp [bpin, setBuf]
      · simp [bpin, setBuf, Function.update_noteq hx]
    · simp only [own]
      rw [← ih x]
      by_cases hx : x = b
      · subst hx; simp [bunpin, setBuf]
      · simp [bunpin, setBuf, Function.update_noteq hx]
    · obtain ⟨hsel, -⟩ := bget_sleep hb
      obtain ⟨e1, -, e3, -⟩ := select_shape hsel
      simp only [own, hb]
      rw [← ih x]
      show (s1.buf x).lock = (s.buf x).lock
      by_cases hx : x = b
      · subst hx; exact e1
      · rw [e3 x hx]
    · obtain ⟨hsel, -⟩ := bget_sleep (bread_sleep hb)
      obtain ⟨e1, -, e3, -⟩ := select_shape hsel
      simp only [own, hb]
      rw [← ih x]
      show (s1.buf x).lock = (s.buf x).lock
      by_cases hx : x = b
      · subst hx; exact e1
      · rw [e3 x hx]
    · obtain ⟨-, -, -, r4, -, -, -, r8⟩ := resume_facts ⟨pid, b, read⟩ s
      simp only [own]
      by_cases hx : x = b
      · subst hx; rw [Function.update_same, r8]
      · rw [Function.update_noteq hx, r4 x hx, ih x]

theorem bwrite_brelse_panic {s : Bcache} {pid b : Nat} (h : (s.buf b).lock ≠ some pid) :
    bwrite pid b s = Result.panic Panic.bwrite s ∧
    brelse pid b s = Result.panic Panic.brelse s := by
  have hh : holdingsleep pid b s = false := by
    unfold holdingsleep
    simpa using h
  constructor
  · unfold bwrite
    simp [hh]
  · unfold brelse
    simp [hh]

theorem bwrite_brelse_ret {s : Bcache} {pid b : Nat} (h : (s.buf b).lock = some pid) :
    (∃ s', bwrite pid b s = Result.ret () s') ∧ ∃ s', brelse pid b s = Result.ret () s' := by
  have hh : holdingsleep pid b s = true := by
    unfold holdingsleep
    simpa using h
  constructor
  · unfold bwrite
    simp [hh]
  · unfold brelse
    simp only [hh, Bool.not_true, Bool.false_eq_true, if_false]
    split_ifs <;> exact ⟨_, rfl⟩

/-- C15. `bwrite(b)` and `brelse(b)` panic whenever the caller does not hold
the sleeplock of `b`, and the state at the moment of the panic is the state
in which the call was made: every `refcnt`, list and identity is unchanged
and no request was issued to the driver. In every state reachable from
`binit` by calls run one at a time (a call that has to wait for a sleeplock
being suspended and resumed later), the sleeplock of `b` is held by `pid`
exactly when `b` was returned to `pid` by a `bget` or `bread` that no
`brelse(b)` has matched since; so `bwrite(b)` and `brelse(b)` by `pid`
complete only for such a buffer, and do complete for it. -/
theorem C15_write_release_need_lock (nbuf : Nat) (s : Bcache) (H : Nat → Option Nat)
    (hr : Owned nbuf s H) (pid b : Nat) :
    ((s.buf b).lock ≠ some pid →
      bwrite pid b s = Result.panic Panic.bwrite s ∧
      brelse pid b s = Result.panic Panic.brelse s) ∧
    (s.buf b).lock = H b ∧
    ((∃ s', bwrite pid b s = Result.ret () s') ↔ H b = some pid) ∧
    ((∃ s', brelse pid b s = Result.ret () s') ↔ H b = some pid) := by
  have hl := owned_lock hr b
  refine ⟨bwrite_brelse_panic, hl, ⟨?_, fun h => ?_⟩, ⟨?_, fun h => ?_⟩⟩
  · rintro ⟨s', hs'⟩
    rw [← hl]
    exact (bwrite_ret hs').1
  · exact (bwrite_brelse_ret (hl.trans h)).1
  · rintro ⟨s', hs'⟩
    rw [← hl]
    exact (brelse_ret hs').1
  · exact (bwrite_brelse_ret (hl.trans h)).2

/-- C15 on a cache of 30 buffers after `bread(1, 5)` by process 1 (which
returns buffer 4), `bget(1, 16)` by process 2 (buffer 17) and `brelse` of
buffer 17: buffer 4 is on record for process 1 and buffer 17 for nobody, so
`bwrite` and `brelse` of buffer 17 by process 2 panic in the state they were
called in. And when `bget(1, 5)` by process 2 had to wait for buffer 4, the
buffer is on record for process 2 once that call is resumed. -/
theorem C15_write_release_need_lock_witness :
    (owners 30 [Call.bread 1 1 5, Call.bget 2 1 16, Call.brelse 2 17]).2 4 = some 1 ∧
    (owners 30 [Call.bread 1 1 5, Call.bget 2 1 16, Call.brelse 2 17]).2 17 = none ∧
    (owners 30 [Call.bget 1 1 5, Call.bget 2 1 5]).2 4 = some 1 ∧
    (owners 30 [Call.bget 1 1 5, Call.bget 2 1 5, Call.brelse 1 4, Call.wakeup 2 4 false]).2 4
      = some 2 ∧
    bwrite 2 17 (owners 30 [Call.bread 1 1 5, Call.bget 2 1 16, Call.brelse 2 17]).1
      = Result.panic Panic.bwrite
          (owners 30 [Call.bread 1 1 5, Call.bget 2 1 16, Call.brelse 2 17]).1 ∧
    brelse 2 17 (owners 30 [Call.bread 1 1 5, Call.bget 2 1 16, Call.brelse 2 17]).1
      = Result.panic Panic.brelse
          (owners 30 [Call.bread 1 1 5, Call.bget 2 1 16, Call.brelse 2 17]).1 ∧
    ((∃ s', bwrite 1 4 (owners 30 [Call.bread 1 1 5, Call.bget 2 1 16, Call.brelse 2 17]).1
        = Result.ret () s') ↔
      (owners 30 [Call.bread 1 1 5, Call.bget 2 1 16, Call.brelse 2 17]).2 4 = some 1) :=
  ⟨by decide, by decide, by decide, by decide,
    ((C15_write_release_need_lock 30 _ _
      (owners_owned 30 [Call.bread 1 1 5, Call.bget 2 1 16, Call.brelse 2 17]) 2 17).1
        (by decide)).1,
    rfl,
    (C15_write_release_need_lock 30 _ _
      (owners_owned 30 [Call.bread 1 1 5, Call.bget 2 1 16, Call.brelse 2 17]) 1 4).2.2.1⟩

/-- C18. `brelse(b)` on a buffer held by the caller returns, having
decremented the `refcnt` of `b` by one (in `uint` arithmetic; by one exactly
when `refcnt >= 1`). If the result is 0, `b` is moved to the head of bucket
`(b.dev ^ b.blockno) % NBUCKETS`, the other buffers of that bucket keeping
their relative order, and no other buffer is moved; if the result is `> 0`
every bucket list is unchanged. In both cases the identity and the valid flag
of `b`, all other buffers and the driver trace are unchanged, and the
sleeplock of `b` is free. -/
theorem C18_brelse_moves_to_head (s : Bcache) (pid b : Nat)
    (hl : (s.buf b).lock = some pid) :
    ∃ s', brelse pid b s = Result.ret () s' ∧
      (s'.buf b).refcnt = ((s.buf b).refcnt + UINT - 1) % UINT ∧
      (1 ≤ (s.buf b).refcnt → (s.buf b).refcnt < UINT →
        (s'.buf b).refcnt + 1 = (s.buf b).refcnt) ∧
      ((s'.buf b).refcnt = 0 →
        s'.head (hash (s.buf b).dev (s.buf b).blockno)
            = b :: (s.head (hash (s.buf b).dev (s.buf b).blockno)).filter (fun x => x != b) ∧
          (∀ j, j ≠ hash (s.buf b).dev (s.buf b).blockno →
            s'.head j = (s.head j).filter (fun x => x != b)) ∧
          ∀ j, j ≠ hash (s.buf b).dev (s.buf b).blockno → b ∉ s.head j →
            s'.head j = s.head j) ∧
      ((s'.buf b).refcnt ≠ 0 → s'.head = s.head) ∧
      (s'.buf b).dev = (s.buf b).dev ∧ (s'.buf b).blockno = (s.buf b).blockno ∧
      (s'.buf b).valid = (s.buf b).valid ∧ (s'.buf b).lock = none ∧
      (∀ x, x ≠ b → s'.buf x = s.buf x) ∧ s'.disk = s.disk ∧ s'.nbuf = s.nbuf := by
  obtain ⟨s', hs'⟩ := (bwrite_brelse_ret hl).2
  obtain ⟨h1, -, h2, h3, h4, h5, h6, h7, -, -⟩ := brelse_facts hs'
  refine ⟨s', hs', h7, fun hr1 hr2 => ?_, ?_, ?_, h4, h5, h6, h2, h3, ?_, h1⟩
  · rw [h7, uint_dec hr1 hr2]
    omega
  · intro h0
    rcases (brelse_ret hs').2 with ⟨-, rfl⟩ | ⟨hne, -⟩
    · refine ⟨?_, fun j hj => ?_, fun j hj hb => ?_⟩
      · simp [insertHead, unlink, setBuf, releasesleep]
      · simp [insertHead, unlink, setBuf, releasesleep, Function.update_noteq hj]
      · simp only [insertHead, unlink, setBuf, releasesleep, Function.update_noteq hj]
        exact filter_ne_self hb
    · rw [h7] at h0
      exact absurd h0 hne
  · intro hne
    rcases (brelse_ret hs').2 with ⟨h0, -⟩ | ⟨-, rfl⟩
    · rw [h7] at hne
      exact absurd h0 hne
    · rfl
  · rcases (brelse_ret hs').2 with ⟨-, rfl⟩ | ⟨-, rfl⟩ <;> rfl

/-- C18 on a cache of 30 buffers where buffers 4 and 17 of bucket 4 are held
for blocks `(1, 5)` and `(1, 16)`: the list of bucket 4 is 17, 4 and `brelse`
of buffer 4 by its holder makes it 4, 17. -/
theorem C18_brelse_moves_to_head_witness :
    ((after 30 [Call.bget 1 1 5, Call.bget 2 1 16]).buf 4).lock = some 1 ∧
    (after 30 [Call.bget 1 1 5, Call.bget 2 1 16]).head 4 = [17, 4] ∧
    brelse 1 4 (after 30 [Call.bget 1 1 5, Call.bget 2 1 16])
      = Result.ret () (after 30 [Call.bget 1 1 5, Call.bget 2 1 16, Call.brelse 1 4]) ∧
    (after 30 [Call.bget 1 1 5, Call.bget 2 1 16, Call.brelse 1 4]).head 4 = [4, 17] ∧
    ∃ s', brelse 1 4 (after 30 [Call.bget 1 1 5, Call.bget 2 1 16]) = Result.ret () s' ∧
      (s'.buf 4).refcnt
        = (((after 30 [Call.bget 1 1 5, Call.bget 2 1 16]).buf 4).refcnt + UINT - 1) % UINT ∧
      (1 ≤ ((after 30 [Call.bget 1 1 5, Call.bget 2 1 16]).buf 4).refcnt →
        ((after 30 [Call.bget 1 1 5, Call.bget 2 1 16]).buf 4).refcnt < UINT →
        (s'.buf 4).refcnt + 1 = ((after 30 [Call.bget 1 1 5, Call.bget 2 1 16]).buf 4).refcnt) ∧
      ((s'.buf 4).refcnt = 0 →
        s'.head (hash ((after 30 [Call.bget 1 1 5, Call.bget 2 1 16]).buf 4).dev
              ((after 30 [Call.bget 1 1 5, Call.bget 2 1 16]).buf 4).blockno)
            = 4 :: ((after 30 [Call.bget 1 1 5, Call.bget 2 1 16]).head
                (hash ((after 30 [Call.bget 1 1 5, Call.bget 2 1 16]).buf 4).dev
                  ((after 30 [Call.bget 1 1 5, Call.bget 2 1 16]).buf 4).blockno)).filter
                (fun x => x != 4) ∧
          (∀ j, j ≠ hash ((after 30 [Call.bget 1 1 5, Call.bget 2 1 16]).buf 4).dev
                ((after 30 [Call.bget 1 1 5, Call.bget 2 1 16]).buf 4).blockno →
            s'.head j
              = ((after 30 [Call.bget 1 1 5, Call.bget 2 1 16]).head j).filter
                  (fun x => x != 4)) ∧
          ∀ j, j ≠ hash ((after 30 [Call.bget 1 1 5, Call.bget 2 1 16]).buf 4).dev
                ((after 30 [Call.bget 1 1 5, Call.bget 2 1 16]).buf 4).blockno →
            4 ∉ (after 30 [Call.bget 1 1 5, Call.bget 2 1 16]).head j →
            s'.head j = (after 30 [Call.bget 1 1 5, Call.bget 2 1 16]).head j) ∧
      ((s'.buf 4).refcnt ≠ 0 →
        s'.head = (after 30 [Call.bget 1 1 5, Call.bget 2 1 16]).head) ∧
      (s'.buf 4).dev = ((after 30 [Call.bget 1 1 5, Call.bget 2 1 16]).buf 4).dev ∧
      (s'.buf 4).blockno = ((after 30 [Call.bget 1 1 5, Call.bget 2 1 16]).buf 4).blockno ∧
      (s'.buf 4).valid = ((after 30 [Call.bget 1 1 5, Call.bget 2 1 16]).buf 4).valid ∧
      (s'.buf 4).lock = none ∧
      (∀ x, x ≠ 4 → s'.buf x = (after 30 [Call.bget 1 1 5, Call.bget 2 1 16]).buf x) ∧
      s'.disk = (after 30 [Call.bget 1 1 5, Call.bget 2 1 16]).disk ∧
      s'.nbuf = (after 30 [Call.bget 1 1 5, Call.bget 2 1 16]).nbuf :=
  ⟨by decide, by decide, rfl, by decide,
    C18_brelse_moves_to_head (after 30 [Call.bget 1 1 5, Call.bget 2 1 16]) 1 4 (by decide)⟩

end Bio

namespace Spinlock

/-! ## Lock discipline -/

theorem disciplined_append (a b : List Ev) :
    ∀ held, disciplined held a = true → disciplined none b = true →
      disciplined held (a ++ b) = true := by
  induction a with
  | nil =>
    intro held ha hb
    cases held with
    | none => simpa using hb
    | some l => simp [disciplined] at ha
  | cons e es ih =>
    intro held ha hb
    cases e <;>
      simp only [List.cons_append, disciplined, Bool.and_eq_true] at ha ⊢
    · exact ⟨ha.1, ih _ ha.2 hb⟩
    · exact ⟨ha.1, ih _ ha.2 hb⟩
    · exact ⟨ha.1, ih _ ha.2 hb⟩
    · exact ih _ ha hb
    · exact ⟨ha.1, ih _ ha.2 hb⟩
    · exact ⟨ha.1, ih _ ha.2 hb⟩

theorem steal_events_disciplined (s : Bio.Bcache) (h : Nat) (is : List Nat) :
    disciplined none (Bio.steal_events s h is) = true := by
  induction is with
  | nil => rfl
  | cons i is ih =>
    unfold Bio.steal_events
    split_ifs
    · exact ih
    · cases Bio.victim s i with
      | some b => simp [disciplined]
      | none => simpa [disciplined] using ih

theorem bget_events_disciplined (dev blockno : Nat) (s : Bio.Bcache) :
    disciplined none (Bio.bget_events dev blockno s) = true := by
  unfold Bio.bget_events
  dsimp only
  cases Bio.lookup s (Bio.hash dev blockno) dev blockno with
  | some b => simp [disciplined]
  | none =>
    cases Bio.victim s (Bio.hash dev blockno) with
    | some b => simp [disciplined]
    | none => simpa [disciplined] using steal_events_disciplined s _ _

theorem kalloc_steal_events_disciplined (s : Kalloc.Kmem) (cpu : Nat) (is : List Nat) :
    disciplined none (Kalloc.kalloc_steal_events s cpu is) = true := by
  induction is with
  | nil => rfl
  | cons i is ih =>
    unfold Kalloc.kalloc_steal_events
    split_ifs
    · exact ih
    · simp [disciplined]
    · simpa [disciplined] using ih

theorem steal_events_outcome (s : Bio.Bcache) (h : Nat) (is : List Nat) :
    (Ev.panic ∈ Bio.steal_events s h is ↔ Bio.steal s h is = none) ∧
    ∀ b, Ev.acquiresleep b ∈ Bio.steal_events s h is ↔ ∃ i, Bio.steal s h is = some (i, b) := by
  induction is with
  | nil => simp [Bio.steal_events, Bio.steal]
  | cons i is ih =>
    unfold Bio.steal_events Bio.steal
    split_ifs
    · exact ih
    · cases Bio.victim s i with
      | some b => simp [eq_comm]
      | none => simpa using ih

/-- The events of `bget` end in `acquiresleep(&b->lock)` on the buffer that
`bget` has chosen, and hold a `panic` exactly when `bget` panics. -/
theorem bget_events_outcome (dev blockno : Nat) (s : Bio.Bcache) :
    (Ev.panic ∈ Bio.bget_events dev blockno s ↔ Bio.bget_select dev blockno s = none) ∧
    ∀ b, Ev.acquiresleep b ∈ Bio.bget_events dev blockno s ↔
      ∃ s1, Bio.bget_select dev blockno s = some (b, s1) := by
  unfold Bio.bget_events Bio.bget_select
  dsimp only
  cases Bio.lookup s (Bio.hash dev blockno) dev blockno with
  | some b => simp [eq_comm]
  | none =>
    cases Bio.victim s (Bio.hash dev blockno) with
    | some b => simp [eq_comm]
    | none =>
      obtain ⟨h1, h2⟩ := steal_events_outcome s (Bio.hash dev blockno) (List.range Bio.NBUCKETS)
      cases hst : Bio.steal s (Bio.hash dev blockno) (List.range Bio.NBUCKETS) with
      | none =>
        rw [hst] at h1 h2
        simp only [List.mem_cons, reduceCtorEq, false_or] at h1 h2 ⊢
        refine ⟨by simpa using h1, fun b => ?_⟩
        simpa using h2 b
      | some p =>
        rw [hst] at h1 h2
        simp only [List.mem_cons, reduceCtorEq, false_or] at h1 h2 ⊢
        refine ⟨by simpa using h1, fun b => ?_⟩
        rw [h2 b]
        constructor
        · rintro ⟨i, hi⟩
          cases hi
          exact ⟨_, rfl⟩
        · rintro ⟨s1, hs1⟩
          cases hs1
          exact ⟨p.1, rfl⟩

/-- C16. Lock discipline: on every execution path of `bget` (hit, local
reuse, cross-shard borrow, panic), `bread`, `bwrite`, `brelse`, `bpin`,
`bunpin`, `kfree` and `kalloc`, in every state and for all arguments, the
executing thread acquires a spinlock only while it holds none (so it never
holds two bucket locks or two allocator locks at the same moment), releases
only the spinlock it holds, holds no spinlock when `acquiresleep` or the disk
driver is called, and holds none when the operation returns or panics. -/
theorem C16_lock_discipline :
    (∀ dev blockno s, disciplined none (Bio.bget_events dev blockno s) = true) ∧
    (∀ pid dev blockno s, disciplined none (Bio.bread_events pid dev blockno s) = true) ∧
    (∀ pid b s, disciplined none (Bio.bwrite_events pid b s) = true) ∧
    (∀ pid b s, disciplined none (Bio.brelse_events pid b s) = true) ∧
    (∀ b s, disciplined none (Bio.bpin_events b s) = true) ∧
    (∀ b s, disciplined none (Bio.bunpin_events b s) = true) ∧
    (∀ cfg cpu pa s, disciplined none (Kalloc.kfree_events cfg cpu pa s) = true) ∧
    (∀ cfg cpu s, disciplined none (Kalloc.kalloc_events cfg cpu s) = true) := by
  refine ⟨bget_events_disciplined, fun pid dev blockno s => ?_, fun pid b s => ?_,
    fun pid b s => ?_, fun b s => ?_, fun b s => ?_, fun cfg cpu pa s => ?_,
    fun cfg cpu s => ?_⟩
  · unfold Bio.bread_events
    apply disciplined_append _ _ _ (bget_events_disciplined dev blockno s)
    cases Bio.bget pid dev blockno s with
    | ret b s1 =>
      simp only
      split_ifs <;> rfl
    | sleep b s1 => rfl
    | panic m => rfl
  · unfold Bio.bwrite_events
    split_ifs <;> rfl
  · unfold Bio.brelse_events
    split_ifs
    · rfl
    · simp [disciplined]
  · simp [Bio.bpin_events, disciplined]
  · simp [Bio.bunpin_events, disciplined]
  · unfold Kalloc.kfree_events
    split_ifs <;> simp [disciplined]
  · unfold Kalloc.kalloc_events
    split_ifs
    · simpa [disciplined] using kalloc_steal_events_disciplined s cpu _
    · simp [disciplined]

end Spinlock

namespace Bio

/-! ## Concurrent `bget` -/

theorem solo_add (pid dev blockno m n : Nat) (c : Pc × Bcache) :
    solo pid dev blockno (m + n) c = solo pid dev blockno m (solo pid dev blockno n c) := by
  unfold solo
  exact Function.iterate_add_apply _ m n c

theorem solo_scan (pid dev blockno : Nat) (s : Bcache) (is : List Nat) :
    (∀ i b, steal s (hash dev blockno) is = some (i, b) →
      ∃ n, solo pid dev blockno n (Pc.scan is, s)
        = (Pc.insert b, recycle (unlink s b) b dev blockno)) ∧
    (steal s (hash dev blockno) is = none →
      ∃ n, solo pid dev blockno n (Pc.scan is, s) = (Pc.panicked, s)) := by
  induction is with
  | nil =>
    refine ⟨fun i b h => (by simp [steal] at h), fun _ => ⟨1, rfl⟩⟩
  | cons j js ih =>
    have hstep : ∀ c, (∃ n, solo pid dev blockno n
        (bget_step pid dev blockno (Pc.scan (j :: js)) s) = c) →
        ∃ n, solo pid dev blockno n (Pc.scan (j :: js), s) = c := by
      rintro c ⟨n, hn⟩
      refine ⟨n + 1, ?_⟩
      rw [solo_add]
      exact hn
    by_cases hj : j = hash dev blockno
    · have e : bget_step pid dev blockno (Pc.scan (j :: js)) s = (Pc.scan js, s) := by
        simp [bget_step, hj]
      have e2 : steal s (hash dev blockno) (j :: js) = steal s (hash dev blockno) js := by
        simp [steal, hj]
      rw [e2]
      exact ⟨fun i b h => hstep _ (by rw [e]; exact ih.1 i b h),
        fun h => hstep _ (by rw [e]; exact ih.2 h)⟩
    · cases hv : victim s j with
      | some b0 =>
        have e : bget_step pid dev blockno (Pc.scan (j :: js)) s
            = (Pc.insert b0, recycle (unlink s b0) b0 dev blockno) := by
          simp [bget_step, hj, hv]
        have e2 : steal s (hash dev blockno) (j :: js) = some (j, b0) := by
          simp [steal, hj, hv]
        rw [e2]
        refine ⟨fun i b h => ?_, fun h => (by cases h)⟩
        cases h
        exact hstep _ ⟨0, by rw [e]; rfl⟩
      | none =>
        have e : bget_step pid dev blockno (Pc.scan (j :: js)) s = (Pc.scan js, s) := by
          simp [bget_step, hj, hv]
        have e2 : steal s (hash dev blockno) (j :: js) = steal s (hash dev blockno) js := by
          simp [steal, hj, hv]
        rw [e2]
        exact ⟨fun i b h => hstep _ (by rw [e]; exact ih.1 i b h),
          fun h => hstep _ (by rw [e]; exact ih.2 h)⟩

/-- A thread running alone reaches `acquiresleep` on the buffer chosen by
`bget_select`, in the state `bget_select` gives, or panics when `bget_select`
does. -/
theorem solo_select (pid dev blockno : Nat) (s : Bcache) :
    (∀ b s1, bget_select dev blockno s = some (b, s1) →
      ∃ n, solo pid dev blockno n (Pc.start, s) = (Pc.lock b, s1)) ∧
    (bget_select dev blockno s = none →
      ∃ n, solo pid dev blockno n (Pc.start, s) = (Pc.panicked, s)) := by
  have hstep : ∀ c, (∃ n, solo pid dev blockno n (bget_step pid dev blockno Pc.start s) = c) →
      ∃ n, solo pid dev blockno n (Pc.start, s) = c := by
    rintro c ⟨n, hn⟩
    refine ⟨n + 1, ?_⟩
    rw [solo_add]
    exact hn
  unfold bget_select
  dsimp only
  cases hl : lookup s (hash dev blockno) dev blockno with
  | some b0 =>
    refine ⟨fun b s1 h => ?_, fun h => (by cases h)⟩
    cases h
    exact hstep _ ⟨0, by simp [bget_step, hl, solo]⟩
  | none =>
    cases hv : victim s (hash dev blockno) with
    | some b0 =>
      refine ⟨fun b s1 h => ?_, fun h => (by cases h)⟩
      cases h
      exact hstep _ ⟨0, by simp [bget_step, hl, hv, solo]⟩
    | none =>
      have e : bget_step pid dev blockno Pc.start s = (Pc.scan (List.range NBUCKETS), s) := by
        simp [bget_step, hl, hv]
      obtain ⟨h1, h2⟩ := solo_scan pid dev blockno s (List.range NBUCKETS)
      cases hst : steal s (hash dev blockno) (List.range NBUCKETS) with
      | none =>
        refine ⟨fun b s1 h => (by cases h), fun _ => hstep _ ?_⟩
        rw [e]
        exact h2 hst
      | some p =>
        obtain ⟨i, b0⟩ := p
        refine ⟨fun b s1 h => ?_, fun h => (by cases h)⟩
        cases h
        obtain ⟨n, hn⟩ := h1 i b0 hst
        refine hstep _ ⟨1 + n, ?_⟩
        rw [e, solo_add, hn]
        rfl

/-- A thread running one `bget` alone behaves as the function `bget`: it
returns the same buffer in the same state, sleeps on the same buffer, or
panics. -/
theorem solo_bget (pid dev blockno : Nat) (s : Bcache) :
    (∀ b s', bget pid dev blockno s = Result.ret b s' →
      ∃ n, solo pid dev blockno n (Pc.start, s) = (Pc.done b, s')) ∧
    (∀ b s1, bget pid dev blockno s = Result.sleep b s1 →
      ∃ n, ∀ m, solo pid dev blockno (m + n) (Pc.start, s) = (Pc.lock b, s1)) ∧
    (bget pid dev blockno s = Result.panic Panic.bget_no_buffers s →
      ∃ n, solo pid dev blockno n (Pc.start, s) = (Pc.panicked, s)) := by
  obtain ⟨h1, h2⟩ := solo_select pid dev blockno s
  unfold bget
  cases hsel : bget_select dev blockno s with
  | none =>
    refine ⟨fun b s' h => (by cases h), fun b s1 h => (by cases h), fun _ => h2 hsel⟩
  | some p =>
    obtain ⟨b0, s0⟩ := p
    obtain ⟨n, hn⟩ := h1 b0 s0 hsel
    simp only
    unfold acquiresleep
    cases hlk : (s0.buf b0).lock with
    | none =>
      refine ⟨fun b s' h => ?_, fun b s1 h => (by cases h), fun h => (by cases h)⟩
      cases h
      refine ⟨1 + n, ?_⟩
      rw [solo_add, hn]
      simp [solo, bget_step, hlk]
    | some q =>
      refine ⟨fun b s' h => (by cases h), fun b s1 h => ?_, fun h => (by cases h)⟩
      cases h
      refine ⟨n, fun m => ?_⟩
      rw [solo_add, hn]
      induction m with
      | zero => rfl
      | succ m ih =>
        unfold solo at ih ⊢
        rw [Function.iterate_succ_apply', ih]
        simp [bget_step, hlk]

/-- C17 fails on the code. On a cache of 30 buffers whose bucket 4 is busy
(its two buffers are held for other blocks), two threads call `bget(1, 16)`
concurrently and take their steps in turn. Each one misses in bucket 4 and
gives up its lock; each one takes its own unreferenced buffer out of bucket
0 (buffers 0 and 13) and gives it the identity `(1, 16)`; each one inserts
its buffer in bucket 4 without looking at the bucket again. The two calls
return different buffers, 0 and 13, both carrying `(1, 16)` with `refcnt = 1`
and both linked in bucket 4. Had the first thread finished before the second
one started, the second one would have found buffer 0 and waited for it. -/
theorem C17_concurrent_acquires_diverge :
    Reachable 30 busyBucket ∧ hash 1 16 = 4 ∧ busyBucket.head 4 = [17, 4] ∧
    busyBucket.head 0 = [26, 13, 0] ∧
    (∀ x ∈ [0, 13, 26], (busyBucket.buf x).refcnt = 0 ∧ (busyBucket.buf x).dev ≠ 1) ∧
    (interleave 1 2 1 16 [false, true, false, true, false, true, false, true]
        (Pc.start, Pc.start, busyBucket)).1 = Pc.done 0 ∧
    (interleave 1 2 1 16 [false, true, false, true, false, true, false, true]
        (Pc.start, Pc.start, busyBucket)).2.1 = Pc.done 13 ∧
    (((interleave 1 2 1 16 [false, true, false, true, false, true, false, true]
        (Pc.start, Pc.start, busyBucket)).2.2.buf 0)
      = { dev := 1, blockno := 16, valid := 0, refcnt := 1, lock := some 1 }) ∧
    (((interleave 1 2 1 16 [false, true, false, true, false, true, false, true]
        (Pc.start, Pc.start, busyBucket)).2.2.buf 13)
      = { dev := 1, blockno := 16, valid := 0, refcnt := 1, lock := some 2 }) ∧
    (interleave 1 2 1 16 [false, true, false, true, false, true, false, true]
        (Pc.start, Pc.start, busyBucket)).2.2.head 4 = [13, 0, 17, 4] ∧
    (interleave 1 2 1 16 [false, false, false, false, true, true, true]
        (Pc.start, Pc.start, busyBucket)).1 = Pc.done 0 ∧
    (interleave 1 2 1 16 [false, false, false, false, true, true, true]
        (Pc.start, Pc.start, busyBucket)).2.1 = Pc.lock 0 ∧
    (interleave 1 2 1 16 [false, false, false, false, true, true, true]
        (Pc.start, Pc.start, busyBucket)).2.2.head 4 = [0, 17, 4] := by
  refine ⟨after_reachable 30 _ (by decide), by decide, by decide, by decide, by decide,
    by decide, by decide, by decide, by decide, by decide, by decide, by decide, by decide⟩

/-- C11 (amended). Cross-shard borrowing: in a state reachable from `binit`,
if `bget(dev, blockno)` misses in bucket `h = (dev ^ blockno) % NBUCKETS`,
bucket `h` has no buffer with `refcnt == 0` and some other bucket has one, then
`bget` takes, from the lowest-indexed bucket `i != h` containing a buffer with
`refcnt == 0`, the such buffer `b` nearest the tail of that list, removes it
from bucket `i`, inserts it at the head of bucket `h` and gives it identity
`(dev, blockno)`, `valid = 0` and `refcnt = 1`; bucket `i` shrinks by one,
bucket `h` grows by one, and every other bucket and buffer is unchanged. The
call returns `b` if the sleeplock of `b` is free, and is suspended in
`acquiresleep` if that sleeplock is held. -/
theorem C11_cross_shard_borrow (nbuf : Nat) (s : Bcache) (hr : Reachable nbuf s)
    (pid dev blockno : Nat)
    (hmiss : ∀ x ∈ s.head (hash dev blockno),
      ¬ ((s.buf x).dev = dev ∧ (s.buf x).blockno = blockno))
    (hnone : ∀ x ∈ s.head (hash dev blockno), (s.buf x).refcnt ≠ 0)
    (hsome : ∃ i, i < NBUCKETS ∧ i ≠ hash dev blockno ∧ ∃ x ∈ s.head i, (s.buf x).refcnt = 0) :
    ∃ i b pre post, i < NBUCKETS ∧ i ≠ hash dev blockno ∧
      (∀ j, j < i → j ≠ hash dev blockno → ∀ x ∈ s.head j, (s.buf x).refcnt ≠ 0) ∧
      s.head i = pre ++ b :: post ∧ (s.buf b).refcnt = 0 ∧
      (∀ x ∈ post, (s.buf x).refcnt ≠ 0) ∧
      ∃ s1, bget_select dev blockno s = some (b, s1) ∧
        s1.head i = pre ++ post ∧
        s1.head (hash dev blockno) = b :: s.head (hash dev blockno) ∧
        (s1.head i).length + 1 = (s.head i).length ∧
        (s1.head (hash dev blockno)).length = (s.head (hash dev blockno)).length + 1 ∧
        (∀ j, j < NBUCKETS → j ≠ i → j ≠ hash dev blockno → s1.head j = s.head j) ∧
        s1.buf b = (⟨dev, blockno, 0, 1, (s.buf b).lock⟩ : Buf) ∧
        (∀ x, x ≠ b → s1.buf x = s.buf x) ∧ s1.disk = s.disk ∧
        ((s.buf b).lock = none →
          bget pid dev blockno s
            = Result.ret b (setBuf s1 b { s1.buf b with lock := some pid })) ∧
        (∀ q, (s.buf b).lock = some q → bget pid dev blockno s = Result.sleep b s1) := by
  have hp := (reachable_partition hr).1
  have hl : lookup s (hash dev blockno) dev blockno = none :=
    (lookup_none_iff s _ dev blockno).mpr hmiss
  have hv : victim s (hash dev blockno) = none := (victim_none_iff s _).mpr hnone
  cases hst : steal s (hash dev blockno) (List.range NBUCKETS) with
  | none =>
    obtain ⟨i, hi, hih, x, hx, hx0⟩ := hsome
    have := (steal_none_iff s _ _).mp hst i (List.mem_range.mpr hi) hih
    exact absurd hx0 ((victim_none_iff s i).mp this x hx)
  | some p =>
    obtain ⟨i, b⟩ := p
    obtain ⟨hi, hih, -, hfirst⟩ := steal_first hst
    obtain ⟨pre, post, hsplit, hb0, hpost, s1, hsel, h1, h2, h3, h4, h5, h6⟩ :=
      bget_select_borrow hp hl hv hst
    have hlock : (s1.buf b).lock = (s.buf b).lock := by rw [h4]
    refine ⟨i, b, pre, post, hi, hih,
      fun j hj hjh => (victim_none_iff s j).mp (hfirst j hj hjh), hsplit, hb0, hpost,
      s1, hsel, h1, h2, ?_, ?_, h3, h4, h5, h6, fun hn => ?_, fun q hq => ?_⟩
    · rw [h1, hsplit]; simp; omega
    · rw [h2]; simp
    · exact (bget_of_select pid hsel).1 (hlock.trans hn)
    · exact (bget_of_select pid hsel).2 q (hlock.trans hq)

/-- C11 (amended) on a cache of 13 buffers where buffer 4, alone in bucket 4,
is held for block (1, 5): `bget(1, 16)` borrows buffer 0 from bucket 0. -/
theorem C11_cross_shard_borrow_witness :
    Reachable 13 (after 13 [Call.bget 9 1 5]) ∧
    (∀ x ∈ (after 13 [Call.bget 9 1 5]).head (hash 1 16),
      ¬ (((after 13 [Call.bget 9 1 5]).buf x).dev = 1 ∧
        ((after 13 [Call.bget 9 1 5]).buf x).blockno = 16)) ∧
    (∀ x ∈ (after 13 [Call.bget 9 1 5]).head (hash 1 16),
      ((after 13 [Call.bget 9 1 5]).buf x).refcnt ≠ 0) ∧
    bget 2 1 16 (after 13 [Call.bget 9 1 5])
      = Result.ret 0 (after 13 [Call.bget 9 1 5, Call.bget 2 1 16]) ∧
    (after 13 [Call.bget 9 1 5, Call.bget 2 1 16]).head 4 = [0, 4] ∧
    (after 13 [Call.bget 9 1 5, Call.bget 2 1 16]).head 0 = [] ∧
    ∃ i b pre post, i < NBUCKETS ∧ i ≠ hash 1 16 ∧
      (∀ j, j < i → j ≠ hash 1 16 →
        ∀ x ∈ (after 13 [Call.bget 9 1 5]).head j,
          ((after 13 [Call.bget 9 1 5]).buf x).refcnt ≠ 0) ∧
      (after 13 [Call.bget 9 1 5]).head i = pre ++ b :: post ∧
      ((after 13 [Call.bget 9 1 5]).buf b).refcnt = 0 ∧
      (∀ x ∈ post, ((after 13 [Call.bget 9 1 5]).buf x).refcnt ≠ 0) ∧
      ∃ s1, bget_select 1 16 (after 13 [Call.bget 9 1 5]) = some (b, s1) ∧
        s1.head i = pre ++ post ∧
        s1.head (hash 1 16) = b :: (after 13 [Call.bget 9 1 5]).head (hash 1 16) ∧
        (s1.head i).length + 1 = ((after 13 [Call.bget 9 1 5]).head i).length ∧
        (s1.head (hash 1 16)).length
          = ((after 13 [Call.bget 9 1 5]).head (hash 1 16)).length + 1 ∧
        (∀ j, j < NBUCKETS → j ≠ i → j ≠ hash 1 16 →
          s1.head j = (after 13 [Call.bget 9 1 5]).head j) ∧
        s1.buf b = (⟨1, 16, 0, 1, ((after 13 [Call.bget 9 1 5]).buf b).lock⟩ : Buf) ∧
        (∀ x, x ≠ b → s1.buf x = (after 13 [Call.bget 9 1 5]).buf x) ∧
        s1.disk = (after 13 [Call.bget 9 1 5]).disk ∧
        (((after 13 [Call.bget 9 1 5]).buf b).lock = none →
          bget 2 1 16 (after 13 [Call.bget 9 1 5])
            = Result.ret b (setBuf s1 b { s1.buf b with lock := some 2 })) ∧
        (∀ q, ((after 13 [Call.bget 9 1 5]).buf b).lock = some q →
          bget 2 1 16 (after 13 [Call.bget 9 1 5]) = Result.sleep b s1) :=
  ⟨after_reachable 13 _ (by decide), by decide, by decide, rfl, by decide, by decide,
    C11_cross_shard_borrow 13 _ (after_reachable 13 _ (by decide)) 2 1 16 (by decide)
      (by decide) ⟨0, by decide, by decide, 0, by decide, by decide⟩⟩

/-- C11 as stated fails: on a cache of 13 buffers, after the calls of
`lockedCalls` by process 1, buffers 0 to 3 are held, buffer 4 is unreferenced
with its sleeplock held by process 1, and `bget(1, 12)` by process 1 misses in
bucket 0, finds no unreferenced buffer there, borrows buffer 4 from bucket 4
and does not return: it is suspended in `acquiresleep` on a sleeplock its
caller holds. -/
theorem C11_counterexample :
    Reachable 13 (after 13 lockedCalls) ∧
    hash 1 12 = 0 ∧
    (after 13 lockedCalls).head 0 = [0] ∧
    ((after 13 lockedCalls).buf 0).dev = 1 ∧ ((after 13 lockedCalls).buf 0).blockno = 1 ∧
    ((after 13 lockedCalls).buf 0).refcnt = 1 ∧
    (after 13 lockedCalls).head 4 = [4] ∧
    ((after 13 lockedCalls).buf 4).refcnt = 0 ∧
    ((after 13 lockedCalls).buf 4).lock = some 1 ∧
    bget 1 1 12 (after 13 lockedCalls)
      = Result.sleep 4
          (insertHead (recycle (unlink (after 13 lockedCalls) 4) 4 1 12) 0 4) :=
  ⟨after_reachable 13 _ (by decide), by decide, by decide, by decide, by decide, by decide,
    by decide, by decide, by decide, rfl⟩

end Bio
